import Mathlib

/-!
Verification of `queue.c` (circular doubly-linked queue of strings)

The C code is embedded shallowly.  Pointers are natural numbers (`0` is `NULL`), the
memory reachable from a queue is a `Heap` holding the `next` and `prev` field of every
`struct list_head` and the string owned by every `element_t`.  An element and the
`list_head` embedded in it share one address (`list_entry` is pointer arithmetic only).
Every C function becomes a function on heaps in the `Result` monad: a `NULL`
dereference or a payload access through a node that is no element is a `fault`, and every
loop carries a fuel counter whose exhaustion is a `timeout`.

The header `list.h` is not among the sources.  Its primitives are modelled from the
specification (`list_empty`, `list_del`), and its two iteration macros are unfolded in the
loops that use them: `list_for_each (node, head)` starts at `head->next`, steps with
`node = node->next` and stops at `head`; `list_for_each_safe (node, safe, head)` also
keeps `safe = node->next`, read before the body runs, and steps with `node = safe`.

The `int` variables `i`, `l`, `r` and `cnt` of `q_sort` are embedded with their range: an
arithmetic result above `INT_MAX` (`2^31 - 1`) is signed overflow, undefined behaviour in
C, and is a `fault`; this happens from `2^30 + 1` elements on.  The counters of `merge`
are only incremented below `size`.  The counter of `q_size` is a plain number: it leaves
`int` only past `INT_MAX` elements, a size its result type cannot express, and the counter
of `q_swap` is used modulo 2 only.  The output of the `printf` call in `q_delete_dup` is
not modelled, only its read of the payload.

The allocator is a capability that can fail: the pointer that each `malloc` call returns
is an argument of the embedded function, `NULL` standing for failure.  A string argument
is the sequence of bytes it points to, of which the bytes before the first `0` count.  The
output buffer of a removal is the sequence of bytes of the object `sp` points to (`none`
for `NULL`); `bufsize` is a `size_t` of 64 bits, and a write through `NULL` or past the end
of the object is a fault.
-/

namespace Queue

/-! ## Results, heaps and the primitive memory accesses -/

/-- Outcome of running a piece of the C code. -/
inductive Result (α : Type) where
  | ok (a : α)
  | fault
  | timeout
  deriving DecidableEq

/-- Sequencing of two computations: a fault or a timeout of the first one is final. -/
def Result.bind {α β : Type} (r : Result α) (f : α → Result β) : Result β :=
  match r with
  | .ok a => f a
  | .fault => .fault
  | .timeout => .timeout

instance : Monad Result where
  pure := Result.ok
  bind := Result.bind

/-- The null pointer. -/
def NULL : Nat := 0

/-- The memory: the two link fields of every `struct list_head`, and for every address that
is (the `list_head` of) a live `element_t` the bytes of its string before the terminator. -/
structure Heap where
  next : Nat → Nat
  prev : Nat → Nat
  value : Nat → Option (List Nat)

/-- Read `p->next`. -/
def rdNext (h : Heap) (p : Nat) : Result Nat :=
  if p = NULL then .fault else .ok (h.next p)

/-- Read `p->prev`. -/
def rdPrev (h : Heap) (p : Nat) : Result Nat :=
  if p = NULL then .fault else .ok (h.prev p)

/-- Assignment `p->next = v`. -/
def wrNext (h : Heap) (p v : Nat) : Result Heap :=
  if p = NULL then .fault else .ok { h with next := Function.update h.next p v }

/-- Assignment `p->prev = v`. -/
def wrPrev (h : Heap) (p v : Nat) : Result Heap :=
  if p = NULL then .fault else .ok { h with prev := Function.update h.prev p v }

/-- Read `list_entry(p, element_t, list)->value`: a fault unless `p` is an element. -/
def rdValue (h : Heap) (p : Nat) : Result (List Nat) :=
  if p = NULL then .fault else
    match h.value p with
    | some s => .ok s
    | none => .fault

/-- The libc `strcmp` on the bytes of two strings (the end of a list reads as the
terminator `0`, and a `0` byte inside a list ends the string): the difference of the first
pair of bytes that differ. -/
def strcmp : List Nat → List Nat → Int
  | [], [] => 0
  | [], b :: _ => - (b : Int)
  | a :: _, [] => (a : Int)
  | a :: as, b :: bs =>
    if a = b then (if a = 0 then 0 else strcmp as bs) else (a : Int) - (b : Int)

/-! ## The list primitives of `list.h` -/

/-- Modelled from the spec: `list.h` is not among the sources.  `is_empty(sentinel)`: a
queue is empty iff `sentinel.next == sentinel`. -/
def list_empty (h : Heap) (head : Nat) : Result Bool := do
  let n ← rdNext h head
  pure (decide (n = head))

/-- Modelled from the spec: `list.h` is not among the sources.  `detach(node)` relinks the
two neighbours of `node` to each other and frees nothing; the links of `node` itself are
left as they were. -/
def list_del (h : Heap) (node : Nat) : Result Heap := do
  let nx ← rdNext h node
  let pv ← rdPrev h node
  let h ← wrPrev h nx pv
  wrNext h pv nx

/-- The function `q_release_element`: frees the string and the element. -/
def q_release_element (h : Heap) (e : Nat) : Result Heap := do
  let _ ← rdValue h e
  pure { h with value := Function.update h.value e none }

/-! ## `q_size` -/

/-- The loop `list_for_each (pos, head) ++cnt;` of `q_size`. -/
def q_size_loop : Nat → Heap → Nat → Nat → Nat → Result Nat
  | 0, _, _, _, _ => .timeout
  | fuel + 1, h, head, pos, cnt =>
    if pos ≠ head then do
      let nx ← rdNext h pos
      q_size_loop fuel h head nx (cnt + 1)
    else pure cnt

/-- The function `q_size`. -/
def q_size (fuel : Nat) (h : Heap) (head : Nat) : Result Nat :=
  if head = NULL then pure 0 else do
    let e ← list_empty h head
    if e then pure 0 else do
      let first ← rdNext h head
      q_size_loop fuel h head first 0

/-! ## `q_delete_mid` -/

/-- The loop `for (int i = q_size(head) >> 1; !(i < 0); --i) head = head->next;`. -/
def q_delete_mid_walk : Nat → Heap → Int → Nat → Result Nat
  | 0, _, _, _ => .timeout
  | fuel + 1, h, i, head =>
    if ¬ (i < 0) then do
      let nx ← rdNext h head
      q_delete_mid_walk fuel h (i - 1) nx
    else pure head

/-- The function `q_delete_mid`: the returned flag and the heap it leaves. -/
def q_delete_mid (fuel : Nat) (h : Heap) (head : Nat) : Result (Bool × Heap) :=
  if head = NULL then pure (false, h) else do
    let e ← list_empty h head
    if e then pure (false, h) else do
      let sz ← q_size fuel h head
      let node ← q_delete_mid_walk fuel h ((sz >>> 1 : Nat) : Int) head
      let h ← list_del h node
      let h ← q_release_element h node
      pure (true, h)

/-! ## `q_delete_dup` -/

/-- The loop `list_for_each_safe (node, safe, head)` of `q_delete_dup`; `f` is the flag
that remembers that the previous node was deleted as a duplicate. -/
def q_delete_dup_loop : Nat → Heap → Nat → Nat → Nat → Nat → Result Heap
  | 0, _, _, _, _, _ => .timeout
  | fuel + 1, h, head, node, safe, f =>
    if node ≠ head then do
      let v ← rdValue h node
      let dup ← (if safe ≠ head then do
                    let w ← rdValue h safe
                    pure (decide (strcmp v w = 0))
                  else pure false)
      if dup then do
        let h ← list_del h node
        let h ← q_release_element h node
        let nx ← rdNext h safe
        q_delete_dup_loop fuel h head safe nx 1
      else if f ≠ 0 then do
        let h ← list_del h node
        let h ← q_release_element h node
        let nx ← rdNext h safe
        q_delete_dup_loop fuel h head safe nx 0
      else do
        let nx ← rdNext h safe
        q_delete_dup_loop fuel h head safe nx f
    else pure h

/-- The function `q_delete_dup`: the returned flag and the heap it leaves. -/
def q_delete_dup (fuel : Nat) (h : Heap) (head : Nat) : Result (Bool × Heap) :=
  if head = NULL then pure (false, h) else do
    let node ← rdNext h head
    let safe ← rdNext h node
    let h ← q_delete_dup_loop fuel h head node safe 0
    pure (true, h)

/-! ## `q_swap` -/

/-- The six assignments in the body of the loop of `q_swap`. -/
def q_swap_body (h : Heap) (node safe : Nat) : Result Heap := do
  let np ← rdPrev h node
  let h ← wrPrev h safe np
  let np ← rdPrev h node
  let npp ← rdPrev h np
  let h ← wrPrev h node npp
  let sp ← rdPrev h safe
  let h ← wrPrev h sp node
  let np ← rdPrev h node
  let h ← wrNext h np node
  let sp ← rdPrev h safe
  let h ← wrNext h sp safe
  let sp ← rdPrev h safe
  wrNext h node sp

/-- The loop `list_for_each_safe (node, safe, head)` of `q_swap`. -/
def q_swap_loop : Nat → Heap → Nat → Nat → Nat → Nat → Result Heap
  | 0, _, _, _, _, _ => .timeout
  | fuel + 1, h, head, node, safe, cnt =>
    if node ≠ head then do
      let h ← (if cnt % 2 ≠ 0 then q_swap_body h node safe else pure h)
      let nx ← rdNext h safe
      q_swap_loop fuel h head safe nx (cnt + 1)
    else pure h

/-- The function `q_swap`. -/
def q_swap (fuel : Nat) (h : Heap) (head : Nat) : Result Heap := do
  let node ← rdNext h head
  let safe ← rdNext h node
  q_swap_loop fuel h head node safe 0

/-! ## `q_reverse` -/

/-- The three assignments `tmp = node->next; node->next = node->prev; node->prev = tmp;`. -/
def q_reverse_body (h : Heap) (node : Nat) : Result Heap := do
  let tmp ← rdNext h node
  let pv ← rdPrev h node
  let h ← wrNext h node pv
  wrPrev h node tmp

/-- The loop `list_for_each_safe (node, safe, head)` of `q_reverse`; it yields the heap
and the value of `node` at the exit. -/
def q_reverse_loop : Nat → Heap → Nat → Nat → Nat → Result (Heap × Nat)
  | 0, _, _, _, _ => .timeout
  | fuel + 1, h, head, node, safe =>
    if node ≠ head then do
      let h ← q_reverse_body h node
      let nx ← rdNext h safe
      q_reverse_loop fuel h head safe nx
    else pure (h, node)

/-- The function `q_reverse`. -/
def q_reverse (fuel : Nat) (h : Heap) (head : Nat) : Result Heap := do
  let node ← rdNext h head
  let safe ← rdNext h node
  let (h, node) ← q_reverse_loop fuel h head node safe
  q_reverse_body h node

/-! ## `q_sort` -/

/-- The function `myInsert`: insert `node` before `pt`. -/
def myInsert (h : Heap) (pt node : Nat) : Result Heap := do
  let h ← wrNext h node pt
  let pp ← rdPrev h pt
  let h ← wrPrev h node pp
  let np ← rdPrev h node
  let h ← wrNext h np node
  wrPrev h pt node

/-- The loop of `merge`, with its two counters `lcnt` and `rcnt`; each is incremented only
while it is below `size`, so it stays an `int`. -/
def merge_loop : Nat → Heap → Nat → Nat → Nat → Nat → Nat → Nat → Result Heap
  | 0, _, _, _, _, _, _, _ => .timeout
  | fuel + 1, h, lptr, rptr, size, head, lcnt, rcnt =>
    if lcnt < size ∧ rcnt < size ∧ rptr ≠ head then do
      let lv ← rdValue h lptr
      let rv ← rdValue h rptr
      if strcmp lv rv > 0 then do
        let tmp ← rdNext h rptr
        let h ← list_del h rptr
        let h ← myInsert h lptr rptr
        merge_loop fuel h lptr tmp size head lcnt (rcnt + 1)
      else do
        let nx ← rdNext h lptr
        merge_loop fuel h nx rptr size head (lcnt + 1) rcnt
    else pure h

/-- The function `merge`. -/
def merge (fuel : Nat) (h : Heap) (lptr rptr size head : Nat) : Result Heap :=
  merge_loop fuel h lptr rptr size head 0 0

/-- The largest value of an `int` (32 bits). -/
def INT_MAX : Nat := 2147483647

/-- The value of an arithmetic expression of type `int` whose mathematical result is `n`:
a result above `INT_MAX` is signed overflow, which is undefined behaviour. -/
def int_val (n : Nat) : Result Nat :=
  if n ≤ INT_MAX then .ok n else .fault

/-- The loop `list_for_each (node, head)` inside one pass of `q_sort`, with its `int`
variables `cnt`, `l` and `r`; it yields the heap and the values of `lptr` and `rptr` at
the exit. -/
def q_sort_inner : Nat → Heap → Nat → Nat → Nat → Nat → Nat → Nat → Nat → Nat →
    Result (Heap × Nat × Nat)
  | 0, _, _, _, _, _, _, _, _, _ => .timeout
  | fuel + 1, h, head, i, node, cnt, l, r, lptr, rptr =>
    if node ≠ head then do
      let rptr := if cnt = r then node else rptr
      if cnt = l then do
        let t ← int_val (2 * i)
        let l ← int_val (l + t)
        let t ← int_val (2 * i)
        let r ← int_val (r + t)
        let h ← merge fuel h lptr rptr i head
        let cnt ← int_val (cnt + 1)
        let nx ← rdNext h node
        q_sort_inner fuel h head i nx cnt l r node NULL
      else do
        let cnt ← int_val (cnt + 1)
        let nx ← rdNext h node
        q_sort_inner fuel h head i nx cnt l r lptr rptr
    else pure (h, lptr, rptr)

/-- The last statement of a pass of `q_sort`: `if (lptr && rptr) merge(lptr, rptr, i, head);`. -/
def q_sort_last (fuel : Nat) (h : Heap) (head i lptr rptr : Nat) : Result Heap :=
  if lptr ≠ NULL ∧ rptr ≠ NULL then merge fuel h lptr rptr i head else pure h

/-- The loop `for (int i = 1; i < size; i *= 2)` of `q_sort`; a pass starts with
`int l = 2 * i, r = i, cnt = 0`. -/
def q_sort_outer : Nat → Heap → Nat → Nat → Nat → Result Heap
  | 0, _, _, _, _ => .timeout
  | fuel + 1, h, head, size, i =>
    if i < size then do
      let l ← int_val (2 * i)
      let first ← rdNext h head
      let r ← q_sort_inner fuel h head i first 0 l i first NULL
      let h ← q_sort_last fuel r.1 head i r.2.1 r.2.2
      let i ← int_val (i * 2)
      q_sort_outer fuel h head size i
    else pure h

/-- The function `q_sort`. -/
def q_sort (fuel : Nat) (h : Heap) (head : Nat) : Result Heap :=
  if head = NULL then pure h else do
    let size ← q_size fuel h head
    q_sort_outer fuel h head size 1

/-! ## Well-formed queues -/

/-- The link from `a` to `b` is consistent: `a.next == b` and `b.prev == a`. -/
def Link (h : Heap) (a b : Nat) : Prop := h.next a = b ∧ h.prev b = a

/-- A doubly-linked segment: following `next` from `a` visits exactly `xs` and then reaches
`b`, and every link of it is consistent in both directions. -/
def Seg (h : Heap) : Nat → List Nat → Nat → Prop
  | a, [], b => Link h a b
  | a, x :: xs, b => Link h a x ∧ Seg h x xs b

/-- The first node of `l`, or `b` when `l` is empty. -/
def firstOr : List Nat → Nat → Nat
  | [], b => b
  | x :: _, _ => x

/-- The last node of `l`, or `a` when `l` is empty. -/
def lastOr : List Nat → Nat → Nat
  | [], a => a
  | x :: t, _ => lastOr t x

/-- A well-formed queue with sentinel `head` whose forward traversal visits exactly the
elements `xs`: the structure is circular with consistent links, the sentinel and the
elements are pairwise distinct non-null nodes, the sentinel is no element and every
element owns a string. -/
structure IsQueue (h : Heap) (head : Nat) (xs : List Nat) : Prop where
  path : Seg h head xs head
  nodup : (head :: xs).Nodup
  nonnull : ∀ p ∈ head :: xs, p ≠ NULL
  sentinel : h.value head = none
  elems : ∀ x ∈ xs, h.value x ≠ none

instance (h : Heap) (a b : Nat) : Decidable (Link h a b) := by
  unfold Link; infer_instance

/-- Deciding whether a segment is a consistent segment. -/
def Seg.decide (h : Heap) : (a : Nat) → (xs : List Nat) → (b : Nat) → Decidable (Seg h a xs b)
  | a, [], b => inferInstanceAs (Decidable (Link h a b))
  | a, x :: xs, b =>
    have := Seg.decide h x xs b
    inferInstanceAs (Decidable (Link h a x ∧ Seg h x xs b))

instance (h : Heap) (a : Nat) (xs : List Nat) (b : Nat) : Decidable (Seg h a xs b) :=
  Seg.decide h a xs b

/-- The string owned by element `x` (empty when `x` is no element). -/
def payload (h : Heap) (x : Nat) : List Nat := (h.value x).getD []

/-- Payload order: `strcmp` of the two payloads is not positive. -/
def payLe (h : Heap) (a b : Nat) : Prop := strcmp (payload h a) (payload h b) ≤ 0

/-- Payload equality as `strcmp` sees it. -/
def payEq (h : Heap) (a b : Nat) : Prop := strcmp (payload h a) (payload h b) = 0

instance (h : Heap) (a b : Nat) : Decidable (payLe h a b) := by
  unfold payLe; infer_instance

instance (h : Heap) (a b : Nat) : Decidable (payEq h a b) := by
  unfold payEq; infer_instance

/-- The heap `h` with the two link fields exchanged at every node of `s`. -/
def flipOn (s : List Nat) (h : Heap) : Heap where
  next p := if p ∈ s then h.prev p else h.next p
  prev p := if p ∈ s then h.next p else h.prev p
  value := h.value

/-- The order that exchanges the members of every consecutive pair; an unpaired last node
stays. -/
def swapL : List Nat → List Nat
  | a :: b :: t => b :: a :: swapL t
  | t => t

/-- What the loop of `q_delete_dup` keeps of the nodes `l` whose payloads are given by
`key`, when it starts with the flag `f`: a node is dropped when its successor has an equal
payload, or when the flag says that its predecessor was dropped for that reason. -/
def dedupL (key : Nat → List Nat) : Bool → List Nat → List Nat
  | _, [] => []
  | f, [x] => if f then [] else [x]
  | f, x :: y :: t =>
    if strcmp (key x) (key y) = 0 then dedupL key true (y :: t)
    else if f then dedupL key false (y :: t) else x :: dedupL key false (y :: t)

/-- The number of elements of `xs` whose payload equals the payload of `x`. -/
def occurrences (h : Heap) (xs : List Nat) (x : Nat) : Nat :=
  xs.countP (fun y => decide (payEq h x y))

/-- The order in which the loop of `merge` leaves a left run `ls` followed by a right run
`rs`, for payloads given by `key`: the right node moves in front exactly when the left
payload is strictly greater. -/
def mergeL (key : Nat → List Nat) : List Nat → List Nat → List Nat
  | [], rs => rs
  | l :: ls, [] => l :: ls
  | l :: ls, r :: rs =>
    if strcmp (key l) (key r) > 0 then r :: mergeL key (l :: ls) rs
    else l :: mergeL key ls (r :: rs)
termination_by ls rs => ls.length + rs.length

/-- The order in which one pass of `q_sort` with run length `i` leaves the nodes `zs`:
every block of `2 * i` consecutive nodes is replaced by the merge of its two halves. -/
def passL (key : Nat → List Nat) (i : Nat) (zs : List Nat) : List Nat :=
  if 2 * i < zs.length ∧ 0 < i then
    mergeL key (zs.take i) ((zs.drop i).take i) ++ passL key i (zs.drop (2 * i))
  else mergeL key (zs.take i) (zs.drop i)
termination_by zs.length
decreasing_by
  simp only [List.length_drop]
  omega

/-- Order of two nodes by `strcmp` of their payloads, the payloads being given by `key`. -/
def keyLe (key : Nat → List Nat) (a b : Nat) : Prop := strcmp (key a) (key b) ≤ 0

/-- Every aligned block of `i` consecutive nodes of `ys` is in ascending payload order. -/
def BlockSorted (key : Nat → List Nat) (i : Nat) (ys : List Nat) : Prop :=
  ∀ k, List.Pairwise (keyLe key) ((ys.drop (k * i)).take i)

/-- Forward traversal: the nodes met by following `next` from `p` until `head`. -/
def traverse : Nat → Heap → Nat → Nat → List Nat
  | 0, _, _, _ => []
  | fuel + 1, h, head, p => if p = head then [] else p :: traverse fuel h head (h.next p)

/-- Backward traversal: the nodes met by following `prev` from `p` until `head`. -/
def traverseBack : Nat → Heap → Nat → Nat → List Nat
  | 0, _, _, _ => []
  | fuel + 1, h, head, p => if p = head then [] else p :: traverseBack fuel h head (h.prev p)

/-- The payloads of the queue at `head` in forward traversal order. -/
def q_payloads (fuel : Nat) (h : Heap) (head : Nat) : List (List Nat) :=
  (traverse fuel h head (h.next head)).map (payload h)

/-- A sample queue: the sentinel lives at address `1` and the elements, holding the
strings `vals` in this order, at the addresses `2, 3, ...`. -/
def sampleQueue (vals : List (List Nat)) : Heap where
  next p := if p = 0 then 0 else if p = vals.length + 1 then 1 else
    if p ≤ vals.length then p + 1 else 0
  prev p := if p = 0 then 0 else if p = 1 then vals.length + 1 else
    if p ≤ vals.length + 1 then p - 1 else 0
  value p := if 2 ≤ p then vals[p - 2]? else none


/-! ## Strings, the output buffer and the allocator -/

/-- The C string held by a sequence of bytes: the bytes before the first `0`. -/
def cstr (s : List Nat) : List Nat := s.takeWhile (fun b => decide (b ≠ 0))

/-- The libc `strlen`. -/
def strlen (s : List Nat) : Nat := (cstr s).length

/-- The number of values of `size_t` (64 bits). -/
def SIZE_MOD : Nat := 2 ^ 64

/-- The `n` bytes that the libc `strncpy (dst, src, n)` writes to `dst`: the first `n`
bytes of the string `src`, then `0` bytes up to `n` when the string is shorter. -/
def strncpy_bytes (src : List Nat) (n : Nat) : List Nat :=
  (cstr src).take n ++ List.replicate (n - strlen src) 0

/-- The libc `memset (sp, c, n)` on the output buffer: `sp` is `none` for a `NULL`
pointer and otherwise holds the bytes of the object it points to.  Writing `n > 0` bytes
through `NULL` or past the end of the object is a fault. -/
def memset (sp : Option (List Nat)) (c n : Nat) : Result (Option (List Nat)) :=
  if n = 0 then pure sp else
    match sp with
    | none => .fault
    | some buf => if n ≤ buf.length then pure (some (List.replicate n c ++ buf.drop n)) else .fault

/-- The libc `strncpy (sp, src, n)` on the output buffer; it writes exactly `n` bytes.
Writing `n > 0` bytes through `NULL` or past the end of the object is a fault. -/
def strncpy (sp : Option (List Nat)) (src : List Nat) (n : Nat) : Result (Option (List Nat)) :=
  if n = 0 then pure sp else
    match sp with
    | none => .fault
    | some buf => if n ≤ buf.length then pure (some (strncpy_bytes src n ++ buf.drop n)) else .fault

/-- Modelled from the spec: `list.h` is not among the sources.  `init(sentinel)` makes the
sentinel point to itself in both directions. -/
def INIT_LIST_HEAD (h : Heap) (head : Nat) : Result Heap := do
  let h ← wrNext h head head
  wrPrev h head head

/-- Modelled from the spec: `list.h` is not among the sources.  `attach_before(target,
new_node)` splices `node` immediately before `target` in traversal order. -/
def attach_before (h : Heap) (target node : Nat) : Result Heap := do
  let h ← wrNext h node target
  let tp ← rdPrev h target
  let h ← wrPrev h node tp
  let np ← rdPrev h node
  let h ← wrNext h np node
  wrPrev h target node

/-- Modelled from the spec: `list.h` is not among the sources.  Head insertion attaches
the node immediately after the sentinel, that is before the sentinel's successor. -/
def list_add (h : Heap) (node head : Nat) : Result Heap := do
  let first ← rdNext h head
  attach_before h first node

/-- Modelled from the spec: `list.h` is not among the sources.  Tail insertion is
attach-before-sentinel. -/
def list_add_tail (h : Heap) (node head : Nat) : Result Heap :=
  attach_before h head node

/-! ## `q_new`, `q_insert_head`, `q_insert_tail` -/

/-- The element at `e` gets the string `v`. -/
def wrValue (h : Heap) (e : Nat) (v : List Nat) : Heap :=
  { h with value := Function.update h.value e (some v) }

/-- The function `q_new`.  Modelled from the spec: the allocator is a capability that can
fail; `p` is what `malloc (sizeof (struct list_head))` returns, `NULL` on failure. -/
def q_new (h : Heap) (p : Nat) : Result (Nat × Heap) :=
  if p ≠ NULL then do
    let h ← INIT_LIST_HEAD h p
    pure (p, h)
  else pure (p, h)

/-- The function `q_insert_head`.  The result of `malloc (sizeof (element_t))` is `e` and
the result of `malloc (strlen (s) + 1)` is `str`, `NULL` standing for a failed allocation;
`free (new)` leaves the heap of the queue as it is.  The new element owns the string that
`strncpy (new->value, s, strlen (s) + 1)` writes. -/
def q_insert_head (h : Heap) (head : Nat) (s : List Nat) (e str : Nat) : Result (Bool × Heap) :=
  if head = NULL then pure (false, h) else
    if e = NULL then pure (false, h) else
      if str = NULL then pure (false, h) else do
        let h := wrValue h e (cstr (strncpy_bytes s (strlen s + 1)))
        let h ← list_add h e head
        pure (true, h)

/-- The function `q_insert_tail`, with the allocation results `e` and `str` as for
`q_insert_head`. -/
def q_insert_tail (h : Heap) (head : Nat) (s : List Nat) (e str : Nat) : Result (Bool × Heap) :=
  if head = NULL then pure (false, h) else
    if e = NULL then pure (false, h) else
      if str = NULL then pure (false, h) else do
        let h := wrValue h e (cstr (strncpy_bytes s (strlen s + 1)))
        let h ← list_add_tail h e head
        pure (true, h)

/-- Calling `q_insert_tail` for every entry of `calls` in turn; an entry holds the string
and the two allocation results of its call.  The flag tells whether every call returned
true. -/
def q_insert_tail_all : Heap → Nat → List (List Nat × Nat × Nat) → Result (Bool × Heap)
  | h, _, [] => pure (true, h)
  | h, head, c :: rest => do
    let r ← q_insert_tail h head c.1 c.2.1 c.2.2
    let r2 ← q_insert_tail_all r.2 head rest
    pure (r.1 && r2.1, r2.2)

/-! ## `q_remove_head`, `q_remove_tail` -/

/-- The function `q_remove_head`: the returned element, the heap and the output buffer it
leaves.  `bufsize - 1` is computed in `size_t`, that is `bufsize + (2^64 - 1)` modulo
`2^64`. -/
def q_remove_head (h : Heap) (head : Nat) (sp : Option (List Nat)) (bufsize : Nat) :
    Result (Nat × Heap × Option (List Nat)) :=
  if head = NULL then pure (NULL, h, sp) else do
    let e ← list_empty h head
    if e then pure (NULL, h, sp) else do
      let tgt ← rdNext h head
      let h ← list_del h tgt
      let sp ← memset sp 0 bufsize
      let v ← rdValue h tgt
      let sp ← strncpy sp v ((SIZE_MOD - 1 + bufsize) % SIZE_MOD)
      pure (tgt, h, sp)

/-- The function `q_remove_tail`. -/
def q_remove_tail (h : Heap) (head : Nat) (sp : Option (List Nat)) (bufsize : Nat) :
    Result (Nat × Heap × Option (List Nat)) :=
  if head = NULL then pure (NULL, h, sp) else do
    let e ← list_empty h head
    if e then pure (NULL, h, sp) else do
      let tgt ← rdPrev h head
      let h ← list_del h tgt
      let sp ← memset sp 0 bufsize
      let v ← rdValue h tgt
      let sp ← strncpy sp v ((SIZE_MOD - 1 + bufsize) % SIZE_MOD)
      pure (tgt, h, sp)

/-- What a buffer of capacity `c` is to hold after a removal of an element with payload
`v`: the first `min (strlen v) (c - 1)` bytes of the payload, then `0` in every remaining
position up to `c`. -/
def copied (v : List Nat) (c : Nat) : List Nat :=
  (cstr v).take (min (strlen v) (c - 1)) ++ List.replicate (c - min (strlen v) (c - 1)) 0

/-- The circular doubly-linked structure at `head` is well-formed: it is a queue of some
elements `ys` (consistent links in both directions, every node once), following `next`
from the sentinel visits exactly `ys` and following `prev` visits them in reverse. -/
def WellFormed (h : Heap) (head : Nat) : Prop :=
  ∃ ys, IsQueue h head ys ∧ ∀ fuel, ys.length < fuel →
    traverse fuel h head (h.next head) = ys ∧
    traverseBack fuel h head (h.prev head) = ys.reverse

/-- A memory without any queue: no element is live in it. -/
def blankHeap : Heap where
  next _ := 0
  prev _ := 0
  value _ := none

/-! ## Adjacent duplicates, on any order -/

/-- The nodes of `l` whose payload differs from the payload of both traversal neighbours;
`p` is the node before `l`, if there is one.  These are the nodes outside every run of two
or more adjacent equal payloads. -/
def dropRuns (key : Nat → List Nat) : Option Nat → List Nat → List Nat
  | _, [] => []
  | p, x :: t =>
    (if (∀ q ∈ p, strcmp (key q) (key x) ≠ 0) ∧ (∀ y ∈ t.head?, strcmp (key x) (key y) ≠ 0)
      then [x] else []) ++ dropRuns key (some x) t


/-! ## The result monad and the memory accesses -/

@[simp] theorem Result.ok_bind {α β : Type} (a : α) (f : α → Result β) :
    (Result.ok a >>= f) = f a := rfl

@[simp] theorem Result.fault_bind {α β : Type} (f : α → Result β) :
    ((Result.fault : Result α) >>= f) = Result.fault := rfl

@[simp] theorem Result.timeout_bind {α β : Type} (f : α → Result β) :
    ((Result.timeout : Result α) >>= f) = Result.timeout := rfl

@[simp] theorem Result.pure_eq_ok {α : Type} (a : α) : (pure a : Result α) = Result.ok a := rfl

theorem rdNext_ok (h : Heap) {p : Nat} (hp : p ≠ NULL) : rdNext h p = .ok (h.next p) := by
  simp [rdNext, hp]

theorem rdPrev_ok (h : Heap) {p : Nat} (hp : p ≠ NULL) : rdPrev h p = .ok (h.prev p) := by
  simp [rdPrev, hp]

theorem wrNext_ok (h : Heap) {p : Nat} (v : Nat) (hp : p ≠ NULL) :
    wrNext h p v = .ok { h with next := Function.update h.next p v } := by
  simp [wrNext, hp]

theorem wrPrev_ok (h : Heap) {p : Nat} (v : Nat) (hp : p ≠ NULL) :
    wrPrev h p v = .ok { h with prev := Function.update h.prev p v } := by
  simp [wrPrev, hp]

theorem rdValue_ok (h : Heap) {p : Nat} (hp : p ≠ NULL) (hv : h.value p ≠ none) :
    rdValue h p = .ok (payload h p) := by
  unfold rdValue payload
  cases hq : h.value p with
  | none => exact absurd hq hv
  | some s => simp [hp]

/-! ## Segments -/

@[simp] theorem firstOr_nil (b : Nat) : firstOr [] b = b := rfl

@[simp] theorem firstOr_cons (x : Nat) (t : List Nat) (b : Nat) : firstOr (x :: t) b = x := rfl

@[simp] theorem lastOr_nil (a : Nat) : lastOr [] a = a := rfl

@[simp] theorem lastOr_cons (x : Nat) (t : List Nat) (a : Nat) :
    lastOr (x :: t) a = lastOr t x := rfl

@[simp] theorem lastOr_snoc (l : List Nat) (x a : Nat) : lastOr (l ++ [x]) a = x := by
  induction l generalizing a with
  | nil => rfl
  | cons y t ih => simp [ih]

theorem firstOr_append_cons (l : List Nat) (x : Nat) (t : List Nat) (b : Nat) :
    firstOr (l ++ x :: t) b = firstOr l x := by
  cases l <;> simp

theorem lastOr_append_cons (l : List Nat) (x : Nat) (t : List Nat) (a : Nat) :
    lastOr (l ++ x :: t) a = lastOr t x := by
  induction l generalizing a with
  | nil => rfl
  | cons y s ih => simp [ih]

theorem firstOr_mem (l : List Nat) (b : Nat) : firstOr l b ∈ l ++ [b] := by
  cases l <;> simp

theorem lastOr_mem (l : List Nat) (a : Nat) : lastOr l a ∈ a :: l := by
  induction l generalizing a with
  | nil => simp
  | cons x t ih =>
    have := ih x
    simp only [lastOr_cons]
    simp only [List.mem_cons] at this ⊢
    tauto

theorem Seg_append (h : Heap) (a : Nat) (xs : List Nat) (y : Nat) (ys : List Nat) (b : Nat) :
    Seg h a (xs ++ y :: ys) b ↔ Seg h a xs y ∧ Seg h y ys b := by
  induction xs generalizing a with
  | nil => simp [Seg]
  | cons x t ih => simp [Seg, ih, and_assoc]

theorem Seg_snoc (h : Heap) (a : Nat) (xs : List Nat) (y b : Nat) :
    Seg h a (xs ++ [y]) b ↔ Seg h a xs y ∧ Link h y b := by
  rw [Seg_append]; simp [Seg]

theorem Seg.next_first {h : Heap} {a : Nat} {xs : List Nat} {b : Nat} (hs : Seg h a xs b) :
    h.next a = firstOr xs b := by
  cases xs with
  | nil => exact hs.1
  | cons x t => exact hs.1.1

theorem Seg.prev_last {h : Heap} {a : Nat} {xs : List Nat} {b : Nat} (hs : Seg h a xs b) :
    h.prev b = lastOr xs a := by
  induction xs generalizing a with
  | nil => exact hs.2
  | cons x t ih => simpa using ih hs.2

theorem Seg_congr {h h' : Heap} {a : Nat} {xs : List Nat} {b : Nat}
    (hn : ∀ x ∈ a :: xs, h'.next x = h.next x) (hp : ∀ x ∈ xs ++ [b], h'.prev x = h.prev x)
    (hs : Seg h a xs b) : Seg h' a xs b := by
  induction xs generalizing a with
  | nil =>
    refine ⟨?_, ?_⟩
    · rw [hn a (by simp)]; exact hs.1
    · rw [hp b (by simp)]; exact hs.2
  | cons x t ih =>
    refine ⟨⟨?_, ?_⟩, ih ?_ ?_ hs.2⟩
    · rw [hn a (by simp)]; exact hs.1.1
    · rw [hp x (by simp)]; exact hs.1.2
    · intro y hy; exact hn y (List.mem_cons_of_mem _ hy)
    · intro y hy; exact hp y (by simp at hy ⊢; tauto)

/-! ## Reading the links of a well-formed queue -/

theorem IsQueue.next_head {h : Heap} {head : Nat} {xs : List Nat} (q : IsQueue h head xs) :
    h.next head = firstOr xs head := q.path.next_first

theorem IsQueue.prev_head {h : Heap} {head : Nat} {xs : List Nat} (q : IsQueue h head xs) :
    h.prev head = lastOr xs head := q.path.prev_last

theorem IsQueue.next_at {h : Heap} {head : Nat} {pre : List Nat} {x : Nat} {post : List Nat}
    (q : IsQueue h head (pre ++ x :: post)) : h.next x = firstOr post head :=
  ((Seg_append h head pre x post head).1 q.path).2.next_first

theorem IsQueue.prev_at {h : Heap} {head : Nat} {pre : List Nat} {x : Nat} {post : List Nat}
    (q : IsQueue h head (pre ++ x :: post)) : h.prev x = lastOr pre head :=
  ((Seg_append h head pre x post head).1 q.path).1.prev_last

theorem IsQueue.head_ne {h : Heap} {head : Nat} {xs : List Nat} (q : IsQueue h head xs) :
    head ≠ NULL := q.nonnull head (by simp)

theorem IsQueue.mem_ne {h : Heap} {head : Nat} {xs : List Nat} (q : IsQueue h head xs)
    {x : Nat} (hx : x ∈ xs) : x ≠ NULL := q.nonnull x (List.mem_cons_of_mem _ hx)

theorem IsQueue.mem_ne_head {h : Heap} {head : Nat} {xs : List Nat} (q : IsQueue h head xs)
    {x : Nat} (hx : x ∈ xs) : x ≠ head := by
  rintro rfl
  exact (List.nodup_cons.1 q.nodup).1 hx

theorem IsQueue.firstOr_ne {h : Heap} {head : Nat} {xs : List Nat} (q : IsQueue h head xs)
    (l : List Nat) (hl : ∀ x ∈ l, x ∈ xs) : firstOr l head ≠ NULL := by
  cases l with
  | nil => exact q.head_ne
  | cons x t => exact q.mem_ne (hl x (by simp))

theorem IsQueue.lastOr_ne {h : Heap} {head : Nat} {xs : List Nat} (q : IsQueue h head xs)
    (l : List Nat) (hl : ∀ x ∈ l, x ∈ xs) : lastOr l head ≠ NULL := by
  have hm := lastOr_mem l head
  rcases List.mem_cons.1 hm with h1 | h1
  · rw [h1]; exact q.head_ne
  · exact q.mem_ne (hl _ h1)

/-- The forward traversal of a well-formed queue is its list of elements. -/
theorem Seg.traverse_seg {h : Heap} {head : Nat} (xs : List Nat) (a : Nat)
    (hs : Seg h a xs head) (hnd : head ∉ xs) (fuel : Nat) (hf : xs.length < fuel) :
    traverse fuel h head (h.next a) = xs := by
  induction xs generalizing a fuel with
  | nil =>
    cases fuel with
    | zero => simp at hf
    | succ f => simp [traverse, hs.1]
  | cons x t ih =>
    cases fuel with
    | zero => simp at hf
    | succ f =>
      have hx : x ≠ head := by rintro rfl; simp at hnd
      simp only [traverse, hs.1.1, hx, if_false]
      rw [ih x hs.2 (by simp at hnd; tauto) f (by simpa using hf)]

theorem IsQueue.traverse_eq {h : Heap} {head : Nat} {xs : List Nat} (q : IsQueue h head xs)
    (fuel : Nat) (hf : xs.length < fuel) : traverse fuel h head (h.next head) = xs :=
  q.path.traverse_seg xs head (List.nodup_cons.1 q.nodup).1 fuel hf

/-- A heap is a well-formed queue for at most one list of elements. -/
theorem IsQueue.unique {h : Heap} {head : Nat} {xs ys : List Nat} (q : IsQueue h head xs)
    (q' : IsQueue h head ys) : xs = ys := by
  have e1 := q.traverse_eq (xs.length + ys.length + 1) (by omega)
  have e2 := q'.traverse_eq (xs.length + ys.length + 1) (by omega)
  exact e1.symm.trans e2


/-! ## Unlinking and inserting a node of a segment -/

theorem nodup_snoc_of_cons {a : Nat} {l : List Nat} (hl : (a :: l).Nodup) :
    (l ++ [a]).Nodup :=
  (List.perm_append_singleton a l).nodup_iff.2 hl

theorem Seg_unlink {h h' : Heap} (pre : List Nat) (x : Nat) (post : List Nat) (a b : Nat)
    (hs : Seg h a (pre ++ x :: post) b)
    (hsrc : (a :: (pre ++ x :: post)).Nodup) (htgt : (pre ++ x :: post ++ [b]).Nodup)
    (hn : h'.next = Function.update h.next (lastOr pre a) (firstOr post b))
    (hp : h'.prev = Function.update h.prev (firstOr post b) (lastOr pre a)) :
    Seg h' a (pre ++ post) b := by
  induction pre generalizing a with
  | nil =>
    simp only [List.nil_append, lastOr_nil] at *
    cases post with
    | nil =>
      simp only [firstOr_nil] at hn hp
      exact ⟨by rw [hn]; simp, by rw [hp]; simp⟩
    | cons s t =>
      simp only [firstOr_cons] at hn hp
      refine ⟨⟨by rw [hn]; simp, by rw [hp]; simp⟩, Seg_congr ?_ ?_ hs.2.2⟩
      · intro y hy
        have : y ≠ a := by
          rintro rfl
          simp only [List.nodup_cons, List.mem_cons] at hsrc
          simp only [List.mem_cons] at hy
          tauto
        rw [hn]; simp [this]
      · intro y hy
        have : y ≠ s := by
          rintro rfl
          simp only [List.cons_append, List.nodup_cons] at htgt
          exact htgt.2.1 hy
        rw [hp]; simp [this]
  | cons p t ih =>
    simp only [List.cons_append, lastOr_cons] at *
    have hsrc2 := (List.nodup_cons.1 hsrc).2
    refine ⟨⟨?_, ?_⟩, ih p hs.2 hsrc2 (List.nodup_cons.1 htgt).2 hn hp⟩
    · have : a ≠ lastOr t p := by
        intro e
        have hm := lastOr_mem t p
        rw [← e] at hm
        have := (List.nodup_cons.1 hsrc).1
        simp only [List.mem_cons, List.mem_append] at this hm
        tauto
      rw [hn]; simp [this, hs.1.1]
    · have : p ≠ firstOr post b := by
        intro e
        have hm := firstOr_mem post b
        rw [← e] at hm
        have := (List.nodup_cons.1 htgt).1
        simp only [List.mem_cons, List.mem_append, List.mem_singleton] at this hm
        tauto
      rw [hp]; simp [this, hs.1.2]

theorem Seg_insert {h h' : Heap} (pre : List Nat) (x : Nat) (post : List Nat) (a b : Nat)
    (hs : Seg h a (pre ++ post) b)
    (hsrc : (a :: (pre ++ post)).Nodup) (htgt : (pre ++ post ++ [b]).Nodup)
    (hxs : x ∉ a :: (pre ++ post)) (hxt : x ∉ pre ++ post ++ [b])
    (hn : h'.next = Function.update (Function.update h.next x (firstOr post b)) (lastOr pre a) x)
    (hp : h'.prev = Function.update (Function.update h.prev x (lastOr pre a)) (firstOr post b) x) :
    Seg h' a (pre ++ x :: post) b := by
  induction pre generalizing a with
  | nil =>
    simp only [List.nil_append, lastOr_nil] at *
    have hxa : x ≠ a := by
      rintro rfl; simp at hxs
    have hxS : x ≠ firstOr post b := by
      intro e
      have hm := firstOr_mem post b
      rw [← e] at hm
      exact hxt hm
    refine ⟨⟨by rw [hn]; simp, by rw [hp]; simp [hxS]⟩, ?_⟩
    cases post with
    | nil =>
      simp only [firstOr_nil] at hn hp
      exact ⟨by rw [hn]; simp [hxa], by rw [hp]; simp⟩
    | cons s t =>
      simp only [firstOr_cons] at hn hp
      refine ⟨⟨by rw [hn]; simp [hxa], by rw [hp]; simp⟩, Seg_congr ?_ ?_ hs.2⟩
      · intro y hy
        have h1 : y ≠ a := by
          rintro rfl
          exact (List.nodup_cons.1 hsrc).1 hy
        have h2 : y ≠ x := by
          rintro rfl
          exact hxs (List.mem_cons_of_mem _ hy)
        rw [hn]; simp [h1, h2]
      · intro y hy
        have h1 : y ≠ s := by
          rintro rfl
          simp only [List.cons_append, List.nodup_cons] at htgt
          exact htgt.1 hy
        have h2 : y ≠ x := by
          rintro rfl
          simp only [List.cons_append, List.mem_cons] at hxt
          tauto
        rw [hp]; simp [h1, h2]
  | cons p t ih =>
    simp only [List.cons_append, lastOr_cons] at *
    have hsrc2 := (List.nodup_cons.1 hsrc).2
    have hxs2 : x ∉ p :: (t ++ post) := by
      simp only [List.mem_cons] at hxs ⊢; tauto
    have hxt2 : x ∉ t ++ post ++ [b] := by
      simp only [List.mem_cons] at hxt; tauto
    refine ⟨⟨?_, ?_⟩, ih p hs.2 hsrc2 (List.nodup_cons.1 htgt).2 hxs2 hxt2 hn hp⟩
    · have h1 : a ≠ lastOr t p := by
        intro e
        have hm := lastOr_mem t p
        rw [← e] at hm
        have := (List.nodup_cons.1 hsrc).1
        simp only [List.mem_cons, List.mem_append] at this hm
        tauto
      have h2 : a ≠ x := by
        rintro rfl; simp at hxs
      rw [hn]; simp [h1, h2, hs.1.1]
    · have h1 : p ≠ firstOr post b := by
        intro e
        have hm := firstOr_mem post b
        rw [← e] at hm
        have := (List.nodup_cons.1 htgt).1
        simp only [List.mem_cons, List.mem_append, List.mem_singleton] at this hm
        tauto
      have h2 : p ≠ x := by
        rintro rfl; simp at hxt
      rw [hp]; simp [h1, h2, hs.1.2]


/-! ## `list_del`, `myInsert` and `q_release_element` on a well-formed queue -/

theorem IsQueue.prev_firstOr {h : Heap} {head : Nat} {pre post : List Nat}
    (q : IsQueue h head (pre ++ post)) : h.prev (firstOr post head) = lastOr pre head := by
  cases post with
  | nil => simpa using q.prev_head
  | cons s t => exact q.prev_at

theorem IsQueue.next_lastOr {h : Heap} {head : Nat} {pre post : List Nat}
    (q : IsQueue h head (pre ++ post)) : h.next (lastOr pre head) = firstOr post head := by
  rcases List.eq_nil_or_concat pre with rfl | ⟨l, p, rfl⟩
  · simpa using q.next_head
  · rw [List.concat_eq_append] at q ⊢
    rw [lastOr_snoc]
    rw [List.append_assoc] at q
    exact q.next_at

theorem nodup_middle_cons {head x : Nat} {pre post : List Nat} :
    (head :: (pre ++ x :: post)).Nodup ↔
      x ∉ head :: (pre ++ post) ∧ (head :: (pre ++ post)).Nodup := by
  rw [← List.cons_append, List.nodup_middle, List.nodup_cons]
  simp

theorem IsQueue.list_del {h : Heap} {head : Nat} {pre : List Nat} {x : Nat} {post : List Nat}
    (q : IsQueue h head (pre ++ x :: post)) :
    ∃ h', list_del h x = .ok h' ∧ IsQueue h' head (pre ++ post) ∧ h'.value = h.value := by
  have hx : x ≠ NULL := q.mem_ne (by simp)
  have hS : firstOr post head ≠ NULL := q.firstOr_ne post (by intro y hy; simp [hy])
  have hP : lastOr pre head ≠ NULL := q.lastOr_ne pre (by intro y hy; simp [hy])
  refine ⟨⟨Function.update h.next (lastOr pre head) (firstOr post head),
    Function.update h.prev (firstOr post head) (lastOr pre head), h.value⟩, ?_, ?_, rfl⟩
  · simp [Queue.list_del, rdNext_ok h hx, rdPrev_ok h hx, q.next_at, q.prev_at, wrPrev_ok _ _ hS,
      wrNext_ok _ _ hP]
  · have hnd := q.nodup
    refine ⟨Seg_unlink pre x post head head q.path hnd ?_ rfl rfl, ?_, ?_, q.sentinel, ?_⟩
    · simpa using nodup_snoc_of_cons hnd
    · exact (nodup_middle_cons.1 hnd).2
    · intro p hp
      apply q.nonnull p
      simp only [List.mem_cons, List.mem_append] at hp ⊢
      tauto
    · intro y hy
      apply q.elems y
      simp only [List.mem_cons, List.mem_append] at hy ⊢
      tauto

theorem IsQueue.myInsert {h : Heap} {head : Nat} {pre : List Nat} {x : Nat} {post : List Nat}
    (q : IsQueue h head (pre ++ post)) (hx : x ∉ head :: (pre ++ post)) (hx0 : x ≠ NULL)
    (hv : h.value x ≠ none) :
    ∃ h', myInsert h (firstOr post head) x = .ok h' ∧ IsQueue h' head (pre ++ x :: post) ∧
      h'.value = h.value := by
  have hS : firstOr post head ≠ NULL := q.firstOr_ne post (by intro y hy; simp [hy])
  have hP : lastOr pre head ≠ NULL := q.lastOr_ne pre (by intro y hy; simp [hy])
  have hxS : firstOr post head ≠ x := by
    intro e
    have hm := firstOr_mem post head
    rw [e] at hm
    simp only [List.mem_cons, List.mem_append, List.mem_singleton] at hm hx
    tauto
  refine ⟨⟨Function.update (Function.update h.next x (firstOr post head)) (lastOr pre head) x,
    Function.update (Function.update h.prev x (lastOr pre head)) (firstOr post head) x,
    h.value⟩, ?_, ?_, rfl⟩
  · simp [Queue.myInsert, wrNext_ok _ _ hx0, wrPrev_ok _ _ hx0, rdPrev_ok _ hS, rdPrev_ok _ hx0,
      wrNext_ok _ _ hP, wrPrev_ok _ _ hS, hxS, q.prev_firstOr]
  · have hnd := q.nodup
    have hxt : x ∉ pre ++ post ++ [head] := by
      simp only [List.mem_cons, List.mem_append, List.mem_singleton] at hx ⊢
      tauto
    refine ⟨Seg_insert pre x post head head q.path hnd (nodup_snoc_of_cons hnd) hx hxt rfl rfl,
      ?_, ?_, q.sentinel, ?_⟩
    · exact nodup_middle_cons.2 ⟨hx, hnd⟩
    · intro p hp
      simp only [List.mem_cons, List.mem_append] at hp
      rcases hp with rfl | hp | rfl | hp
      · exact q.head_ne
      · exact q.mem_ne (by simp [hp])
      · exact hx0
      · exact q.mem_ne (by simp [hp])
    · intro y hy
      simp only [List.mem_cons, List.mem_append] at hy
      rcases hy with hy | rfl | hy
      · exact q.elems y (by simp [hy])
      · exact hv
      · exact q.elems y (by simp [hy])

theorem IsQueue.of_value_update {h : Heap} {head : Nat} {xs : List Nat} (q : IsQueue h head xs)
    {x : Nat} (hx : x ∉ head :: xs) (v : Option (List Nat)) :
    IsQueue { h with value := Function.update h.value x v } head xs := by
  refine ⟨@Seg_congr h _ head xs head (fun _ _ => rfl) (fun _ _ => rfl) q.path, q.nodup,
    q.nonnull, ?_, ?_⟩
  · have : head ≠ x := by rintro rfl; simp at hx
    simp [Function.update, this, q.sentinel]
  · intro y hy
    have : y ≠ x := by rintro rfl; exact hx (List.mem_cons_of_mem _ hy)
    simp [Function.update, this, q.elems y hy]

/-- Unlinking and destroying an element of a well-formed queue. -/
theorem IsQueue.delete {h : Heap} {head : Nat} {pre : List Nat} {x : Nat} {post : List Nat}
    (q : IsQueue h head (pre ++ x :: post)) :
    ∃ h1 h', Queue.list_del h x = .ok h1 ∧ q_release_element h1 x = .ok h' ∧
      IsQueue h' head (pre ++ post) ∧ h'.value = Function.update h.value x none := by
  obtain ⟨h1, e1, q1, v1⟩ := q.list_del
  have hx : x ≠ NULL := q.mem_ne (by simp)
  have hv : h1.value x ≠ none := by rw [v1]; exact q.elems x (by simp)
  have hxn : x ∉ head :: (pre ++ post) := (nodup_middle_cons.1 q.nodup).1
  refine ⟨h1, { h1 with value := Function.update h1.value x none }, e1, ?_,
    q1.of_value_update hxn none, by simp [v1]⟩
  simp [q_release_element, rdValue_ok h1 hx hv]


/-! ## `q_size` and `q_delete_mid` -/

theorem q_size_loop_eq {h : Heap} {head : Nat} (rest : List Nat) (done : List Nat) (cnt fuel : Nat)
    (q : IsQueue h head (done ++ rest)) (hf : rest.length < fuel) :
    q_size_loop fuel h head (firstOr rest head) cnt = .ok (cnt + rest.length) := by
  induction rest generalizing done cnt fuel with
  | nil =>
    cases fuel with
    | zero => simp at hf
    | succ f => simp [q_size_loop]
  | cons x t ih =>
    cases fuel with
    | zero => simp at hf
    | succ f =>
      have hx : x ≠ head := q.mem_ne_head (by simp)
      have hx0 : x ≠ NULL := q.mem_ne (by simp)
      have q2 : IsQueue h head ((done ++ [x]) ++ t) := by simpa using q
      simp only [q_size_loop, firstOr_cons, ne_eq, hx, not_false_eq_true, if_true,
        rdNext_ok h hx0, Result.ok_bind, q.next_at]
      rw [ih (done ++ [x]) (cnt + 1) f q2 (by simpa using hf)]
      simp only [List.length_cons]
      congr 1
      omega

theorem IsQueue.q_size {h : Heap} {head : Nat} {xs : List Nat} (q : IsQueue h head xs)
    {fuel : Nat} (hf : xs.length < fuel) : q_size fuel h head = .ok xs.length := by
  have h0 := q.head_ne
  unfold Queue.q_size
  simp only [h0, if_false, list_empty, rdNext_ok h h0, Result.ok_bind, Result.pure_eq_ok,
    q.next_head]
  cases xs with
  | nil => simp
  | cons x t =>
    have hx : x ≠ head := q.mem_ne_head (by simp)
    have := q_size_loop_eq (x :: t) [] 0 fuel (by simpa using q) hf
    simpa [hx] using this

theorem q_delete_mid_walk_eq {h : Heap} {head : Nat} (mid : List Nat) (pre : List Nat) (y : Nat)
    (post : List Nat) (fuel : Nat) (q : IsQueue h head (pre ++ (mid ++ y :: post)))
    (hf : mid.length + 1 < fuel) :
    q_delete_mid_walk fuel h (mid.length : Int) (lastOr pre head) = .ok y := by
  induction mid generalizing pre fuel with
  | nil =>
    match fuel, hf with
    | f + 2, _ =>
      have hp : lastOr pre head ≠ NULL := q.lastOr_ne pre (by intro z hz; simp [hz])
      simp [q_delete_mid_walk, rdNext_ok h hp, q.next_lastOr]
  | cons m t ih =>
    match fuel, hf with
    | f + 1, hf =>
      have hp : lastOr pre head ≠ NULL := q.lastOr_ne pre (by intro z hz; simp [hz])
      have q2 : IsQueue h head ((pre ++ [m]) ++ (t ++ y :: post)) := by simpa using q
      have hi : ¬ ((((m :: t).length : Nat) : Int) < 0) := by omega
      have e : (((m :: t).length : Nat) : Int) - 1 = (t.length : Int) := by
        simp
      simp only [q_delete_mid_walk, hi, not_false_eq_true, if_true, rdNext_ok h hp,
        Result.ok_bind, q.next_lastOr, e]
      have := ih (pre ++ [m]) f q2 (by simpa using hf)
      simpa using this

theorem IsQueue.q_delete_mid {h : Heap} {head : Nat} {xs : List Nat} (q : IsQueue h head xs)
    (hne : xs ≠ []) {fuel : Nat} (hf : xs.length < fuel) :
    ∃ h', q_delete_mid fuel h head = .ok (true, h') ∧
      IsQueue h' head (xs.eraseIdx (xs.length / 2)) ∧
      ∀ y ∈ xs.eraseIdx (xs.length / 2), h'.value y = h.value y := by
  have h0 := q.head_ne
  have hk : xs.length / 2 < xs.length := by
    have : 0 < xs.length := List.length_pos.2 hne
    omega
  have hsplit : xs = xs.take (xs.length / 2) ++ xs[xs.length / 2] :: xs.drop (xs.length / 2 + 1) := by
    conv_lhs => rw [← List.take_append_drop (xs.length / 2) xs]
    rw [List.drop_eq_getElem_cons hk]
  have q2 : IsQueue h head
      ([] ++ (xs.take (xs.length / 2) ++ xs[xs.length / 2] :: xs.drop (xs.length / 2 + 1))) := by
    rw [List.nil_append, ← hsplit]; exact q
  have hw := q_delete_mid_walk_eq (xs.take (xs.length / 2)) [] (xs[xs.length / 2])
    (xs.drop (xs.length / 2 + 1)) fuel q2 (by rw [List.length_take]; omega)
  rw [List.length_take, min_eq_left (le_of_lt hk), lastOr_nil] at hw
  have q3 : IsQueue h head
      (xs.take (xs.length / 2) ++ xs[xs.length / 2] :: xs.drop (xs.length / 2 + 1)) := by
    rw [← hsplit]; exact q
  obtain ⟨h1, h', e1, e, q', v⟩ := q3.delete
  have hfirst : firstOr xs head ≠ head := by
    cases xs with
    | nil => exact absurd rfl hne
    | cons x t => exact q.mem_ne_head (by simp)
  refine ⟨h', ?_, ?_, ?_⟩
  · unfold Queue.q_delete_mid
    simp only [h0, if_false, list_empty, rdNext_ok h h0, Result.ok_bind, Result.pure_eq_ok,
      q.next_head, hfirst, decide_False, Bool.false_eq_true, q.q_size hf,
      Nat.shiftRight_eq_div_pow, pow_one, hw]
    simp [e1, e]
  · rw [List.eraseIdx_eq_take_drop_succ]; exact q'
  · intro y hy
    rw [v]
    have hnd := (nodup_middle_cons.1 (hsplit ▸ q.nodup)).1
    rw [List.eraseIdx_eq_take_drop_succ] at hy
    have : y ≠ xs[xs.length / 2] := by
      rintro rfl
      exact hnd (List.mem_cons_of_mem _ hy)
    simp [Function.update, this]


/-! ## `q_reverse` -/

theorem Heap.ext_fields {h h' : Heap} (hn : ∀ p, h.next p = h'.next p)
    (hp : ∀ p, h.prev p = h'.prev p) (hv : h.value = h'.value) : h = h' := by
  cases h; cases h'
  simp only [Heap.mk.injEq]
  exact ⟨funext hn, funext hp, hv⟩

theorem flipOn_nil (h : Heap) : flipOn [] h = h := by
  apply Heap.ext_fields <;> simp [flipOn]

theorem q_reverse_body_flipOn (h : Heap) (s : List Nat) {x : Nat} (hx : x ≠ NULL) (hs : x ∉ s) :
    q_reverse_body (flipOn s h) x = .ok (flipOn (s ++ [x]) h) := by
  simp only [q_reverse_body, rdNext_ok _ hx, rdPrev_ok _ hx, Result.ok_bind, wrNext_ok _ _ hx,
    wrPrev_ok _ _ hx]
  congr 1
  apply Heap.ext_fields
  · intro p
    by_cases hp : p = x
    · subst hp; simp [flipOn, hs]
    · simp [flipOn, Function.update, hp]
  · intro p
    by_cases hp : p = x
    · subst hp; simp [flipOn, hs]
    · simp [flipOn, Function.update, hp]
  · rfl

theorem q_reverse_loop_eq {h : Heap} {head : Nat} (rest : List Nat) (done : List Nat)
    (safe fuel : Nat) (q : IsQueue h head (done ++ rest))
    (hs : rest ≠ [] → safe = firstOr rest.tail head) (hf : rest.length < fuel) :
    q_reverse_loop fuel (flipOn done h) head (firstOr rest head) safe =
      .ok (flipOn (done ++ rest) h, head) := by
  induction rest generalizing done safe fuel with
  | nil =>
    cases fuel with
    | zero => simp at hf
    | succ f => simp [q_reverse_loop]
  | cons x t ih =>
    cases fuel with
    | zero => simp at hf
    | succ f =>
      have hx : x ≠ head := q.mem_ne_head (by simp)
      have hx0 : x ≠ NULL := q.mem_ne (by simp)
      have hxd : x ∉ done := by
        have := (nodup_middle_cons.1 q.nodup).1
        simp only [List.mem_cons, List.mem_append] at this
        tauto
      have q2 : IsQueue h head ((done ++ [x]) ++ t) := by simpa using q
      have hsafe : safe = firstOr t head := by simpa using hs (by simp)
      have hs0 : firstOr t head ≠ NULL := q.firstOr_ne t (by intro z hz; simp [hz])
      simp only [q_reverse_loop, firstOr_cons, ne_eq, hx, not_false_eq_true, if_true,
        q_reverse_body_flipOn h done hx0 hxd, Result.ok_bind, hsafe, rdNext_ok _ hs0]
      have := ih (done ++ [x]) ((flipOn (done ++ [x]) h).next (firstOr t head)) f q2 ?_
        (by simpa using hf)
      · simpa using this
      · intro hne
        cases t with
        | nil => exact absurd rfl hne
        | cons s t2 =>
          have hsd : s ∉ done ++ [x] := by
            have hq : IsQueue h head ((done ++ [x]) ++ s :: t2) := q2
            have := (nodup_middle_cons.1 hq.nodup).1
            simp only [List.mem_cons, List.mem_append] at this
            simp only [List.mem_append, List.mem_singleton]
            tauto
          have hq : IsQueue h head ((done ++ [x]) ++ s :: t2) := q2
          simp only [List.mem_append, List.mem_singleton] at hsd
          simp [flipOn, hsd, hq.next_at]

theorem Seg_reverse {h h' : Heap} {a : Nat} {xs : List Nat} {b : Nat} (hs : Seg h a xs b)
    (hf : ∀ x ∈ a :: (xs ++ [b]), h'.next x = h.prev x ∧ h'.prev x = h.next x) :
    Seg h' b xs.reverse a := by
  induction xs generalizing a with
  | nil =>
    have h1 := hf a (by simp)
    have h2 := hf b (by simp)
    exact ⟨by rw [h2.1]; exact hs.2, by rw [h1.2]; exact hs.1⟩
  | cons x t ih =>
    rw [List.reverse_cons, Seg_snoc]
    refine ⟨ih hs.2 ?_, ?_⟩
    · intro y hy
      apply hf y
      simp only [List.mem_cons, List.mem_append, List.mem_singleton] at hy ⊢
      tauto
    · have h1 := hf a (by simp)
      have h2 := hf x (by simp)
      exact ⟨by rw [h2.1]; exact hs.1.2, by rw [h1.2]; exact hs.1.1⟩

theorem IsQueue.q_reverse {h : Heap} {head : Nat} {xs : List Nat} (q : IsQueue h head xs)
    {fuel : Nat} (hf : xs.length < fuel) :
    q_reverse fuel h head = .ok (flipOn (xs ++ [head]) h) := by
  have h0 := q.head_ne
  have hn0 : firstOr xs head ≠ NULL := q.firstOr_ne xs (fun _ hx => hx)
  have hl := q_reverse_loop_eq xs [] (h.next (firstOr xs head)) fuel (by simpa using q) ?_ hf
  · rw [flipOn_nil] at hl
    have hh : head ∉ xs := (List.nodup_cons.1 q.nodup).1
    simp [Queue.q_reverse, rdNext_ok h h0, q.next_head, rdNext_ok h hn0, hl,
      q_reverse_body_flipOn h xs h0 hh]
  · intro hne
    cases xs with
    | nil => exact absurd rfl hne
    | cons x t =>
      have hq : IsQueue h head ([] ++ x :: t) := by simpa using q
      simpa using hq.next_at

theorem IsQueue.flipOn {h : Heap} {head : Nat} {xs : List Nat} (q : IsQueue h head xs) :
    IsQueue (flipOn (xs ++ [head]) h) head xs.reverse := by
  refine ⟨Seg_reverse q.path ?_, ?_, ?_, q.sentinel, ?_⟩
  · intro x hx
    have : x ∈ xs ++ [head] := by
      simp only [List.mem_cons, List.mem_append, List.mem_singleton] at hx ⊢
      tauto
    simp only [List.mem_append, List.mem_singleton] at this
    simp [Queue.flipOn, this]
  · have := q.nodup
    simp only [List.nodup_cons, List.mem_reverse, List.nodup_reverse] at this ⊢
    exact this
  · intro p hp
    apply q.nonnull p
    simpa using hp
  · intro x hx
    exact q.elems x (by simpa using hx)

theorem flipOn_flipOn (h : Heap) (s t : List Nat) (hst : ∀ p, p ∈ s ↔ p ∈ t) :
    flipOn s (flipOn t h) = h := by
  apply Heap.ext_fields
  · intro p
    by_cases hp : p ∈ t <;> simp [flipOn, hp, hst p]
  · intro p
    by_cases hp : p ∈ t <;> simp [flipOn, hp, hst p]
  · rfl


/-! ## `q_swap` -/

theorem Seg_swap {h h' : Heap} (pre : List Nat) (x n : Nat) (post : List Nat) (a b : Nat)
    (hs : Seg h a (pre ++ x :: n :: post) b)
    (hsrc : (a :: (pre ++ x :: n :: post)).Nodup) (htgt : (pre ++ x :: n :: post ++ [b]).Nodup)
    (hn : h'.next = Function.update (Function.update (Function.update h.next (lastOr pre a) n)
      x (firstOr post b)) n x)
    (hp : h'.prev = Function.update (Function.update (Function.update h.prev (firstOr post b) x)
      n (lastOr pre a)) x n) :
    Seg h' a (pre ++ n :: x :: post) b := by
  induction pre generalizing a with
  | nil =>
    simp only [List.nil_append, lastOr_nil] at *
    have hS := firstOr_mem post b
    simp only [List.nodup_cons, List.mem_cons, List.cons_append, List.mem_append,
      List.mem_singleton, not_or] at hsrc htgt hS
    have e1 : a ≠ x := hsrc.1.1
    have e2 : a ≠ n := hsrc.1.2.1
    have e3 : x ≠ n := hsrc.2.1.1
    have e4 : firstOr post b ≠ x := by
      intro e; rw [e] at hS; tauto
    have e5 : firstOr post b ≠ n := by
      intro e; rw [e] at hS; tauto
    refine ⟨⟨by rw [hn]; simp [Function.update_apply, e1, e2],
      by rw [hp]; simp [Function.update_apply, e3.symm]⟩, ?_⟩
    cases post with
    | nil =>
      simp only [firstOr_nil] at hn hp e4 e5
      exact ⟨⟨by rw [hn]; simp [Function.update_apply], by rw [hp]; simp [Function.update_apply]⟩,
        by rw [hn]; simp [Function.update_apply, e3],
        by rw [hp]; simp [Function.update_apply, e4, e5]⟩
    | cons s t =>
      simp only [firstOr_cons] at hn hp e4 e5
      refine ⟨⟨by rw [hn]; simp [Function.update_apply], by rw [hp]; simp [Function.update_apply]⟩,
        ⟨by rw [hn]; simp [Function.update_apply, e3],
         by rw [hp]; simp [Function.update_apply, e4, e5]⟩, Seg_congr ?_ ?_ hs.2.2.2⟩
      · intro y hy
        have h1 : y ≠ a := by
          rintro rfl; simp only [List.mem_cons] at hy hsrc; tauto
        have h2 : y ≠ x := by
          rintro rfl; simp only [List.mem_cons] at hy hsrc; tauto
        have h3 : y ≠ n := by
          rintro rfl; simp only [List.mem_cons] at hy hsrc; tauto
        rw [hn]; simp [Function.update_apply, h1, h2, h3]
      · intro y hy
        have h1 : y ≠ s := by
          rintro rfl
          simp only [List.mem_cons, List.mem_append, List.mem_singleton, List.nodup_cons,
            List.cons_append, not_or] at hy htgt
          tauto
        have h2 : y ≠ x := by
          rintro rfl
          simp only [List.mem_cons, List.mem_append, List.mem_singleton] at hy htgt
          tauto
        have h3 : y ≠ n := by
          rintro rfl
          simp only [List.mem_cons, List.mem_append, List.mem_singleton] at hy htgt
          tauto
        rw [hp]; simp [Function.update_apply, h1, h2, h3]
  | cons p t ih =>
    simp only [List.cons_append, lastOr_cons] at *
    have hsrc2 := (List.nodup_cons.1 hsrc).2
    refine ⟨⟨?_, ?_⟩, ih p hs.2 hsrc2 (List.nodup_cons.1 htgt).2 hn hp⟩
    · have hm := lastOr_mem t p
      have hna := (List.nodup_cons.1 hsrc).1
      simp only [List.mem_cons, List.mem_append, not_or] at hna hm
      have h1 : a ≠ lastOr t p := by
        intro e; rw [← e] at hm; tauto
      have h2 : a ≠ x := by tauto
      have h3 : a ≠ n := by tauto
      rw [hn]; simp [Function.update_apply, h1, h2, h3, hs.1.1]
    · have hm := firstOr_mem post b
      have hna := (List.nodup_cons.1 htgt).1
      simp only [List.mem_cons, List.mem_append, List.mem_singleton, not_or] at hna hm
      have h1 : p ≠ firstOr post b := by
        intro e; rw [← e] at hm; tauto
      have h2 : p ≠ x := by tauto
      have h3 : p ≠ n := by tauto
      rw [hp]; simp [Function.update_apply, h1, h2, h3, hs.1.2]


theorem IsQueue.swap_body {h : Heap} {head : Nat} {pre : List Nat} {x n : Nat} {post : List Nat}
    (q : IsQueue h head (pre ++ x :: n :: post)) :
    ∃ h', q_swap_body h n (firstOr post head) = .ok h' ∧
      IsQueue h' head (pre ++ n :: x :: post) ∧ h'.value = h.value := by
  have hn0 : n ≠ NULL := q.mem_ne (by simp)
  have hx0 : x ≠ NULL := q.mem_ne (by simp)
  have hS0 : firstOr post head ≠ NULL := q.firstOr_ne post (by intro y hy; simp [hy])
  have hP0 : lastOr pre head ≠ NULL := q.lastOr_ne pre (by intro y hy; simp [hy])
  have q2 : IsQueue h head ((pre ++ [x]) ++ n :: post) := by simpa using q
  have hpn : h.prev n = x := by simpa using q2.prev_at
  have hpx : h.prev x = lastOr pre head := q.prev_at
  have hnd := q.nodup
  have htg := nodup_snoc_of_cons hnd
  have hS := firstOr_mem post head
  have e3 : x ≠ n := by
    have := (nodup_middle_cons.1 hnd).1
    simp only [List.mem_cons, List.mem_append, not_or] at this
    exact fun e => this.2.2.1 e
  have e4 : x ≠ firstOr post head := by
    intro e
    rw [← e] at hS
    have := (nodup_middle_cons.1 hnd).1
    simp only [List.mem_cons, List.mem_append, List.mem_singleton, not_or] at this
    rcases List.mem_append.1 hS with hS | hS
    · exact this.2.2.2 hS
    · exact this.1 (List.mem_singleton.1 hS)
  have e5 : n ≠ firstOr post head := by
    intro e
    rw [← e] at hS
    have := (nodup_middle_cons.1 q2.nodup).1
    simp only [List.mem_cons, List.mem_append, List.mem_singleton, not_or] at this
    rcases List.mem_append.1 hS with hS | hS
    · exact this.2.2 hS
    · exact this.1 (List.mem_singleton.1 hS)
  refine ⟨⟨Function.update (Function.update (Function.update h.next (lastOr pre head) n)
      x (firstOr post head)) n x,
    Function.update (Function.update (Function.update h.prev (firstOr post head) x)
      n (lastOr pre head)) x n, h.value⟩, ?_, ?_, rfl⟩
  · simp [q_swap_body, rdPrev_ok _ hn0, rdPrev_ok _ hx0, rdPrev_ok _ hS0, wrPrev_ok _ _ hn0,
      wrPrev_ok _ _ hx0, wrPrev_ok _ _ hS0, wrNext_ok _ _ hn0, wrNext_ok _ _ hx0,
      wrNext_ok _ _ hP0, hpn, hpx, Function.update_apply, e3, e3.symm, e4, e4.symm, e5, e5.symm]
  · refine ⟨Seg_swap pre x n post head head q.path hnd (by simpa using htg) rfl rfl, ?_, ?_,
      q.sentinel, ?_⟩
    · have hperm : (head :: (pre ++ n :: x :: post)).Perm (head :: (pre ++ x :: n :: post)) :=
        List.Perm.cons _ (List.Perm.append_left _ (List.Perm.swap _ _ _))
      exact hperm.nodup_iff.2 hnd
    · intro p hp
      apply q.nonnull p
      simp only [List.mem_cons, List.mem_append] at hp ⊢
      tauto
    · intro y hy
      apply q.elems y
      simp only [List.mem_cons, List.mem_append] at hy ⊢
      tauto

theorem q_swap_loop_spec {head : Nat} : ∀ (rest done : List Nat) (h : Heap) (safe cnt fuel : Nat),
    IsQueue h head (done ++ rest) → cnt % 2 = 0 → (rest ≠ [] → safe = firstOr rest.tail head) →
    rest.length < fuel →
    ∃ h', q_swap_loop fuel h head (firstOr rest head) safe cnt = .ok h' ∧
      IsQueue h' head (done ++ swapL rest) ∧ h'.value = h.value ∧ (rest.length ≤ 1 → h' = h)
  | [], done, h, safe, cnt, fuel, q, _, _, hf => by
    cases fuel with
    | zero => simp at hf
    | succ f => exact ⟨h, by simp [q_swap_loop], by simpa [swapL] using q, rfl, fun _ => rfl⟩
  | [x], done, h, safe, cnt, fuel, q, hc, hs, hf => by
    match fuel, hf with
    | f + 2, _ =>
      have hx : x ≠ head := q.mem_ne_head (by simp)
      have hsafe : safe = head := by simpa using hs (by simp)
      have h0 := q.head_ne
      refine ⟨h, ?_, by simpa [swapL] using q, rfl, fun _ => rfl⟩
      simp [q_swap_loop, hx, hc, hsafe, rdNext_ok h h0]
  | x :: n :: t, done, h, safe, cnt, fuel, q, hc, hs, hf => by
    match fuel, hf with
    | f + 2, hf =>
      have hx : x ≠ head := q.mem_ne_head (by simp)
      have hn : n ≠ head := q.mem_ne_head (by simp)
      have hn0 : n ≠ NULL := q.mem_ne (by simp)
      have hsafe : safe = n := by simpa using hs (by simp)
      have q2 : IsQueue h head ((done ++ [x]) ++ n :: t) := by simpa using q
      have hc1 : (cnt + 1) % 2 = 1 := by omega
      obtain ⟨h1, e1, q1, v1⟩ := q.swap_body
      have hS0 : firstOr t head ≠ NULL := q.firstOr_ne t (by intro y hy; simp [hy])
      have q3 : IsQueue h1 head ((done ++ [n, x]) ++ t) := by simpa using q1
      obtain ⟨h', e', q', v', _⟩ := q_swap_loop_spec t (done ++ [n, x]) h1
        (h1.next (firstOr t head)) (cnt + 1 + 1) f q3 (by omega) (by
          intro hne
          cases t with
          | nil => exact absurd rfl hne
          | cons s t2 => simpa using q3.next_at) (by simp at hf; omega)
      refine ⟨h', ?_, by simpa [swapL] using q', by rw [v', v1], by
        intro hl; simp at hl⟩
      simp [q_swap_loop, hx, hn, hc, hsafe, rdNext_ok h hn0, q2.next_at, hc1, e1,
        rdNext_ok h1 hS0, e']

theorem IsQueue.q_swap {h : Heap} {head : Nat} {xs : List Nat} (q : IsQueue h head xs)
    {fuel : Nat} (hf : xs.length < fuel) :
    ∃ h', q_swap fuel h head = .ok h' ∧ IsQueue h' head (swapL xs) ∧ h'.value = h.value ∧
      (xs.length ≤ 1 → h' = h) := by
  have h0 := q.head_ne
  have hn0 : firstOr xs head ≠ NULL := q.firstOr_ne xs (fun _ hx => hx)
  obtain ⟨h', e', q', v', n'⟩ := q_swap_loop_spec xs [] h (h.next (firstOr xs head)) 0 fuel
    (by simpa using q) rfl (by
      intro hne
      cases xs with
      | nil => exact absurd rfl hne
      | cons x t =>
        have hq : IsQueue h head ([] ++ x :: t) := by simpa using q
        simpa using hq.next_at) hf
  refine ⟨h', ?_, by simpa using q', v', n'⟩
  simp [Queue.q_swap, rdNext_ok h h0, q.next_head, rdNext_ok h hn0, e']

theorem swapL_length : ∀ xs : List Nat, (swapL xs).length = xs.length
  | [] => rfl
  | [_] => rfl
  | a :: b :: t => by simp [swapL, swapL_length t]

theorem swapL_even : ∀ (xs : List Nat) (k : Nat), 2 * k + 1 < xs.length →
    (swapL xs)[2 * k]? = xs[2 * k + 1]? ∧ (swapL xs)[2 * k + 1]? = xs[2 * k]?
  | [], k, hk => by simp at hk
  | [_], k, hk => by simp at hk
  | a :: b :: t, 0, _ => by simp [swapL]
  | a :: b :: t, k + 1, hk => by
    have ih := swapL_even t k (by simp at hk; omega)
    have e1 : 2 * (k + 1) = (2 * k + 1) + 1 := by ring
    have e2 : 2 * (k + 1) + 1 = (2 * k + 1 + 1) + 1 := by ring
    rw [e2, e1]
    simp only [swapL, List.getElem?_cons_succ]
    exact ih

theorem swapL_last : ∀ xs : List Nat, xs.length % 2 = 1 →
    (swapL xs)[xs.length - 1]? = xs[xs.length - 1]?
  | [], h => by simp at h
  | [_], _ => rfl
  | a :: b :: t, h => by
    have h2 : t.length % 2 = 1 := by simp at h; omega
    have ih := swapL_last t h2
    have hpos : 0 < t.length := by omega
    have e : (a :: b :: t).length - 1 = (t.length - 1) + 1 + 1 := by simp; omega
    rw [e]
    simp only [swapL, List.getElem?_cons_succ]
    exact ih


/-! ## `strcmp` is a total preorder on strings -/

theorem strcmp_neg : ∀ a b : List Nat, strcmp b a = - strcmp a b
  | [], [] => by simp [strcmp]
  | [], b :: _ => by simp [strcmp]
  | a :: _, [] => by simp [strcmp]
  | a :: as, b :: bs => by
    by_cases hab : a = b
    · subst hab
      by_cases h0 : a = 0
      · simp [strcmp, h0]
      · simp [strcmp, h0, strcmp_neg as bs]
    · have hba : ¬ b = a := fun e => hab e.symm
      simp [strcmp, hab, hba]

theorem strcmp_self (a : List Nat) : strcmp a a = 0 := by
  have := strcmp_neg a a
  omega

theorem strcmp_trans : ∀ a b c : List Nat, strcmp a b ≤ 0 → strcmp b c ≤ 0 → strcmp a c ≤ 0
  | [], _, [] => by intro _ _; simp [strcmp]
  | [], _, c :: _ => by intro _ _; simp [strcmp]
  | a :: as, [], [] => by intro h1 _; simpa [strcmp] using h1
  | a :: as, [], c :: cs => by
    intro h1 h2
    simp only [strcmp] at h1 h2
    have ha : a = 0 := by omega
    subst ha
    by_cases hc : 0 = c
    · simp [strcmp, hc.symm]
    · simp [strcmp, hc]
  | a :: as, b :: bs, [] => by
    intro h1 h2
    simp only [strcmp] at h1 h2 ⊢
    have hb : b = 0 := by omega
    subst hb
    by_cases ha : a = 0
    · simp [ha]
    · simp only [ha, if_false] at h1
      omega
  | a :: as, b :: bs, c :: cs => by
    intro h1 h2
    simp only [strcmp] at h1 h2 ⊢
    by_cases hab : a = b
    · subst hab
      by_cases hac : a = c
      · subst hac
        by_cases h0 : a = 0
        · simp [h0]
        · simp only [h0, if_false, if_true] at h1 h2 ⊢
          exact strcmp_trans as bs cs h1 h2
      · simpa [hac] using h2
    · simp only [hab, if_false] at h1
      by_cases hbc : b = c
      · subst hbc
        simp only [hab, if_false]
        exact h1
      · simp only [hbc, if_false] at h2
        have hac : ¬ a = c := by omega
        simp only [hac, if_false]
        omega

theorem strcmp_total (a b : List Nat) : strcmp a b ≤ 0 ∨ strcmp b a ≤ 0 := by
  have := strcmp_neg a b
  omega

theorem strcmp_eq_comm {a b : List Nat} (h : strcmp a b = 0) : strcmp b a = 0 := by
  have := strcmp_neg a b
  omega

theorem strcmp_eq_trans {a b c : List Nat} (h1 : strcmp a b = 0) (h2 : strcmp b c = 0) :
    strcmp a c = 0 := by
  have l1 := strcmp_trans a b c (by omega) (by omega)
  have l2 := strcmp_trans c b a (by have := strcmp_neg b c; omega)
    (by have := strcmp_neg a b; omega)
  have := strcmp_neg a c
  omega


/-! ## `q_delete_dup` -/

theorem dedupL_subset (key : Nat → List Nat) : ∀ (f : Bool) (l : List Nat) (z : Nat),
    z ∈ dedupL key f l → z ∈ l
  | _, [], z, hz => by simp [dedupL] at hz
  | f, [x], z, hz => by
    cases f <;> simp [dedupL] at hz ⊢
    exact hz
  | f, x :: y :: t, z, hz => by
    simp only [dedupL] at hz
    split_ifs at hz with h1 h2
    · exact List.mem_cons_of_mem _ (dedupL_subset key true (y :: t) z hz)
    · exact List.mem_cons_of_mem _ (dedupL_subset key false (y :: t) z hz)
    · rcases List.mem_cons.1 hz with rfl | hz
      · simp
      · exact List.mem_cons_of_mem _ (dedupL_subset key false (y :: t) z hz)

theorem q_delete_dup_loop_spec {head : Nat} (key : Nat → List Nat) :
    ∀ (rest done : List Nat) (h : Heap) (safe f fuel : Nat) (fb : Bool),
    IsQueue h head (done ++ rest) → (∀ y ∈ rest, payload h y = key y) → (fb = true ↔ f ≠ 0) →
    (rest ≠ [] → safe = firstOr rest.tail head) → rest.length < fuel →
    ∃ h', q_delete_dup_loop fuel h head (firstOr rest head) safe f = .ok h' ∧
      IsQueue h' head (done ++ dedupL key fb rest) ∧
      ∀ y, (y ∈ rest → y ∈ dedupL key fb rest) → h'.value y = h.value y
  | [], done, h, safe, f, fuel, fb, q, _, _, _, hf => by
    cases fuel with
    | zero => simp at hf
    | succ n =>
      exact ⟨h, by simp [q_delete_dup_loop], by simpa [dedupL] using q, fun _ _ => rfl⟩
  | [x], done, h, safe, f, fuel, fb, q, hk, hfb, hs, hf => by
    match fuel, hf with
    | n + 2, _ =>
      have hx : x ≠ head := q.mem_ne_head (by simp)
      have hx0 : x ≠ NULL := q.mem_ne (by simp)
      have hxv : h.value x ≠ none := q.elems x (by simp)
      have hsafe : safe = head := by simpa using hs (by simp)
      have h0 := q.head_ne
      by_cases hf0 : f = 0
      · have hb : fb = false := by
          cases fb
          · rfl
          · exact absurd hf0 (hfb.1 rfl)
        refine ⟨h, ?_, by simpa [dedupL, hb] using q, fun _ _ => rfl⟩
        simp [q_delete_dup_loop, hx, rdValue_ok h hx0 hxv, hsafe, hf0, rdNext_ok h h0]
      · have hb : fb = true := hfb.2 hf0
        obtain ⟨h1, h2, e1, e2, q2, v2⟩ := q.delete
        refine ⟨h2, ?_, by simpa [dedupL, hb] using q2, ?_⟩
        · simp [q_delete_dup_loop, hx, rdValue_ok h hx0 hxv, hsafe, hf0, e1, e2,
            rdNext_ok h2 h0]
        · intro y hy
          have : y ≠ x := by
            rintro rfl
            simp [dedupL, hb] at hy
          rw [v2]; simp [Function.update, this]
  | x :: y :: t, done, h, safe, f, fuel, fb, q, hk, hfb, hs, hf => by
    match fuel, hf with
    | n + 1, hf =>
      have hx : x ≠ head := q.mem_ne_head (by simp)
      have hx0 : x ≠ NULL := q.mem_ne (by simp)
      have hxv : h.value x ≠ none := q.elems x (by simp)
      have hy : y ≠ head := q.mem_ne_head (by simp)
      have hy0 : y ≠ NULL := q.mem_ne (by simp)
      have hyv : h.value y ≠ none := q.elems y (by simp)
      have hsafe : safe = y := by simpa using hs (by simp)
      have hkx : payload h x = key x := hk x (by simp)
      have hky : payload h y = key y := hk y (by simp)
      have hxn : x ∉ y :: t := by
        have := (nodup_middle_cons.1 q.nodup).1
        simp only [List.mem_cons, List.mem_append, not_or] at this ⊢
        exact this.2.2
      have hlen : (y :: t).length < n := by simpa using hf
      by_cases hd : strcmp (key x) (key y) = 0
      · obtain ⟨h1, h2, e1, e2, q2, v2⟩ := q.delete
        have hk2 : ∀ z ∈ y :: t, payload h2 z = key z := by
          intro z hz
          have : z ≠ x := by rintro rfl; exact hxn hz
          rw [← hk z (List.mem_cons_of_mem _ hz)]
          simp [payload, v2, Function.update, this]
        obtain ⟨h', e', q', v'⟩ := q_delete_dup_loop_spec key (y :: t) done h2
          (firstOr t head) 1 n true q2 hk2 (by simp) (by simp) hlen
        refine ⟨h', ?_, by simpa [dedupL, hd] using q', ?_⟩
        · simp only [firstOr_cons] at e'
          simp [q_delete_dup_loop, hx, rdValue_ok h hx0 hxv, rdValue_ok h hy0 hyv, hsafe, hy,
            hkx, hky, hd, e1, e2, rdNext_ok h2 hy0, q2.next_at, e']
        · intro z hz
          simp only [dedupL, hd, if_true] at hz
          have hzx : z ≠ x := by
            rintro rfl
            exact hxn (dedupL_subset key true (y :: t) z (hz (by simp)))
          rw [v' z (fun hm => hz (List.mem_cons_of_mem _ hm)), v2]
          simp [Function.update, hzx]
      · by_cases hf0 : f = 0
        · have hb : fb = false := by
            cases fb
            · rfl
            · exact absurd hf0 (hfb.1 rfl)
          have q2 : IsQueue h head ((done ++ [x]) ++ y :: t) := by simpa using q
          obtain ⟨h', e', q', v'⟩ := q_delete_dup_loop_spec key (y :: t) (done ++ [x]) h
            (firstOr t head) f n false q2 (fun z hz => hk z (List.mem_cons_of_mem _ hz))
            (by simp [hf0]) (by simp) hlen
          refine ⟨h', ?_, by simpa [dedupL, hd, hb] using q', ?_⟩
          · simp only [firstOr_cons] at e'
            simp [q_delete_dup_loop, hx, rdValue_ok h hx0 hxv, rdValue_ok h hy0 hyv, hsafe, hy,
              hkx, hky, hd, hf0, rdNext_ok h hy0, q2.next_at, e']
            simpa [hf0] using e'
          · intro z hz
            simp only [dedupL, hd, hb, if_false] at hz
            apply v' z
            intro hm
            rcases List.mem_cons.1 (hz (List.mem_cons_of_mem _ hm)) with rfl | h3
            · exact absurd hm hxn
            · exact h3
        · have hb : fb = true := hfb.2 hf0
          obtain ⟨h1, h2, e1, e2, q2, v2⟩ := q.delete
          have hk2 : ∀ z ∈ y :: t, payload h2 z = key z := by
            intro z hz
            have : z ≠ x := by rintro rfl; exact hxn hz
            rw [← hk z (List.mem_cons_of_mem _ hz)]
            simp [payload, v2, Function.update, this]
          obtain ⟨h', e', q', v'⟩ := q_delete_dup_loop_spec key (y :: t) done h2
            (firstOr t head) 0 n false q2 hk2 (by simp) (by simp) hlen
          refine ⟨h', ?_, by simpa [dedupL, hd, hb] using q', ?_⟩
          · simp only [firstOr_cons] at e'
            simp [q_delete_dup_loop, hx, rdValue_ok h hx0 hxv, rdValue_ok h hy0 hyv, hsafe, hy,
              hkx, hky, hd, hf0, e1, e2, rdNext_ok h2 hy0, q2.next_at, e']
          · intro z hz
            simp only [dedupL, hd, hb, if_true, if_false] at hz
            have hzx : z ≠ x := by
              rintro rfl
              exact hxn (dedupL_subset key false (y :: t) z (hz (by simp)))
            rw [v' z (fun hm => hz (List.mem_cons_of_mem _ hm)), v2]
            simp [Function.update, hzx]

theorem IsQueue.q_delete_dup {h : Heap} {head : Nat} {xs : List Nat} (q : IsQueue h head xs)
    {fuel : Nat} (hf : xs.length < fuel) :
    ∃ h', q_delete_dup fuel h head = .ok (true, h') ∧
      IsQueue h' head (dedupL (payload h) false xs) ∧
      ∀ y ∈ dedupL (payload h) false xs, h'.value y = h.value y := by
  have h0 := q.head_ne
  have hn0 : firstOr xs head ≠ NULL := q.firstOr_ne xs (fun _ hx => hx)
  obtain ⟨h', e', q', v'⟩ := q_delete_dup_loop_spec (payload h) xs [] h
    (h.next (firstOr xs head)) 0 fuel false (by simpa using q) (fun _ _ => rfl) (by simp) (by
      intro hne
      cases xs with
      | nil => exact absurd rfl hne
      | cons x t =>
        have hq : IsQueue h head ([] ++ x :: t) := by simpa using q
        simpa using hq.next_at) hf
  refine ⟨h', ?_, by simpa using q', fun y hy => v' y (fun _ => hy)⟩
  simp [Queue.q_delete_dup, h0, rdNext_ok h h0, q.next_head, rdNext_ok h hn0, e']


/-! ## What `q_delete_dup` keeps of a sorted queue -/

theorem countP_eq_one_iff (key : Nat → List Nat) (pre : List Nat) (x : Nat) (post : List Nat) :
    List.countP (fun y => decide (strcmp (key x) (key y) = 0)) (pre ++ x :: post) = 1 ↔
      (∀ p ∈ pre, strcmp (key x) (key p) ≠ 0) ∧ (∀ p ∈ post, strcmp (key x) (key p) ≠ 0) := by
  rw [List.countP_append, List.countP_cons]
  simp only [strcmp_self, decide_True, if_true]
  constructor
  · intro hc
    have h1 : List.countP (fun y => decide (strcmp (key x) (key y) = 0)) pre = 0 := by omega
    have h2 : List.countP (fun y => decide (strcmp (key x) (key y) = 0)) post = 0 := by omega
    rw [List.countP_eq_zero] at h1 h2
    exact ⟨fun p hp => by simpa using h1 p hp, fun p hp => by simpa using h2 p hp⟩
  · rintro ⟨h1, h2⟩
    have e1 : List.countP (fun y => decide (strcmp (key x) (key y) = 0)) pre = 0 :=
      List.countP_eq_zero.2 (fun p hp => by simpa using h1 p hp)
    have e2 : List.countP (fun y => decide (strcmp (key x) (key y) = 0)) post = 0 :=
      List.countP_eq_zero.2 (fun p hp => by simpa using h2 p hp)
    omega

theorem dedupL_sorted (key : Nat → List Nat) : ∀ (rest pre : List Nat) (fb : Bool),
    List.Pairwise (fun a b => strcmp (key a) (key b) ≤ 0) (pre ++ rest) →
    (∀ x ∈ rest.head?, (fb = true ↔ ∃ p ∈ pre, strcmp (key p) (key x) = 0)) →
    dedupL key fb rest = rest.filter (fun x =>
      decide (List.countP (fun y => decide (strcmp (key x) (key y) = 0)) (pre ++ rest) = 1))
  | [], _, _, _, _ => by simp [dedupL]
  | [x], pre, fb, _, hfb => by
    have hfx := hfb x (by simp)
    have hc := countP_eq_one_iff key pre x []
    by_cases hb : fb = true
    · obtain ⟨p, hp, hpe⟩ := hfx.1 hb
      have : ¬ List.countP (fun y => decide (strcmp (key x) (key y) = 0)) (pre ++ [x]) = 1 := by
        rw [hc]
        rintro ⟨h1, _⟩
        exact h1 p hp (strcmp_eq_comm hpe)
      rw [List.filter_cons, List.filter_nil]
      simp only [dedupL, hb, if_true, this, decide_False, Bool.false_eq_true, if_false]
    · have : List.countP (fun y => decide (strcmp (key x) (key y) = 0)) (pre ++ [x]) = 1 := by
        rw [hc]
        refine ⟨fun p hp he => hb (hfx.2 ⟨p, hp, strcmp_eq_comm he⟩), by simp⟩
      have hb2 : fb = false := by simpa using hb
      rw [List.filter_cons, List.filter_nil]
      simp only [dedupL, hb2, this, decide_True, if_true, Bool.false_eq_true, if_false]
  | x :: y :: t, pre, fb, hs, hfb => by
    have hfx := hfb x (by simp)
    have hc := countP_eq_one_iff key pre x (y :: t)
    have hs2 : List.Pairwise (fun a b => strcmp (key a) (key b) ≤ 0) ((pre ++ [x]) ++ y :: t) := by
      simpa using hs
    have hxy : strcmp (key x) (key y) ≤ 0 := by
      have := (List.pairwise_append.1 hs).2.1
      exact (List.pairwise_cons.1 this).1 y (by simp)
    have hrec := dedupL_sorted key (y :: t) (pre ++ [x])
    have hall : pre ++ [x] ++ y :: t = pre ++ x :: y :: t := by simp
    rw [hall] at hrec
    by_cases hd : strcmp (key x) (key y) = 0
    · have hx1 : ¬ List.countP (fun y => decide (strcmp (key x) (key y) = 0))
          (pre ++ x :: y :: t) = 1 := by
        rw [hc]
        rintro ⟨_, h2⟩
        exact h2 y (by simp) hd
      rw [List.filter_cons]
      simp only [dedupL, hd, if_true, hx1, decide_False, Bool.false_eq_true, if_false]
      exact hrec true hs (by
        intro z hz
        simp only [List.head?_cons, Option.mem_def, Option.some.injEq] at hz
        subst hz
        simp only [true_iff]
        exact ⟨x, by simp, hd⟩)
    · have hyx : ¬ strcmp (key y) (key x) ≤ 0 := by
        intro hle
        have := strcmp_neg (key x) (key y)
        omega
      have hno : ¬ ∃ p ∈ pre ++ [x], strcmp (key p) (key y) = 0 := by
        rintro ⟨p, hp, he⟩
        have hpx : strcmp (key p) (key x) ≤ 0 := by
          rcases List.mem_append.1 hp with h1 | h1
          · exact (List.pairwise_append.1 hs).2.2 p h1 x (by simp)
          · rw [List.mem_singleton.1 h1, strcmp_self]
        have hyp : strcmp (key y) (key p) ≤ 0 := by
          rw [strcmp_eq_comm he]
        exact hyx (strcmp_trans _ _ _ hyp hpx)
      have hrec2 := hrec false hs (by
        intro z hz
        simp only [List.head?_cons, Option.mem_def, Option.some.injEq] at hz
        subst hz
        simp only [Bool.false_eq_true, false_iff]
        exact hno)
      by_cases hb : fb = true
      · obtain ⟨p, hp, hpe⟩ := hfx.1 hb
        have hx1 : ¬ List.countP (fun y => decide (strcmp (key x) (key y) = 0))
            (pre ++ x :: y :: t) = 1 := by
          rw [hc]
          rintro ⟨h1, _⟩
          exact h1 p hp (strcmp_eq_comm hpe)
        rw [List.filter_cons]
        simp only [dedupL, hd, if_false, hb, if_true, hx1, decide_False, Bool.false_eq_true]
        exact hrec2
      · have hx1 : List.countP (fun y => decide (strcmp (key x) (key y) = 0))
            (pre ++ x :: y :: t) = 1 := by
          rw [hc]
          refine ⟨fun p hp he => hb (hfx.2 ⟨p, hp, strcmp_eq_comm he⟩), ?_⟩
          intro z hz he
          have hyz : strcmp (key y) (key z) ≤ 0 := by
            rcases List.mem_cons.1 hz with rfl | h1
            · rw [strcmp_self]
            · have h3 := (List.pairwise_append.1 hs).2.1
              exact (List.pairwise_cons.1 (List.pairwise_cons.1 h3).2).1 z h1
          have hzx : strcmp (key z) (key x) ≤ 0 := by
            rw [strcmp_eq_comm he]
          exact hyx (strcmp_trans _ _ _ hyz hzx)
        have hb2 : fb = false := by simpa using hb
        rw [List.filter_cons]
        simp only [dedupL, hd, if_false, hb2, hx1, decide_True, if_true, Bool.false_eq_true]
        rw [hrec2]

theorem chain_payLe_pairwise (key : Nat → List Nat) {xs : List Nat}
    (hs : List.Chain' (fun a b => strcmp (key a) (key b) ≤ 0) xs) :
    List.Pairwise (fun a b => strcmp (key a) (key b) ≤ 0) xs := by
  haveI : IsTrans Nat (fun a b => strcmp (key a) (key b) ≤ 0) :=
    ⟨fun a b c h1 h2 => strcmp_trans _ _ _ h1 h2⟩
  exact List.chain'_iff_pairwise.1 hs


/-! ## `merge` on a well-formed queue -/

theorem mergeL_nil_left (key : Nat → List Nat) (rs : List Nat) : mergeL key [] rs = rs := by
  simp [mergeL]

theorem mergeL_nil_right (key : Nat → List Nat) (ls : List Nat) : mergeL key ls [] = ls := by
  cases ls <;> simp [mergeL]

theorem mergeL_cons_cons (key : Nat → List Nat) (l : Nat) (ls : List Nat) (r : Nat)
    (rs : List Nat) :
    mergeL key (l :: ls) (r :: rs) =
      if strcmp (key l) (key r) > 0 then r :: mergeL key (l :: ls) rs
      else l :: mergeL key ls (r :: rs) := by
  rw [mergeL]

theorem merge_loop_spec {head : Nat} (key : Nat → List Nat) :
    ∀ (fuel : Nat) (a ls rs b : List Nat) (h : Heap) (size lcnt rcnt : Nat),
    IsQueue h head (a ++ (ls ++ (rs ++ b))) → (∀ y ∈ ls ++ rs, payload h y = key y) →
    lcnt + ls.length = size →
    (rcnt + rs.length = size ∨ (b = [] ∧ rcnt + rs.length ≤ size)) →
    ls.length + rs.length < fuel →
    ∃ h', merge_loop fuel h (firstOr (ls ++ (rs ++ b)) head) (firstOr (rs ++ b) head) size head
        lcnt rcnt = .ok h' ∧
      IsQueue h' head (a ++ (mergeL key ls rs ++ b)) ∧ h'.value = h.value := by
  intro fuel
  induction fuel with
  | zero => intro a ls rs b h size lcnt rcnt _ _ _ _ hf; simp at hf
  | succ n ih =>
    intro a ls rs b h size lcnt rcnt q hk hl hr hf
    cases ls with
    | nil =>
      have hl0 : ¬ lcnt < size := by simp at hl; omega
      exact ⟨h, by simp [merge_loop, hl0], by simpa [mergeL_nil_left] using q, rfl⟩
    | cons l ls2 =>
      cases rs with
      | nil =>
        refine ⟨h, ?_, by simpa [mergeL_nil_right] using q, rfl⟩
        rcases hr with hr | ⟨hb, _⟩
        · have hr0 : ¬ rcnt < size := by simp at hr; omega
          simp [merge_loop, hr0]
        · subst hb
          simp [merge_loop]
      | cons r rs2 =>
        have hlt : lcnt < size := by simp at hl; omega
        have hrt : rcnt < size := by
          rcases hr with hr | ⟨_, hr⟩ <;> simp at hr <;> omega
        have hrh : r ≠ head := q.mem_ne_head (by simp)
        have hl0 : l ≠ NULL := q.mem_ne (by simp)
        have hr0 : r ≠ NULL := q.mem_ne (by simp)
        have hlv : h.value l ≠ none := q.elems l (by simp)
        have hrv : h.value r ≠ none := q.elems r (by simp)
        have hkl : payload h l = key l := hk l (by simp)
        have hkr : payload h r = key r := hk r (by simp)
        by_cases hc : strcmp (key l) (key r) > 0
        · -- the right node moves in front of the left one
          have q1 : IsQueue h head ((a ++ l :: ls2) ++ r :: (rs2 ++ b)) := by simpa using q
          obtain ⟨h1, e1, q2, v1⟩ := q1.list_del
          have hrn : r ∉ head :: ((a ++ l :: ls2) ++ (rs2 ++ b)) :=
            (nodup_middle_cons.1 q1.nodup).1
          have q3 : IsQueue h1 head (a ++ (l :: (ls2 ++ (rs2 ++ b)))) := by simpa using q2
          have hrn3 : r ∉ head :: (a ++ (l :: (ls2 ++ (rs2 ++ b)))) := by simpa using hrn
          obtain ⟨h2, e2, q4, v2⟩ := q3.myInsert hrn3 hr0 (by rw [v1]; exact hrv)
          have q5 : IsQueue h2 head ((a ++ [r]) ++ ((l :: ls2) ++ (rs2 ++ b))) := by
            simpa using q4
          have hk2 : ∀ y ∈ (l :: ls2) ++ rs2, payload h2 y = key y := by
            intro y hy
            rw [← hk y (by
              simp only [List.mem_append, List.mem_cons] at hy ⊢
              tauto)]
            simp [payload, v2, v1]
          obtain ⟨h', e', q', v'⟩ := ih (a ++ [r]) (l :: ls2) rs2 b h2 size lcnt (rcnt + 1) q5 hk2
            hl (by
              rcases hr with hr | ⟨hb, hr⟩
              · left; simp at hr ⊢; omega
              · right; exact ⟨hb, by simp at hr ⊢; omega⟩)
            (by simp at hf ⊢; omega)
          refine ⟨h', ?_, ?_, by rw [v', v2, v1]⟩
          · simp only [firstOr_cons, List.cons_append] at e' e2 ⊢
            simp [merge_loop, hlt, hrt, hrh, rdValue_ok h hl0 hlv, rdValue_ok h hr0 hrv, hkl, hkr,
              hc, rdNext_ok h hr0, q1.next_at, e1, e2, e']
          · rw [mergeL_cons_cons]
            simpa [hc] using q'
        · -- the left pointer advances
          have q1 : IsQueue h head (a ++ l :: (ls2 ++ (r :: rs2 ++ b))) := by simpa using q
          have q5 : IsQueue h head ((a ++ [l]) ++ (ls2 ++ ((r :: rs2) ++ b))) := by
            simpa using q
          have hk2 : ∀ y ∈ ls2 ++ (r :: rs2), payload h y = key y := by
            intro y hy
            exact hk y (by
              simp only [List.mem_append, List.mem_cons] at hy ⊢
              tauto)
          obtain ⟨h', e', q', v'⟩ := ih (a ++ [l]) ls2 (r :: rs2) b h size (lcnt + 1) rcnt q5 hk2
            (by simp at hl ⊢; omega) hr (by simp at hf ⊢; omega)
          refine ⟨h', ?_, ?_, v'⟩
          · simp only [firstOr_cons, List.cons_append] at e' ⊢
            simp [merge_loop, hlt, hrt, hrh, rdValue_ok h hl0 hlv, rdValue_ok h hr0 hrv, hkl, hkr,
              hc, rdNext_ok h hl0, q1.next_at, e']
          · rw [mergeL_cons_cons]
            simpa [hc] using q'

theorem IsQueue.merge {h : Heap} {head : Nat} (key : Nat → List Nat) {a ls rs b : List Nat}
    (q : IsQueue h head (a ++ (ls ++ (rs ++ b)))) (hk : ∀ y ∈ ls ++ rs, payload h y = key y)
    {size fuel : Nat} (hl : ls.length = size)
    (hr : rs.length = size ∨ (b = [] ∧ rs.length ≤ size)) (hf : ls.length + rs.length < fuel) :
    ∃ h', Queue.merge fuel h (firstOr (ls ++ (rs ++ b)) head) (firstOr (rs ++ b) head) size
        head = .ok h' ∧
      IsQueue h' head (a ++ (mergeL key ls rs ++ b)) ∧ h'.value = h.value :=
  merge_loop_spec key fuel a ls rs b h size 0 0 q hk (by simpa using hl) (by simpa using hr) hf


/-! ## One pass of `q_sort` -/

theorem mergeL_perm (key : Nat → List Nat) : ∀ (n : Nat) (ls rs : List Nat),
    ls.length + rs.length = n → (mergeL key ls rs).Perm (ls ++ rs) := by
  intro n
  induction n with
  | zero =>
    intro ls rs hn
    have h1 : ls = [] := List.length_eq_zero.1 (by omega)
    have h2 : rs = [] := List.length_eq_zero.1 (by omega)
    subst h1; subst h2
    simp [mergeL_nil_left]
  | succ m ih =>
    intro ls rs hn
    cases ls with
    | nil => simp [mergeL_nil_left]
    | cons l ls2 =>
      cases rs with
      | nil => simp [mergeL_nil_right]
      | cons r rs2 =>
        rw [mergeL_cons_cons]
        by_cases hc : strcmp (key l) (key r) > 0
        · simp only [hc, if_true]
          have := ih (l :: ls2) rs2 (by simp at hn ⊢; omega)
          exact (List.Perm.cons r this).trans List.perm_middle.symm
        · simp only [hc, if_false]
          have := ih ls2 (r :: rs2) (by simp at hn ⊢; omega)
          exact List.Perm.cons l this

theorem mergeL_length (key : Nat → List Nat) (ls rs : List Nat) :
    (mergeL key ls rs).length = ls.length + rs.length := by
  have := (mergeL_perm key _ ls rs rfl).length_eq
  simpa using this

theorem passL_step (key : Nat → List Nat) {i : Nat} {zs : List Nat} (h1 : 2 * i < zs.length)
    (h2 : 0 < i) :
    passL key i zs =
      mergeL key (zs.take i) ((zs.drop i).take i) ++ passL key i (zs.drop (2 * i)) := by
  rw [passL]
  simp [h1, h2]

theorem passL_last (key : Nat → List Nat) {i : Nat} {zs : List Nat} (h1 : zs.length ≤ 2 * i) :
    passL key i zs = mergeL key (zs.take i) (zs.drop i) := by
  rw [passL]
  have : ¬ (2 * i < zs.length ∧ 0 < i) := by omega
  simp [this]

theorem firstOr_drop_snoc (cur : List Nat) (n i : Nat) (hi : 1 ≤ i) (hc : cur.length ≠ 2 * i) :
    (if cur.length = i then n else firstOr (cur.drop i) NULL) =
      firstOr ((cur ++ [n]).drop i) NULL := by
  by_cases h1 : cur.length = i
  · subst h1
    simp
  · simp only [h1, if_false]
    by_cases h2 : cur.length < i
    · rw [List.drop_eq_nil_of_le (by omega), List.drop_eq_nil_of_le (by simp; omega)]
    · rw [List.drop_append_of_le_length (by omega)]
      have : cur.drop i ≠ [] := by
        intro e
        have := congrArg List.length e
        simp at this
        omega
      cases hd : cur.drop i with
      | nil => exact absurd hd this
      | cons x t => simp

theorem int_val_ok {n : Nat} (hn : n ≤ 2147483647) : int_val n = .ok n := by
  simp [int_val, INT_MAX, hn]

theorem int_val_overflow {n : Nat} (hn : 2147483647 < n) : int_val n = .fault := by
  have : ¬ n ≤ 2147483647 := by omega
  simp [int_val, INT_MAX, this]

theorem q_sort_inner_spec {head : Nat} (key : Nat → List Nat) (i : Nat) (hi : 1 ≤ i) :
    ∀ (rest d cur : List Nat) (h : Heap) (fuel : Nat),
    IsQueue h head (d ++ (cur ++ rest)) → (∀ y ∈ cur ++ rest, payload h y = key y) →
    cur.length ≤ 2 * i → rest.length + 2 * i + 1 < fuel →
    d.length + cur.length + rest.length ≤ 1073741824 →
    ∃ h1 lp rp, q_sort_inner fuel h head i (firstOr rest head) (d.length + cur.length)
        (d.length + 2 * i) (d.length + i) (firstOr (cur ++ rest) head)
        (firstOr (cur.drop i) NULL) = .ok (h1, lp, rp) ∧
      ∀ f2, 2 * i < f2 → ∃ h', q_sort_last f2 h1 head i lp rp = .ok h' ∧
        IsQueue h' head (d ++ passL key i (cur ++ rest)) ∧ h'.value = h.value := by
  intro rest
  induction rest with
  | nil =>
    intro d cur h fuel q hk hc hf _
    match fuel, hf with
    | f + 1, _ =>
      refine ⟨h, firstOr cur head, firstOr (cur.drop i) NULL, by simp [q_sort_inner], ?_⟩
      intro f2 hf2
      simp only [List.append_nil] at q hk ⊢
      have hlp : firstOr cur head ≠ NULL := q.firstOr_ne cur (by intro y hy; simp [hy])
      rw [passL_last key hc]
      by_cases hci : cur.length ≤ i
      · rw [List.drop_eq_nil_of_le hci, List.take_of_length_le hci, mergeL_nil_right]
        exact ⟨h, by simp [q_sort_last], q, rfl⟩
      · have hne : cur.drop i ≠ [] := by
          intro e
          have := congrArg List.length e
          simp at this
          omega
        have hsub : ∀ y ∈ cur.drop i, y ∈ d ++ cur := fun y hy =>
          List.mem_append_right _ (List.mem_of_mem_drop hy)
        have hrp : firstOr (cur.drop i) NULL = firstOr (cur.drop i ++ []) head := by
          cases hd : cur.drop i with
          | nil => exact absurd hd hne
          | cons x t => simp
        have hrp0 : firstOr (cur.drop i) NULL ≠ NULL := by
          rw [hrp, List.append_nil]
          exact q.firstOr_ne _ hsub
        have hlp2 : firstOr cur head = firstOr (cur.take i ++ (cur.drop i ++ [])) head := by
          simp
        have q2 : IsQueue h head (d ++ (cur.take i ++ (cur.drop i ++ []))) := by simpa using q
        obtain ⟨h', e', q', v'⟩ := q2.merge key (by simpa using hk)
          (show (cur.take i).length = i by simp; omega)
          (Or.inr ⟨rfl, by simp; omega⟩) (show (cur.take i).length + (cur.drop i).length < f2 by
            simp; omega)
        refine ⟨h', ?_, by simpa using q', v'⟩
        rw [← hlp2, ← hrp] at e'
        simp [q_sort_last, hlp, hrp0, e']
  | cons n rest2 ih =>
    intro d cur h fuel q hk hc hf hN
    simp only [List.length_cons] at hN
    match fuel, hf with
    | f + 1, hf =>
      have hnh : n ≠ head := q.mem_ne_head (by simp)
      have hn0 : n ≠ NULL := q.mem_ne (by simp)
      by_cases hl : cur.length = 2 * i
      · -- the block is complete: it is merged and a new block starts at `n`
        have hne : cur.drop i ≠ [] := by
          intro e
          have := congrArg List.length e
          simp at this
          omega
        have hrp : firstOr (cur.drop i) NULL = firstOr (cur.drop i ++ n :: rest2) head := by
          cases hd : cur.drop i with
          | nil => exact absurd hd hne
          | cons x t => simp
        have hlp2 : firstOr (cur ++ n :: rest2) head =
            firstOr (cur.take i ++ (cur.drop i ++ n :: rest2)) head := by
          rw [← List.append_assoc, List.take_append_drop]
        have q2 : IsQueue h head (d ++ (cur.take i ++ (cur.drop i ++ n :: rest2))) := by
          rw [← List.append_assoc (cur.take i), List.take_append_drop]; exact q
        obtain ⟨h2, e2, q3, v2⟩ := q2.merge key (by
            intro y hy
            apply hk y
            rw [List.take_append_drop] at hy
            exact List.mem_append_left _ hy)
          (show (cur.take i).length = i by simp; omega)
          (Or.inl (by simp; omega)) (show (cur.take i).length + (cur.drop i).length < f by
            simp at hf ⊢; omega)
        rw [← hlp2, ← hrp] at e2
        have q4 : IsQueue h2 head ((d ++ mergeL key (cur.take i) (cur.drop i)) ++ n :: rest2) := by
          simpa using q3
        have q5 : IsQueue h2 head ((d ++ mergeL key (cur.take i) (cur.drop i)) ++
            ([n] ++ rest2)) := by simpa using q3
        have hk2 : ∀ y ∈ [n] ++ rest2, payload h2 y = key y := by
          intro y hy
          rw [← hk y (List.mem_append_right _ (by simpa using hy))]
          simp [payload, v2]
        have hdl : (d ++ mergeL key (cur.take i) (cur.drop i)).length = d.length + 2 * i := by
          rw [List.length_append, mergeL_length]
          simp
          omega
        obtain ⟨h1, lp, rp, e1, hfin⟩ := ih (d ++ mergeL key (cur.take i) (cur.drop i)) [n] h2 f q5
          hk2 (by simp; omega) (by simp at hf; omega)
          (by rw [hdl, List.length_singleton]; omega)
        have hdr : List.drop i [n] = [] := List.drop_eq_nil_of_le (by simpa using hi)
        rw [hdl, hdr] at e1
        simp only [List.length_singleton, firstOr_nil, List.singleton_append, firstOr_cons] at e1
        refine ⟨h1, lp, rp, ?_, ?_⟩
        · have hcr : ¬ (d.length + cur.length = d.length + i) := by omega
          have e3 : d.length + 2 * i + 1 = d.length + cur.length + 1 := by omega
          have e4 : d.length + 2 * i + i = d.length + i + 2 * i := by omega
          have h2i : ¬ (2 * i = i) := by omega
          have hv1 : int_val (2 * i) = .ok (2 * i) := int_val_ok (by omega)
          have hv2 : int_val (d.length + 2 * i + 2 * i) = .ok (d.length + 2 * i + 2 * i) :=
            int_val_ok (by omega)
          have hv3 : int_val (d.length + i + 2 * i) = .ok (d.length + i + 2 * i) :=
            int_val_ok (by omega)
          have hv4 : int_val (d.length + 2 * i + 1) = .ok (d.length + 2 * i + 1) :=
            int_val_ok (by omega)
          rw [hl] at e3
          simp [q_sort_inner, hnh, hcr, hl, h2i, e2, rdNext_ok h2 hn0, q4.next_at, hv1, hv2, hv3,
            hv4]
          rw [e4] at e1
          exact e1
        · intro f2 hf2
          obtain ⟨h', e', q', v'⟩ := hfin f2 hf2
          refine ⟨h', e', ?_, by rw [v', v2]⟩
          rw [passL_step key (by simp; omega) (by omega)]
          have t1 : (cur ++ n :: rest2).take i = cur.take i := by
            rw [List.take_append_of_le_length (by omega)]
          have t2 : ((cur ++ n :: rest2).drop i).take i = cur.drop i := by
            rw [List.drop_append_of_le_length (by omega),
              List.take_append_of_le_length (by simp; omega)]
            exact List.take_of_length_le (by simp; omega)
          have t3 : (cur ++ n :: rest2).drop (2 * i) = n :: rest2 := by
            rw [← hl]
            simp
          rw [t1, t2, t3]
          simpa using q'
      · -- the block goes on
        have q2 : IsQueue h head ((d ++ cur) ++ n :: rest2) := by simpa using q
        have q5 : IsQueue h head (d ++ ((cur ++ [n]) ++ rest2)) := by simpa using q
        obtain ⟨h1, lp, rp, e1, hfin⟩ := ih d (cur ++ [n]) h f q5 (by simpa using hk)
          (by simp; omega) (by simp at hf; omega) (by simp; omega)
        rw [← firstOr_drop_snoc cur n i hi hl] at e1
        refine ⟨h1, lp, rp, ?_, ?_⟩
        · have hcl : ¬ (d.length + cur.length = d.length + 2 * i) := by omega
          have hv : int_val (d.length + cur.length + 1) = .ok (d.length + cur.length + 1) :=
            int_val_ok (by omega)
          simp only [List.length_append, List.length_singleton, List.append_assoc,
            List.singleton_append] at e1
          simp only [q_sort_inner, firstOr_cons, ne_eq, hnh, not_false_eq_true, if_true, hcl,
            if_false, rdNext_ok h hn0, q2.next_at, Result.ok_bind, add_right_inj, hv]
          rw [← Nat.add_assoc] at e1
          exact e1
        · intro f2 hf2
          obtain ⟨h', e', q', v'⟩ := hfin f2 hf2
          exact ⟨h', e', by simpa using q', v'⟩


/-! ## The order computed by `merge` and by a pass: sortedness, permutation, stability -/

theorem mergeL_mem (key : Nat → List Nat) (ls rs : List Nat) (z : Nat) :
    z ∈ mergeL key ls rs ↔ z ∈ ls ∨ z ∈ rs := by
  rw [(mergeL_perm key _ ls rs rfl).mem_iff, List.mem_append]

theorem mergeL_sorted (key : Nat → List Nat) : ∀ (n : Nat) (ls rs : List Nat),
    ls.length + rs.length = n → List.Pairwise (keyLe key) ls → List.Pairwise (keyLe key) rs →
    List.Pairwise (keyLe key) (mergeL key ls rs) := by
  intro n
  induction n with
  | zero =>
    intro ls rs hn _ _
    have h1 : ls = [] := List.length_eq_zero.1 (by omega)
    have h2 : rs = [] := List.length_eq_zero.1 (by omega)
    subst h1; subst h2
    simp [mergeL_nil_left]
  | succ m ih =>
    intro ls rs hn hl hr
    cases ls with
    | nil => simpa [mergeL_nil_left] using hr
    | cons l ls2 =>
      cases rs with
      | nil => simpa [mergeL_nil_right] using hl
      | cons r rs2 =>
        rw [mergeL_cons_cons]
        have hl2 := List.pairwise_cons.1 hl
        have hr2 := List.pairwise_cons.1 hr
        by_cases hc : strcmp (key l) (key r) > 0
        · simp only [hc, if_true]
          have hrl : keyLe key r l := by
            unfold keyLe
            have := strcmp_neg (key l) (key r)
            omega
          refine List.pairwise_cons.2 ⟨?_, ih (l :: ls2) rs2 (by simp at hn ⊢; omega) hl hr2.2⟩
          intro z hz
          rcases (mergeL_mem key _ _ z).1 hz with h1 | h1
          · rcases List.mem_cons.1 h1 with rfl | h2
            · exact hrl
            · exact strcmp_trans _ _ _ hrl (hl2.1 z h2)
          · exact hr2.1 z h1
        · simp only [hc, if_false]
          have hlr : keyLe key l r := by
            unfold keyLe
            omega
          refine List.pairwise_cons.2 ⟨?_, ih ls2 (r :: rs2) (by simp at hn ⊢; omega) hl2.2 hr⟩
          intro z hz
          rcases (mergeL_mem key _ _ z).1 hz with h1 | h1
          · exact hl2.1 z h1
          · rcases List.mem_cons.1 h1 with rfl | h2
            · exact hlr
            · exact strcmp_trans _ _ _ hlr (hr2.1 z h2)

/-- Stability of `merge`: the nodes of one payload keep their order, left run first. -/
theorem mergeL_filter (key : Nat → List Nat) (s : List Nat) : ∀ (n : Nat) (ls rs : List Nat),
    ls.length + rs.length = n → List.Pairwise (keyLe key) ls →
    (mergeL key ls rs).filter (fun y => decide (strcmp s (key y) = 0)) =
      ls.filter (fun y => decide (strcmp s (key y) = 0)) ++
        rs.filter (fun y => decide (strcmp s (key y) = 0)) := by
  intro n
  induction n with
  | zero =>
    intro ls rs hn _
    have h1 : ls = [] := List.length_eq_zero.1 (by omega)
    have h2 : rs = [] := List.length_eq_zero.1 (by omega)
    subst h1; subst h2
    simp [mergeL_nil_left]
  | succ m ih =>
    intro ls rs hn hl
    cases ls with
    | nil => simp [mergeL_nil_left]
    | cons l ls2 =>
      cases rs with
      | nil => simp [mergeL_nil_right]
      | cons r rs2 =>
        rw [mergeL_cons_cons]
        have hl2 := List.pairwise_cons.1 hl
        by_cases hc : strcmp (key l) (key r) > 0
        · simp only [hc, if_true]
          have hrec := ih (l :: ls2) rs2 (by simp at hn ⊢; omega) hl
          by_cases hr : strcmp s (key r) = 0
          · have hnil : (l :: ls2).filter (fun y => decide (strcmp s (key y) = 0)) = [] := by
              rw [List.filter_eq_nil_iff]
              intro z hz hz2
              have hz3 : strcmp s (key z) = 0 := by simpa using hz2
              have hlz : strcmp (key l) (key z) ≤ 0 := by
                rcases List.mem_cons.1 hz with rfl | h2
                · rw [strcmp_self]
                · exact hl2.1 z h2
              have hzr : strcmp (key z) (key r) = 0 := strcmp_eq_trans (strcmp_eq_comm hz3) hr
              have := strcmp_trans _ _ _ hlz (le_of_eq hzr)
              omega
            have hp : ∀ t : List Nat, List.filter (fun y => decide (strcmp s (key y) = 0)) (r :: t) =
                r :: List.filter (fun y => decide (strcmp s (key y) = 0)) t := by
              intro t; simp [List.filter_cons, hr]
            rw [hp, hrec, hnil, hp]
            simp
          · have hp : ∀ t : List Nat, List.filter (fun y => decide (strcmp s (key y) = 0)) (r :: t) =
                List.filter (fun y => decide (strcmp s (key y) = 0)) t := by
              intro t; simp [List.filter_cons, hr]
            rw [hp, hrec, hp]
        · simp only [hc, if_false]
          have hrec := ih ls2 (r :: rs2) (by simp at hn ⊢; omega) hl2.2
          by_cases hq : strcmp s (key l) = 0
          · have hp : ∀ t : List Nat, List.filter (fun y => decide (strcmp s (key y) = 0)) (l :: t) =
                l :: List.filter (fun y => decide (strcmp s (key y) = 0)) t := by
              intro t; simp [List.filter_cons, hq]
            rw [hp, hrec, hp]
            simp
          · have hp : ∀ t : List Nat, List.filter (fun y => decide (strcmp s (key y) = 0)) (l :: t) =
                List.filter (fun y => decide (strcmp s (key y) = 0)) t := by
              intro t; simp [List.filter_cons, hq]
            rw [hp, hrec, hp]

/-! ### A pass -/

theorem passL_perm (key : Nat → List Nat) (i : Nat) : ∀ (n : Nat) (zs : List Nat),
    zs.length ≤ n → (passL key i zs).Perm zs := by
  intro n
  induction n with
  | zero =>
    intro zs hn
    have h1 : zs = [] := List.length_eq_zero.1 (by omega)
    subst h1
    rw [passL_last key (by simp)]
    simp [mergeL_nil_left]
  | succ m ih =>
    intro zs hn
    by_cases hst : 2 * i < zs.length ∧ 0 < i
    · rw [passL_step key hst.1 hst.2]
      have h1 := mergeL_perm key _ (zs.take i) ((zs.drop i).take i) rfl
      have h2 := ih (zs.drop (2 * i)) (by simp; omega)
      have h3 : zs = (zs.take i ++ (zs.drop i).take i) ++ zs.drop (2 * i) := by
        rw [← List.take_add, ← two_mul, List.take_append_drop]
      conv_rhs => rw [h3]
      exact List.Perm.append h1 h2
    · by_cases h0 : i = 0
      · subst h0
        rw [passL]
        simp [mergeL_nil_left]
      · rw [passL_last key (by omega)]
        have h1 := mergeL_perm key _ (zs.take i) (zs.drop i) rfl
        rwa [List.take_append_drop] at h1

theorem passL_length (key : Nat → List Nat) (i : Nat) (zs : List Nat) :
    (passL key i zs).length = zs.length :=
  (passL_perm key i _ zs le_rfl).length_eq

theorem BlockSorted.drop {key : Nat → List Nat} {i : Nat} {zs : List Nat}
    (hb : BlockSorted key i zs) : BlockSorted key i (zs.drop (2 * i)) := by
  intro k
  have := hb (k + 2)
  rw [List.drop_drop]
  have e : 2 * i + k * i = (k + 2) * i := by ring
  rw [e]
  exact this

theorem passL_filter (key : Nat → List Nat) (i : Nat) (s : List Nat) : ∀ (n : Nat) (zs : List Nat),
    zs.length ≤ n → BlockSorted key i zs →
    (passL key i zs).filter (fun y => decide (strcmp s (key y) = 0)) =
      zs.filter (fun y => decide (strcmp s (key y) = 0)) := by
  intro n
  induction n with
  | zero =>
    intro zs hn _
    have h1 : zs = [] := List.length_eq_zero.1 (by omega)
    subst h1
    rw [passL_last key (by simp)]
    simp [mergeL_nil_left]
  | succ m ih =>
    intro zs hn hb
    have hb0 : List.Pairwise (keyLe key) (zs.take i) := by simpa using hb 0
    by_cases hst : 2 * i < zs.length ∧ 0 < i
    · rw [passL_step key hst.1 hst.2, List.filter_append,
        mergeL_filter key s _ _ _ rfl hb0, ih (zs.drop (2 * i)) (by simp; omega) hb.drop,
        ← List.filter_append, ← List.filter_append, ← List.take_add, ← two_mul,
        List.take_append_drop]
    · by_cases h0 : i = 0
      · subst h0
        rw [passL]
        simp [mergeL_nil_left]
      · rw [passL_last key (by omega), mergeL_filter key s _ _ _ rfl hb0, ← List.filter_append,
          List.take_append_drop]

theorem passL_blockSorted (key : Nat → List Nat) (i : Nat) : ∀ (n : Nat) (zs : List Nat),
    zs.length ≤ n → BlockSorted key i zs → BlockSorted key (2 * i) (passL key i zs) := by
  intro n
  induction n with
  | zero =>
    intro zs hn _
    have h1 : zs = [] := List.length_eq_zero.1 (by omega)
    subst h1
    rw [passL_last key (by simp)]
    intro k
    simp [mergeL_nil_left]
  | succ m ih =>
    intro zs hn hb
    have hb0 : List.Pairwise (keyLe key) (zs.take i) := by simpa using hb 0
    have hb1 : List.Pairwise (keyLe key) ((zs.drop i).take i) := by simpa using hb 1
    by_cases hst : 2 * i < zs.length ∧ 0 < i
    · rw [passL_step key hst.1 hst.2]
      have hm := mergeL_sorted key _ _ _ rfl hb0 hb1
      have hlen : (mergeL key (zs.take i) ((zs.drop i).take i)).length = 2 * i := by
        rw [mergeL_length]
        simp
        omega
      have hrec := ih (zs.drop (2 * i)) (by simp; omega) hb.drop
      intro k
      cases k with
      | zero =>
        simp only [Nat.zero_mul, List.drop_zero]
        rw [← hlen, List.take_left]
        exact hm
      | succ j =>
        have e : (j + 1) * (2 * i) =
            (mergeL key (zs.take i) ((zs.drop i).take i)).length + j * (2 * i) := by
          rw [hlen]; ring
        rw [e, List.drop_append]
        exact hrec j
    · by_cases h0 : i = 0
      · subst h0
        intro k
        simp
      · have hwhole : List.Pairwise (keyLe key) (passL key i zs) := by
          rw [passL_last key (by omega)]
          have hd : zs.drop i = (zs.drop i).take i :=
            (List.take_of_length_le (by simp; omega)).symm
          rw [hd]
          exact mergeL_sorted key _ _ _ rfl hb0 hb1
        intro k
        exact List.Pairwise.sublist
          ((List.take_sublist _ _).trans (List.drop_sublist _ _)) hwhole

theorem blockSorted_one (key : Nat → List Nat) (zs : List Nat) : BlockSorted key 1 zs := by
  intro k
  have hl : ((zs.drop (k * 1)).take 1).length ≤ 1 := by simp
  match hd : (zs.drop (k * 1)).take 1, hl with
  | [], _ => exact List.Pairwise.nil
  | [x], _ => exact List.pairwise_singleton _ _

theorem BlockSorted.sorted {key : Nat → List Nat} {i : Nat} {zs : List Nat}
    (hb : BlockSorted key i zs) (hi : zs.length ≤ i) : List.Pairwise (keyLe key) zs := by
  have := hb 0
  simpa [List.take_of_length_le hi] using this


/-! ## `q_sort` -/

theorem IsQueue.q_sort_pass {h : Heap} {head : Nat} {ys : List Nat} (q : IsQueue h head ys)
    (key : Nat → List Nat) (hk : ∀ y ∈ ys, payload h y = key y) {i : Nat} (hi : 1 ≤ i)
    {fuel : Nat} (hf : ys.length + 2 * i + 1 < fuel) (hb : ys.length ≤ 1073741824) :
    ∃ r h', q_sort_inner fuel h head i (h.next head) 0 (2 * i) i (h.next head) NULL = .ok r ∧
      q_sort_last fuel r.1 head i r.2.1 r.2.2 = .ok h' ∧
      IsQueue h' head (passL key i ys) ∧ h'.value = h.value := by
  have q0 : IsQueue h head ([] ++ ([] ++ ys)) := by simpa using q
  obtain ⟨h1, lp, rp, e1, hfin⟩ := q_sort_inner_spec key i hi ys [] [] h fuel q0
    (by simpa using hk) (by simp) hf (by simpa using hb)
  obtain ⟨h', e', q', v'⟩ := hfin fuel (by omega)
  refine ⟨(h1, lp, rp), h', ?_, e', by simpa using q', v'⟩
  simpa [q.next_head] using e1

theorem q_sort_outer_spec {head : Nat} (key : Nat → List Nat) (xs : List Nat) :
    ∀ (fuel i : Nat) (ys : List Nat) (h : Heap),
    IsQueue h head ys → (∀ y ∈ ys, payload h y = key y) → 1 ≤ i → ys.Perm xs →
    BlockSorted key i ys →
    (∀ s, ys.filter (fun y => decide (strcmp s (key y) = 0)) =
      xs.filter (fun y => decide (strcmp s (key y) = 0))) →
    3 * ys.length + 3 + (ys.length - i) ≤ fuel → ys.length ≤ 1073741824 →
    ∃ h' zs, q_sort_outer fuel h head ys.length i = .ok h' ∧ IsQueue h' head zs ∧
      h'.value = h.value ∧ zs.Perm xs ∧ List.Pairwise (keyLe key) zs ∧
      ∀ s, zs.filter (fun y => decide (strcmp s (key y) = 0)) =
        xs.filter (fun y => decide (strcmp s (key y) = 0)) := by
  intro fuel
  induction fuel with
  | zero => intro i ys h _ _ _ _ _ _ hf _; omega
  | succ f ih =>
    intro i ys h q hk hi hp hb hst hf hN
    have h0 := q.head_ne
    by_cases hlt : i < ys.length
    · obtain ⟨r, h1, e1, e2, q1, v1⟩ := q.q_sort_pass key hk hi
        (show ys.length + 2 * i + 1 < f by omega) hN
      have hk1 : ∀ y ∈ passL key i ys, payload h1 y = key y := by
        intro y hy
        rw [← hk y ((passL_perm key i _ ys le_rfl).mem_iff.1 hy)]
        simp [payload, v1]
      have hlen := passL_length key i ys
      obtain ⟨h', zs, e', q', v', p', s', f'⟩ := ih (i * 2) (passL key i ys) h1 q1 hk1 (by omega)
        ((passL_perm key i _ ys le_rfl).trans hp)
        (by rw [Nat.mul_comm]; exact passL_blockSorted key i _ ys le_rfl hb)
        (fun s => by rw [passL_filter key i s _ ys le_rfl hb]; exact hst s)
        (by rw [hlen]; omega) (by rw [hlen]; exact hN)
      rw [hlen] at e'
      have hv1 : int_val (2 * i) = .ok (2 * i) := int_val_ok (by omega)
      have hv2 : int_val (i * 2) = .ok (i * 2) := int_val_ok (by omega)
      refine ⟨h', zs, ?_, q', by rw [v', v1], p', s', f'⟩
      simp [q_sort_outer, hlt, rdNext_ok h h0, e1, e2, e', hv1, hv2]
    · exact ⟨h, ys, by simp [q_sort_outer, hlt], q, rfl, hp, hb.sorted (by omega), hst⟩

theorem q_sort_outer_overflow (fuel : Nat) (h : Heap) (head size i : Nat) (hi : i < size)
    (hbig : 1073741824 ≤ i) : q_sort_outer (fuel + 1) h head size i = .fault := by
  have hv : int_val (2 * i) = .fault := int_val_overflow (by omega)
  simp only [q_sort_outer, hi, if_true, hv]
  rfl

theorem IsQueue.q_sort {h : Heap} {head : Nat} {xs : List Nat} (q : IsQueue h head xs)
    {fuel : Nat} (hf : 4 * xs.length + 3 ≤ fuel) (hb : xs.length ≤ 2 ^ 30) :
    ∃ h' zs, q_sort fuel h head = .ok h' ∧ IsQueue h' head zs ∧ h'.value = h.value ∧
      zs.Perm xs ∧ List.Pairwise (keyLe (payload h)) zs ∧
      ∀ s, zs.filter (fun y => decide (strcmp s (payload h y) = 0)) =
        xs.filter (fun y => decide (strcmp s (payload h y) = 0)) := by
  have h0 := q.head_ne
  obtain ⟨h', zs, e', q', v', p', s', f'⟩ := q_sort_outer_spec (payload h) xs fuel 1 xs h q
    (fun _ _ => rfl) le_rfl (List.Perm.refl _) (blockSorted_one _ _) (fun _ => rfl) (by omega)
    (by norm_num at hb; exact hb)
  refine ⟨h', zs, ?_, q', v', p', s', f'⟩
  simp [Queue.q_sort, h0, q.q_size (show xs.length < fuel by omega), e']


/-! ## The sample queues used as witnesses -/

theorem sampleQueue_five :
    IsQueue (sampleQueue [[97], [98], [99], [100], [101]]) 1 [2, 3, 4, 5, 6] :=
  ⟨by decide, by decide, by decide, by decide, by decide⟩

theorem sampleQueue_six :
    IsQueue (sampleQueue [[97], [98], [99], [100], [101], [102]]) 1 [2, 3, 4, 5, 6, 7] :=
  ⟨by decide, by decide, by decide, by decide, by decide⟩

theorem sampleQueue_three :
    IsQueue (sampleQueue [[98], [97], [97]]) 1 [2, 3, 4] :=
  ⟨by decide, by decide, by decide, by decide, by decide⟩

theorem sampleQueue_dups :
    IsQueue (sampleQueue [[97], [97], [98], [99], [99], [99]]) 1 [2, 3, 4, 5, 6, 7] :=
  ⟨by decide, by decide, by decide, by decide, by decide⟩

theorem sampleQueue_dups_sorted :
    List.Chain' (payLe (sampleQueue [[97], [97], [98], [99], [99], [99]])) [2, 3, 4, 5, 6, 7] := by
  simp only [List.chain'_cons, List.chain'_singleton, and_true]
  decide


/-! ## `sort` -/

theorem payLe_of_value_eq {h h' : Heap} (hv : h'.value = h.value) {zs : List Nat}
    (hs : List.Pairwise (keyLe (payload h)) zs) : List.Chain' (payLe h') zs := by
  have hp : ∀ x, payload h' x = payload h x := fun x => by simp [payload, hv]
  refine List.Chain'.imp ?_ hs.chain'
  intro a b hab
  unfold payLe
  rw [hp a, hp b]
  exact hab

/-- C1: `q_sort` on a well-formed queue of at most `2^30` elements (the lengths, 0 and 1
included, for which the `int` variables of `q_sort` do not overflow) ends and leaves a
well-formed queue in which every two adjacent elements `a`, `b` of the forward traversal
satisfy `strcmp(a.payload, b.payload) <= 0`. -/
theorem q_sort_sorted (h : Heap) (head : Nat) (xs : List Nat) (fuel : Nat)
    (q : IsQueue h head xs) (hf : 4 * xs.length + 3 ≤ fuel) (hb : xs.length ≤ 2 ^ 30) :
    ∃ h' ys, q_sort fuel h head = .ok h' ∧ IsQueue h' head ys ∧ List.Chain' (payLe h') ys := by
  obtain ⟨h', zs, e, q', v, _, s, _⟩ := q.q_sort hf hb
  exact ⟨h', zs, e, q', payLe_of_value_eq v s⟩

/-- Witness of C1: the queue `["b","a","a"]` becomes `["a","a","b"]`. -/
theorem q_sort_sorted_witness :
    IsQueue (sampleQueue [[98], [97], [97]]) 1 [2, 3, 4] ∧ 4 * [2, 3, 4].length + 3 ≤ 15 ∧
    [2, 3, 4].length ≤ 2 ^ 30 ∧
    (∃ h' ys, q_sort 15 (sampleQueue [[98], [97], [97]]) 1 = .ok h' ∧ IsQueue h' 1 ys ∧
      List.Chain' (payLe h') ys) ∧
    (q_sort 15 (sampleQueue [[98], [97], [97]]) 1 >>= fun r =>
      Result.ok (q_payloads 4 r 1)) = .ok [[97], [97], [98]] :=
  ⟨sampleQueue_three, by decide, by decide,
    q_sort_sorted _ 1 [2, 3, 4] 15 sampleQueue_three (by decide) (by decide), by decide⟩

/-- C2: on a well-formed queue of at most `2^30` elements (the lengths for which the `int`
variables of `q_sort` do not overflow) `q_sort` ends, and the elements of the queue after
it are a permutation of the elements before it: the same nodes, none created, dropped or
duplicated, every payload untouched, so the multiset of payloads is the same. -/
theorem q_sort_perm (h : Heap) (head : Nat) (xs : List Nat) (fuel : Nat)
    (q : IsQueue h head xs) (hf : 4 * xs.length + 3 ≤ fuel) (hb : xs.length ≤ 2 ^ 30) :
    ∃ h' ys, q_sort fuel h head = .ok h' ∧ IsQueue h' head ys ∧ ys.Perm xs ∧
      h'.value = h.value ∧ (ys.map (payload h')).Perm (xs.map (payload h)) := by
  obtain ⟨h', zs, e, q', v, p, _, _⟩ := q.q_sort hf hb
  refine ⟨h', zs, e, q', p, v, ?_⟩
  have hp : payload h' = payload h := by
    funext x; simp [payload, v]
  rw [hp]
  exact p.map _

/-- Witness of C2 on the queue `["b","a","a"]`. -/
theorem q_sort_perm_witness :
    IsQueue (sampleQueue [[98], [97], [97]]) 1 [2, 3, 4] ∧ 4 * [2, 3, 4].length + 3 ≤ 15 ∧
    [2, 3, 4].length ≤ 2 ^ 30 ∧
    ∃ h' ys, q_sort 15 (sampleQueue [[98], [97], [97]]) 1 = .ok h' ∧ IsQueue h' 1 ys ∧
      ys.Perm [2, 3, 4] ∧ h'.value = (sampleQueue [[98], [97], [97]]).value ∧
      (ys.map (payload h')).Perm
        ([2, 3, 4].map (payload (sampleQueue [[98], [97], [97]]))) :=
  ⟨sampleQueue_three, by decide, by decide,
    q_sort_perm _ 1 [2, 3, 4] 15 sampleQueue_three (by decide) (by decide)⟩

/-- C3: `q_sort` is stable.  On a well-formed queue of at most `2^30` elements (the lengths
for which the `int` variables of `q_sort` do not overflow) it ends, and two elements `x`,
`y` with equal payloads (`strcmp` gives 0) such that `x` precedes `y` in the traversal
before the sort are in this order after it. -/
theorem q_sort_stable (h : Heap) (head : Nat) (xs : List Nat) (fuel : Nat)
    (q : IsQueue h head xs) (hf : 4 * xs.length + 3 ≤ fuel) (hb : xs.length ≤ 2 ^ 30) :
    ∃ h' ys, q_sort fuel h head = .ok h' ∧ IsQueue h' head ys ∧
      ∀ x y, payEq h x y → List.Sublist [x, y] xs → List.Sublist [x, y] ys := by
  obtain ⟨h', zs, e, q', _, _, _, st⟩ := q.q_sort hf hb
  refine ⟨h', zs, e, q', ?_⟩
  intro x y hxy hsub
  have h1 := List.Sublist.filter (fun z => decide (strcmp (payload h x) (payload h z) = 0)) hsub
  have h2 : List.filter (fun z => decide (strcmp (payload h x) (payload h z) = 0)) [x, y] =
      [x, y] := by
    have hy : strcmp (payload h x) (payload h y) = 0 := hxy
    simp [List.filter_cons, strcmp_self, hy]
  rw [h2, ← st (payload h x)] at h1
  exact h1.trans (List.filter_sublist _)

/-- Witness of C3: in `["b","a","a"]` the first `"a"` (node 3) stays before the second
`"a"` (node 4). -/
theorem q_sort_stable_witness :
    IsQueue (sampleQueue [[98], [97], [97]]) 1 [2, 3, 4] ∧ 4 * [2, 3, 4].length + 3 ≤ 15 ∧
    [2, 3, 4].length ≤ 2 ^ 30 ∧
    (∃ h' ys, q_sort 15 (sampleQueue [[98], [97], [97]]) 1 = .ok h' ∧ IsQueue h' 1 ys ∧
      ∀ x y, payEq (sampleQueue [[98], [97], [97]]) x y →
        List.Sublist [x, y] [2, 3, 4] → List.Sublist [x, y] ys) ∧
    (q_sort 15 (sampleQueue [[98], [97], [97]]) 1 >>= fun r =>
      Result.ok (traverse 4 r 1 (r.next 1))) = .ok [3, 4, 2] :=
  ⟨sampleQueue_three, by decide, by decide,
    q_sort_stable _ 1 [2, 3, 4] 15 sampleQueue_three (by decide) (by decide), by decide⟩

/-! ## `delete_adjacent_duplicates` -/

/-- C4: on a well-formed queue whose payloads are in ascending order `q_delete_dup`
returns true and leaves, in their original order and with their payloads, exactly the
elements whose payload occurs once among the original elements; no element of a payload
that occurs twice or more survives. -/
theorem q_delete_dup_sorted (h : Heap) (head : Nat) (xs : List Nat) (fuel : Nat)
    (q : IsQueue h head xs) (hs : List.Chain' (payLe h) xs) (hf : xs.length < fuel) :
    ∃ h', q_delete_dup fuel h head = .ok (true, h') ∧
      IsQueue h' head (xs.filter (fun x => decide (occurrences h xs x = 1))) ∧
      ∀ y ∈ xs.filter (fun x => decide (occurrences h xs x = 1)), h'.value y = h.value y := by
  obtain ⟨h', e, q', v⟩ := q.q_delete_dup hf
  have hpw := chain_payLe_pairwise (payload h) hs
  have hd := dedupL_sorted (payload h) xs [] false (by simpa using hpw) (by simp)
  have he : dedupL (payload h) false xs =
      xs.filter (fun x => decide (occurrences h xs x = 1)) := by
    rw [hd]
    rfl
  rw [he] at q' v
  exact ⟨h', e, q', v⟩

/-- Witness of C4: the sorted queue `["a","a","b","c","c","c"]` becomes `["b"]`. -/
theorem q_delete_dup_sorted_witness :
    IsQueue (sampleQueue [[97], [97], [98], [99], [99], [99]]) 1 [2, 3, 4, 5, 6, 7] ∧
    List.Chain' (payLe (sampleQueue [[97], [97], [98], [99], [99], [99]])) [2, 3, 4, 5, 6, 7] ∧
    (∃ h', q_delete_dup 7 (sampleQueue [[97], [97], [98], [99], [99], [99]]) 1 = .ok (true, h') ∧
      IsQueue h' 1 [4] ∧
      ∀ y ∈ [4], h'.value y = (sampleQueue [[97], [97], [98], [99], [99], [99]]).value y) ∧
    (q_delete_dup 7 (sampleQueue [[97], [97], [98], [99], [99], [99]]) 1 >>= fun r =>
      Result.ok (r.1, q_payloads 7 r.2 1)) = .ok (true, [[98]]) :=
  ⟨sampleQueue_dups, sampleQueue_dups_sorted,
    q_delete_dup_sorted _ 1 [2, 3, 4, 5, 6, 7] 7 sampleQueue_dups sampleQueue_dups_sorted
      (by decide),
    by decide⟩


/-! ## `delete_middle` -/

/-- C5: on a non-empty queue of `n` elements `q_delete_mid` returns true and leaves the
original traversal order without the element at zero-based index `n / 2` (the payloads of
the other elements are untouched); on an empty queue and on a `NULL` queue it returns
false and leaves the heap as it was. -/
theorem q_delete_mid_removes_middle (h : Heap) (head : Nat) (xs : List Nat) (fuel : Nat)
    (q : IsQueue h head xs) (hf : xs.length < fuel) :
    (xs ≠ [] → ∃ h', q_delete_mid fuel h head = .ok (true, h') ∧
        IsQueue h' head (xs.eraseIdx (xs.length / 2)) ∧
        ∀ y ∈ xs.eraseIdx (xs.length / 2), h'.value y = h.value y) ∧
    (xs = [] → q_delete_mid fuel h head = .ok (false, h)) ∧
    q_delete_mid fuel h NULL = .ok (false, h) := by
  refine ⟨fun hne => q.q_delete_mid hne hf, ?_, by simp [q_delete_mid]⟩
  rintro rfl
  have h0 := q.head_ne
  simp [q_delete_mid, h0, list_empty, rdNext_ok h h0, q.next_head]

/-- Witness of C5: the queue `["a","b","c","d","e"]` becomes `["a","b","d","e"]`. -/
theorem q_delete_mid_removes_middle_witness :
    IsQueue (sampleQueue [[97], [98], [99], [100], [101]]) 1 [2, 3, 4, 5, 6] ∧
    (∃ h', q_delete_mid 6 (sampleQueue [[97], [98], [99], [100], [101]]) 1 = .ok (true, h') ∧
      IsQueue h' 1 [2, 3, 5, 6] ∧
      ∀ y ∈ [2, 3, 5, 6], h'.value y = (sampleQueue [[97], [98], [99], [100], [101]]).value y) ∧
    (q_delete_mid 6 (sampleQueue [[97], [98], [99], [100], [101]]) 1 >>= fun r =>
      Result.ok (r.1, q_payloads 6 r.2 1)) = .ok (true, [[97], [98], [100], [101]]) :=
  ⟨sampleQueue_five,
    (q_delete_mid_removes_middle _ 1 [2, 3, 4, 5, 6] 6 sampleQueue_five (by decide)).1 (by decide),
    by decide⟩

/-- C6 fails as stated: on a queue of six elements `q_delete_mid` leaves the elements that
were at the indices 0, 1, 2, 4, 5, so the element at index 2 survives and the traversal is
not the original one without index 2. -/
theorem q_delete_mid_six_counterexample :
    IsQueue (sampleQueue [[97], [98], [99], [100], [101], [102]]) 1 [2, 3, 4, 5, 6, 7] ∧
    ∃ h', q_delete_mid 7 (sampleQueue [[97], [98], [99], [100], [101], [102]]) 1 = .ok (true, h') ∧
      IsQueue h' 1 [2, 3, 4, 6, 7] ∧
      ¬ IsQueue h' 1 ([2, 3, 4, 5, 6, 7].eraseIdx 2) := by
  refine ⟨sampleQueue_six, ?_⟩
  obtain ⟨h', e, q', _⟩ := sampleQueue_six.q_delete_mid (by decide) (Nat.lt_succ_self 6)
  refine ⟨h', e, q', ?_⟩
  intro q2
  have := q'.unique q2
  revert this
  decide

/-- C6 (amended): on a queue of exactly six elements `q_delete_mid` returns true and
removes the element at zero-based index 3 (the fourth member), leaving the elements that
were at the indices 0, 1, 2, 4, 5 with their payloads. -/
theorem q_delete_mid_six (h : Heap) (head : Nat) (xs : List Nat) (fuel : Nat)
    (q : IsQueue h head xs) (hlen : xs.length = 6) (hf : 6 < fuel) :
    ∃ h', q_delete_mid fuel h head = .ok (true, h') ∧ IsQueue h' head (xs.eraseIdx 3) ∧
      ∀ y ∈ xs.eraseIdx 3, h'.value y = h.value y := by
  have hne : xs ≠ [] := by
    rintro rfl; simp at hlen
  have := q.q_delete_mid hne (by rw [hlen]; exact hf)
  rw [hlen] at this
  exact this

/-- Witness of the amended C6 on the queue `["a","b","c","d","e","f"]`. -/
theorem q_delete_mid_six_witness :
    IsQueue (sampleQueue [[97], [98], [99], [100], [101], [102]]) 1 [2, 3, 4, 5, 6, 7] ∧
    [2, 3, 4, 5, 6, 7].length = 6 ∧ 6 < 7 ∧
    ∃ h', q_delete_mid 7 (sampleQueue [[97], [98], [99], [100], [101], [102]]) 1 = .ok (true, h') ∧
      IsQueue h' 1 [2, 3, 4, 6, 7] ∧
      ∀ y ∈ [2, 3, 4, 6, 7],
        h'.value y = (sampleQueue [[97], [98], [99], [100], [101], [102]]).value y :=
  ⟨sampleQueue_six, rfl, by decide,
    q_delete_mid_six _ 1 [2, 3, 4, 5, 6, 7] 7 sampleQueue_six rfl (by decide)⟩

/-! ## `swap_pairs` -/

/-- C7: `q_swap` on a well-formed queue `x0, ..., x(n-1)` yields a well-formed queue of the
same nodes and payloads in which `x(2k)` and `x(2k+1)` are exchanged for every `k` with
`2k+1 < n` and, for odd `n`, `x(n-1)` stays last; for `n ≤ 1` the heap is left as it was. -/
theorem q_swap_exchanges_pairs (h : Heap) (head : Nat) (xs : List Nat) (fuel : Nat)
    (q : IsQueue h head xs) (hf : xs.length < fuel) :
    ∃ h' ys, q_swap fuel h head = .ok h' ∧ IsQueue h' head ys ∧ h'.value = h.value ∧
      ys.length = xs.length ∧
      (∀ k, 2 * k + 1 < xs.length → ys[2 * k]? = xs[2 * k + 1]? ∧ ys[2 * k + 1]? = xs[2 * k]?) ∧
      (xs.length % 2 = 1 → ys[xs.length - 1]? = xs[xs.length - 1]?) ∧
      (xs.length ≤ 1 → h' = h) := by
  obtain ⟨h', e, q', v, hn⟩ := q.q_swap hf
  exact ⟨h', swapL xs, e, q', v, swapL_length xs, swapL_even xs, swapL_last xs, hn⟩

/-- Witness of C7: the queue `["a","b","c","d","e"]` becomes `["b","a","d","c","e"]`. -/
theorem q_swap_exchanges_pairs_witness :
    IsQueue (sampleQueue [[97], [98], [99], [100], [101]]) 1 [2, 3, 4, 5, 6] ∧
    (∃ h' ys, q_swap 6 (sampleQueue [[97], [98], [99], [100], [101]]) 1 = .ok h' ∧
      IsQueue h' 1 ys ∧ h'.value = (sampleQueue [[97], [98], [99], [100], [101]]).value ∧
      ys.length = 5 ∧
      (∀ k, 2 * k + 1 < 5 →
        ys[2 * k]? = [2, 3, 4, 5, 6][2 * k + 1]? ∧ ys[2 * k + 1]? = [2, 3, 4, 5, 6][2 * k]?) ∧
      (5 % 2 = 1 → ys[5 - 1]? = [2, 3, 4, 5, 6][5 - 1]?) ∧
      (5 ≤ 1 → h' = sampleQueue [[97], [98], [99], [100], [101]])) ∧
    (q_swap 6 (sampleQueue [[97], [98], [99], [100], [101]]) 1 >>= fun r =>
      Result.ok (q_payloads 6 r 1)) = .ok [[98], [97], [100], [99], [101]] :=
  ⟨sampleQueue_five,
    q_swap_exchanges_pairs _ 1 [2, 3, 4, 5, 6] 6 sampleQueue_five (by decide), by decide⟩

/-! ## `reverse` -/

/-- C8: `q_reverse` on a well-formed queue yields a well-formed queue whose forward
traversal is the reverse of the original one, made of the same nodes, and no payload is
touched. -/
theorem q_reverse_reverses (h : Heap) (head : Nat) (xs : List Nat) (fuel : Nat)
    (q : IsQueue h head xs) (hf : xs.length < fuel) :
    ∃ h', q_reverse fuel h head = .ok h' ∧ IsQueue h' head xs.reverse ∧ h'.value = h.value :=
  ⟨flipOn (xs ++ [head]) h, q.q_reverse hf, q.flipOn, rfl⟩

/-- Witness of C8: the queue `["a","b","c","d","e"]` becomes `["e","d","c","b","a"]`. -/
theorem q_reverse_reverses_witness :
    IsQueue (sampleQueue [[97], [98], [99], [100], [101]]) 1 [2, 3, 4, 5, 6] ∧
    (∃ h', q_reverse 6 (sampleQueue [[97], [98], [99], [100], [101]]) 1 = .ok h' ∧
      IsQueue h' 1 [6, 5, 4, 3, 2] ∧
      h'.value = (sampleQueue [[97], [98], [99], [100], [101]]).value) ∧
    (q_reverse 6 (sampleQueue [[97], [98], [99], [100], [101]]) 1 >>= fun r =>
      Result.ok (q_payloads 6 r 1)) = .ok [[101], [100], [99], [98], [97]] :=
  ⟨sampleQueue_five,
    q_reverse_reverses _ 1 [2, 3, 4, 5, 6] 6 sampleQueue_five (by decide), by decide⟩

/-- C9: applying `q_reverse` twice to a well-formed queue gives back the very same heap:
the same sentinel, every link and every payload as before, hence the same forward
traversal. -/
theorem q_reverse_twice (h : Heap) (head : Nat) (xs : List Nat) (fuel : Nat)
    (q : IsQueue h head xs) (hf : xs.length < fuel) :
    ∃ h1 h2, q_reverse fuel h head = .ok h1 ∧ q_reverse fuel h1 head = .ok h2 ∧ h2 = h ∧
      IsQueue h2 head xs := by
  have q1 := q.flipOn
  have e2 := q1.q_reverse (by simpa using hf)
  have hh : flipOn (xs.reverse ++ [head]) (flipOn (xs ++ [head]) h) = h :=
    flipOn_flipOn h _ _ (by intro p; simp)
  rw [hh] at e2
  exact ⟨flipOn (xs ++ [head]) h, h, q.q_reverse hf, e2, rfl, q⟩

/-- Witness of C9 on the queue `["a","b","c","d","e"]`. -/
theorem q_reverse_twice_witness :
    IsQueue (sampleQueue [[97], [98], [99], [100], [101]]) 1 [2, 3, 4, 5, 6] ∧
    ∃ h1 h2, q_reverse 6 (sampleQueue [[97], [98], [99], [100], [101]]) 1 = .ok h1 ∧
      q_reverse 6 h1 1 = .ok h2 ∧ h2 = sampleQueue [[97], [98], [99], [100], [101]] ∧
      IsQueue h2 1 [2, 3, 4, 5, 6] :=
  ⟨sampleQueue_five, q_reverse_twice _ 1 [2, 3, 4, 5, 6] 6 sampleQueue_five (by decide)⟩

/-- C10 fails on the code: `q_reverse` called with a `NULL` queue dereferences it at once
(`head->next` in the loop header), so the call faults instead of being a no-op. -/
theorem q_reverse_null_faults (fuel : Nat) (h : Heap) : q_reverse fuel h NULL = .fault := by
  simp [q_reverse, rdNext, NULL]


/-! ## Strings -/

theorem cstr_nil : cstr [] = [] := rfl

theorem cstr_cons_zero (t : List Nat) : cstr (0 :: t) = [] := by
  simp [cstr]

theorem cstr_cons_ne {a : Nat} (ha : a ≠ 0) (t : List Nat) : cstr (a :: t) = a :: cstr t := by
  simp [cstr, List.takeWhile_cons, ha]

theorem cstr_snoc_zero : ∀ s : List Nat, cstr (cstr s ++ [0]) = cstr s
  | [] => by simp [cstr]
  | a :: t => by
    by_cases ha : a = 0
    · subst ha
      rw [cstr_cons_zero]
      simp [cstr]
    · rw [cstr_cons_ne ha, List.cons_append, cstr_cons_ne ha, cstr_snoc_zero t]

theorem cstr_strncpy_bytes (s : List Nat) : cstr (strncpy_bytes s (strlen s + 1)) = cstr s := by
  have h1 : (cstr s).take (strlen s + 1) = cstr s :=
    List.take_of_length_le (by unfold strlen; omega)
  have h2 : strlen s + 1 - strlen s = 1 := by omega
  rw [strncpy_bytes, h1, h2]
  exact cstr_snoc_zero s

theorem strcmp_cstr : ∀ v : List Nat, strcmp (cstr v) v = 0
  | [] => by simp [cstr, strcmp]
  | a :: t => by
    by_cases ha : a = 0
    · subst ha
      rw [cstr_cons_zero]
      simp [strcmp]
    · rw [cstr_cons_ne ha]
      simp [strcmp, ha, strcmp_cstr t]

theorem cstr_eq_self : ∀ {v : List Nat}, 0 ∉ v → cstr v = v
  | [], _ => rfl
  | a :: t, h => by
    have ha : a ≠ 0 := by
      rintro rfl; simp at h
    rw [cstr_cons_ne ha, cstr_eq_self (fun h0 => h (List.mem_cons_of_mem _ h0))]

/-! ## `q_new`, `q_insert_head`, `q_insert_tail` -/

theorem attach_before_eq_myInsert (h : Heap) (target node : Nat) :
    attach_before h target node = myInsert h target node := rfl

theorem q_new_ok (h : Heap) {p : Nat} (hp : p ≠ NULL) (hv : h.value p = none) :
    ∃ h', q_new h p = .ok (p, h') ∧ IsQueue h' p [] ∧ h'.value = h.value := by
  refine ⟨⟨Function.update h.next p p, Function.update h.prev p p, h.value⟩, ?_, ?_, rfl⟩
  · simp [q_new, hp, INIT_LIST_HEAD, wrNext_ok _ _ hp, wrPrev_ok _ _ hp]
  · refine ⟨⟨by simp, by simp⟩, by simp, ?_, hv, by simp⟩
    intro x hx
    simp only [List.mem_singleton] at hx
    rw [hx]; exact hp

theorem IsQueue.wrValue {h : Heap} {head : Nat} {xs : List Nat} (q : IsQueue h head xs)
    {e : Nat} (he : e ∉ head :: xs) (v : List Nat) : IsQueue (wrValue h e v) head xs :=
  q.of_value_update he (some v)

theorem IsQueue.q_insert_head {h : Heap} {head : Nat} {xs : List Nat} (q : IsQueue h head xs)
    (s : List Nat) {e str : Nat} (he : e ∉ head :: xs) (he0 : e ≠ NULL) (hs0 : str ≠ NULL) :
    ∃ h', q_insert_head h head s e str = .ok (true, h') ∧ IsQueue h' head (e :: xs) ∧
      h'.value = Function.update h.value e (some (cstr s)) := by
  have h0 := q.head_ne
  have q1 : IsQueue (Queue.wrValue h e (cstr s)) head ([] ++ xs) := by simpa using q.wrValue he (cstr s)
  have hv : (Queue.wrValue h e (cstr s)).value e ≠ none := by simp [Queue.wrValue]
  obtain ⟨h', e', q', v'⟩ := q1.myInsert (by simpa using he) he0 hv
  refine ⟨h', ?_, by simpa using q', by rw [v']; rfl⟩
  have hn : (Queue.wrValue h e (cstr s)).next head = firstOr xs head := by
    simpa using q1.next_head
  simp [Queue.q_insert_head, h0, he0, hs0, cstr_strncpy_bytes, list_add, rdNext_ok _ h0, hn,
    attach_before_eq_myInsert, e']

theorem IsQueue.q_insert_tail {h : Heap} {head : Nat} {xs : List Nat} (q : IsQueue h head xs)
    (s : List Nat) {e str : Nat} (he : e ∉ head :: xs) (he0 : e ≠ NULL) (hs0 : str ≠ NULL) :
    ∃ h', q_insert_tail h head s e str = .ok (true, h') ∧ IsQueue h' head (xs ++ [e]) ∧
      h'.value = Function.update h.value e (some (cstr s)) := by
  have h0 := q.head_ne
  have q1 : IsQueue (Queue.wrValue h e (cstr s)) head (xs ++ []) := by simpa using q.wrValue he (cstr s)
  have hv : (Queue.wrValue h e (cstr s)).value e ≠ none := by simp [Queue.wrValue]
  obtain ⟨h', e', q', v'⟩ := q1.myInsert (by simpa using he) he0 hv
  refine ⟨h', ?_, q', by rw [v']; rfl⟩
  simp only [firstOr_nil] at e'
  simp [Queue.q_insert_tail, h0, he0, hs0, cstr_strncpy_bytes, list_add_tail,
    attach_before_eq_myInsert, e']

theorem q_insert_fail (h : Heap) (head : Nat) (s : List Nat) (e str : Nat)
    (hfail : head = NULL ∨ e = NULL ∨ str = NULL) :
    q_insert_head h head s e str = .ok (false, h) ∧
      q_insert_tail h head s e str = .ok (false, h) := by
  by_cases h1 : head = NULL
  · simp [q_insert_head, q_insert_tail, h1]
  · by_cases h2 : e = NULL
    · simp [q_insert_head, q_insert_tail, h1, h2]
    · have h3 : str = NULL := by tauto
      simp [q_insert_head, q_insert_tail, h1, h2, h3]

theorem q_insert_tail_all_spec {head : Nat} : ∀ (calls : List (List Nat × Nat × Nat))
    (h : Heap) (xs : List Nat), IsQueue h head xs →
    (head :: (xs ++ calls.map (fun c => c.2.1))).Nodup →
    (∀ c ∈ calls, c.2.1 ≠ NULL ∧ c.2.2 ≠ NULL) →
    ∃ h', q_insert_tail_all h head calls = .ok (true, h') ∧
      IsQueue h' head (xs ++ calls.map (fun c => c.2.1)) ∧
      (calls.map (fun c => c.2.1)).map (payload h') = calls.map (fun c => cstr c.1) ∧
      ∀ y ∈ xs, h'.value y = h.value y
  | [], h, xs, q, _, _ => ⟨h, by simp [q_insert_tail_all], by simpa using q, by simp, fun _ _ => rfl⟩
  | c :: rest, h, xs, q, hnd, hnn => by
    have hc := hnn c (by simp)
    have hnd2 : (head :: ((xs ++ [c.2.1]) ++ rest.map (fun c => c.2.1))).Nodup := by
      rw [List.append_assoc]; exact hnd
    have hnd3 : (head :: (xs ++ c.2.1 :: rest.map (fun c => c.2.1))).Nodup := hnd
    have he : c.2.1 ∉ head :: xs := by
      have := (nodup_middle_cons.1 hnd3).1
      simp only [List.mem_cons, List.mem_append, not_or] at this ⊢
      exact ⟨this.1, this.2.1⟩
    obtain ⟨h1, e1, q1, v1⟩ := q.q_insert_tail c.1 he hc.1 hc.2
    obtain ⟨h', e', q', p', v'⟩ := q_insert_tail_all_spec rest h1 (xs ++ [c.2.1]) q1 hnd2
      (fun d hd => hnn d (List.mem_cons_of_mem _ hd))
    refine ⟨h', ?_, by simpa using q', ?_, ?_⟩
    · simp [q_insert_tail_all, e1, e']
    · have hv : h'.value c.2.1 = some (cstr c.1) := by
        rw [v' c.2.1 (by simp), v1]; simp
      simp only [List.map_cons, List.map_map] at p' ⊢
      rw [p']
      simp [payload, hv]
    · intro y hy
      have hye : y ≠ c.2.1 := by
        rintro rfl
        exact he (List.mem_cons_of_mem _ hy)
      rw [v' y (by simp [hy]), v1]
      simp [Function.update, hye]


/-! ## `q_remove_head`, `q_remove_tail` -/

theorem size_sub_one {c : Nat} (hc : 1 ≤ c) (hsz : c < SIZE_MOD) :
    (SIZE_MOD - 1 + c) % SIZE_MOD = c - 1 := by
  have e : SIZE_MOD - 1 + c = (c - 1) + SIZE_MOD := by omega
  rw [e, Nat.add_mod_right, Nat.mod_eq_of_lt (by omega)]

theorem size_zero_sub_one : (SIZE_MOD - 1 + 0) % SIZE_MOD = SIZE_MOD - 1 := by
  have hpos : 0 < SIZE_MOD := by unfold SIZE_MOD; positivity
  rw [Nat.add_zero, Nat.mod_eq_of_lt (by omega)]

theorem strncpy_bytes_length (v : List Nat) (n : Nat) : (strncpy_bytes v n).length = n := by
  unfold strncpy_bytes strlen
  rw [List.length_append, List.length_take, List.length_replicate]
  omega

theorem copied_length (v : List Nat) (c : Nat) : (copied v c).length = c := by
  unfold copied strlen
  rw [List.length_append, List.length_take, List.length_replicate]
  omega

theorem copied_terminated (v : List Nat) {c : Nat} (hc : 1 ≤ c) :
    (copied v c)[c - 1]? = some 0 := by
  unfold copied
  have hl : ((cstr v).take (min (strlen v) (c - 1))).length = min (strlen v) (c - 1) := by
    unfold strlen
    rw [List.length_take]
    omega
  rw [List.getElem?_append_right (by rw [hl]; omega), hl, List.getElem?_replicate]
  have : c - 1 - min (strlen v) (c - 1) < c - min (strlen v) (c - 1) := by omega
  simp [this]

/-- The two library calls of a removal on a supplied buffer that is large enough. -/
theorem memset_strncpy (v : List Nat) (buf : List Nat) {c : Nat} (hc : 1 ≤ c) (hcap : c ≤ buf.length)
    (hsz : c < SIZE_MOD) :
    (memset (some buf) 0 c >>= fun sp => strncpy sp v ((SIZE_MOD - 1 + c) % SIZE_MOD)) =
      .ok (some (copied v c ++ buf.drop c)) := by
  have hc0 : c ≠ 0 := by omega
  rw [size_sub_one hc hsz]
  simp only [memset, hc0, if_false, hcap, if_true, Result.pure_eq_ok, Result.ok_bind]
  by_cases h1 : c - 1 = 0
  · have hc1 : c = 1 := by omega
    subst hc1
    simp [strncpy, copied]
  · have hle : c - 1 ≤ (List.replicate c 0 ++ List.drop c buf).length := by
      rw [List.length_append, List.length_replicate]; omega
    simp only [strncpy, h1, if_false, hle, if_true, Result.pure_eq_ok]
    congr 2
    rw [List.drop_append_of_le_length (by rw [List.length_replicate]; omega), List.drop_replicate]
    unfold copied strncpy_bytes
    have hmin : (cstr v).take (c - 1) = (cstr v).take (min (strlen v) (c - 1)) := by
      by_cases hlen : strlen v ≤ c - 1
      · rw [min_eq_left hlen, List.take_of_length_le (by simpa [strlen] using hlen),
          List.take_of_length_le (by simp [strlen])]
      · rw [min_eq_right (by omega)]
    rw [hmin, List.append_assoc, List.append_assoc]
    congr 1
    rw [← List.append_assoc, ← List.replicate_add]
    congr 2
    omega

theorem Result.bind_assoc_ok {α β γ : Type} (r : Result α) (f : α → Result β)
    (g : β → Result γ) : (r >>= f >>= g) = (r >>= fun a => f a >>= g) := by
  cases r <;> rfl

theorem bind_eq_ok {α β : Type} {r : Result α} {f : α → Result β} {b : β}
    (hb : (r >>= f) = .ok b) : ∃ a, r = .ok a ∧ f a = .ok b := by
  cases r with
  | ok a => exact ⟨a, rfl, hb⟩
  | fault => exact absurd hb (by simp)
  | timeout => exact absurd hb (by simp)

/-- The part of `q_remove_head` before the two library calls, on a non-empty queue: the
first element is unlinked and its payload is the one that is read. -/
theorem IsQueue.remove_head_prefix {h : Heap} {head x : Nat} {t : List Nat}
    (q : IsQueue h head (x :: t)) (sp : Option (List Nat)) (bufsize : Nat) :
    ∃ h', Queue.list_del h x = .ok h' ∧ rdValue h' x = .ok (payload h x) ∧ IsQueue h' head t ∧
      h'.value = h.value ∧
      q_remove_head h head sp bufsize =
        (memset sp 0 bufsize >>= fun sp1 =>
          strncpy sp1 (payload h x) ((SIZE_MOD - 1 + bufsize) % SIZE_MOD) >>= fun sp2 =>
            Result.ok (x, h', sp2)) := by
  have h0 := q.head_ne
  have hx : x ≠ head := q.mem_ne_head (by simp)
  have hx0 : x ≠ NULL := q.mem_ne (by simp)
  have q1 : IsQueue h head ([] ++ x :: t) := by simpa using q
  obtain ⟨h', e', q', v'⟩ := q1.list_del
  have hv : h'.value x ≠ none := by rw [v']; exact q.elems x (by simp)
  have hp : payload h' x = payload h x := by simp [payload, v']
  refine ⟨h', e', by rw [rdValue_ok h' hx0 hv, hp], by simpa using q', v', ?_⟩
  unfold Queue.q_remove_head
  generalize (SIZE_MOD - 1 + bufsize) % SIZE_MOD = n
  simp only [h0, if_false, list_empty, rdNext_ok h h0, Result.ok_bind, Result.pure_eq_ok,
    q.next_head, firstOr_cons, hx, decide_False, Bool.false_eq_true, e',
    rdValue_ok h' hx0 hv, hp]

/-- The part of `q_remove_tail` before the two library calls, on a non-empty queue. -/
theorem IsQueue.remove_tail_prefix {h : Heap} {head x : Nat} {t : List Nat}
    (q : IsQueue h head (t ++ [x])) (sp : Option (List Nat)) (bufsize : Nat) :
    ∃ h', Queue.list_del h x = .ok h' ∧ rdValue h' x = .ok (payload h x) ∧ IsQueue h' head t ∧
      h'.value = h.value ∧
      q_remove_tail h head sp bufsize =
        (memset sp 0 bufsize >>= fun sp1 =>
          strncpy sp1 (payload h x) ((SIZE_MOD - 1 + bufsize) % SIZE_MOD) >>= fun sp2 =>
            Result.ok (x, h', sp2)) := by
  have h0 := q.head_ne
  have hx0 : x ≠ NULL := q.mem_ne (by simp)
  obtain ⟨h', e', q', v'⟩ := q.list_del
  have hv : h'.value x ≠ none := by rw [v']; exact q.elems x (by simp)
  have hp : payload h' x = payload h x := by simp [payload, v']
  have hne : firstOr (t ++ [x]) head ≠ head := by
    cases t with
    | nil => simpa using q.mem_ne_head (List.mem_append_right _ (List.mem_singleton_self x))
    | cons y t2 => simpa using q.mem_ne_head (List.mem_cons_self y _)
  refine ⟨h', e', by rw [rdValue_ok h' hx0 hv, hp], by simpa using q', v', ?_⟩
  unfold Queue.q_remove_tail
  generalize (SIZE_MOD - 1 + bufsize) % SIZE_MOD = n
  simp only [h0, if_false, list_empty, rdNext_ok h h0, rdPrev_ok h h0, Result.ok_bind,
    Result.pure_eq_ok, q.next_head, hne, decide_False, Bool.false_eq_true, q.prev_head,
    lastOr_snoc, e', rdValue_ok h' hx0 hv, hp]

theorem IsQueue.q_remove_head {h : Heap} {head x : Nat} {t : List Nat}
    (q : IsQueue h head (x :: t)) (buf : List Nat) {c : Nat} (hc : 1 ≤ c) (hcap : c ≤ buf.length)
    (hsz : c < SIZE_MOD) :
    ∃ h', q_remove_head h head (some buf) c =
        .ok (x, h', some (copied (payload h x) c ++ buf.drop c)) ∧
      IsQueue h' head t ∧ h'.value = h.value := by
  obtain ⟨h', _, _, q', v', e⟩ := q.remove_head_prefix (some buf) c
  refine ⟨h', ?_, q', v'⟩
  rw [e, ← Result.bind_assoc_ok, memset_strncpy (payload h x) buf hc hcap hsz]
  rfl

theorem IsQueue.q_remove_tail {h : Heap} {head x : Nat} {t : List Nat}
    (q : IsQueue h head (t ++ [x])) (buf : List Nat) {c : Nat} (hc : 1 ≤ c)
    (hcap : c ≤ buf.length) (hsz : c < SIZE_MOD) :
    ∃ h', q_remove_tail h head (some buf) c =
        .ok (x, h', some (copied (payload h x) c ++ buf.drop c)) ∧
      IsQueue h' head t ∧ h'.value = h.value := by
  obtain ⟨h', _, _, q', v', e⟩ := q.remove_tail_prefix (some buf) c
  refine ⟨h', ?_, q', v'⟩
  rw [e, ← Result.bind_assoc_ok, memset_strncpy (payload h x) buf hc hcap hsz]
  rfl

theorem q_remove_absent (h : Heap) (head : Nat) (sp : Option (List Nat))
    (bufsize : Nat) (hq : head = NULL ∨ IsQueue h head []) :
    q_remove_head h head sp bufsize = .ok (NULL, h, sp) ∧
      q_remove_tail h head sp bufsize = .ok (NULL, h, sp) := by
  unfold q_remove_head q_remove_tail
  generalize (SIZE_MOD - 1 + bufsize) % SIZE_MOD = n
  rcases hq with h1 | q
  · simp only [h1, if_true, Result.pure_eq_ok, and_self]
  · have h0 := q.head_ne
    have hn : h.next head = head := by simpa using q.next_head
    simp only [h0, if_false, list_empty, rdNext_ok h h0, Result.ok_bind, Result.pure_eq_ok, hn,
      decide_True, if_true, and_self]

theorem remove_buffer_null (v : List Nat) (bufsize : Nat) :
    (memset none 0 bufsize >>= fun sp => strncpy sp v ((SIZE_MOD - 1 + bufsize) % SIZE_MOD)) =
      .fault := by
  by_cases hb : bufsize = 0
  · subst hb
    have hpos : SIZE_MOD - 1 ≠ 0 := by unfold SIZE_MOD; norm_num
    simp only [memset, if_true, Result.pure_eq_ok, Result.ok_bind, strncpy, size_zero_sub_one,
      hpos, if_false]
  · simp only [memset, hb, if_false, Result.fault_bind]

theorem remove_buffer_zero (v : List Nat) (buf : List Nat) (hcap : buf.length < SIZE_MOD - 1) :
    (memset (some buf) 0 0 >>= fun sp => strncpy sp v ((SIZE_MOD - 1 + 0) % SIZE_MOD)) =
      .fault := by
  have hpos : SIZE_MOD - 1 ≠ 0 := by unfold SIZE_MOD; norm_num
  have hle : ¬ (SIZE_MOD - 1 ≤ buf.length) := by omega
  simp only [memset, if_true, Result.pure_eq_ok, Result.ok_bind, strncpy, size_zero_sub_one,
    hpos, if_false, hle]


/-! ## Well-formedness: forward and backward traversal -/

theorem Seg.traverseBack_seg {h : Heap} {head : Nat} : ∀ (xs : List Nat) (b : Nat),
    Seg h head xs b → head ∉ xs → ∀ fuel, xs.length < fuel →
    traverseBack fuel h head (h.prev b) = xs.reverse := by
  intro xs
  induction xs using List.reverseRecOn with
  | nil =>
    intro b hs _ fuel hf
    cases fuel with
    | zero => simp at hf
    | succ f => simp [traverseBack, hs.2]
  | append_singleton l x ih =>
    intro b hs hnd fuel hf
    cases fuel with
    | zero => simp at hf
    | succ f =>
      have hs2 := (Seg_snoc h head l x b).1 hs
      have hx : x ≠ head := by
        rintro rfl; simp at hnd
      simp only [traverseBack, hs2.2.2, hx, if_false, List.reverse_append, List.reverse_cons,
        List.reverse_nil, List.nil_append, List.singleton_append]
      rw [ih x hs2.1 (fun hm => hnd (List.mem_append_left _ hm)) f (by simp at hf; omega)]

theorem IsQueue.wellFormed {h : Heap} {head : Nat} {xs : List Nat} (q : IsQueue h head xs) :
    WellFormed h head := by
  refine ⟨xs, q, fun fuel hf => ⟨q.traverse_eq fuel hf, ?_⟩⟩
  exact q.path.traverseBack_seg xs head (List.nodup_cons.1 q.nodup).1 fuel hf

theorem IsQueue.remove_head_any {h : Heap} {head : Nat} {xs : List Nat} (q : IsQueue h head xs)
    (sp : Option (List Nat)) (bufsize : Nat) (r : Nat × Heap × Option (List Nat))
    (hr : Queue.q_remove_head h head sp bufsize = .ok r) : IsQueue r.2.1 head xs.tail := by
  cases xs with
  | nil =>
    rw [(q_remove_absent h head sp bufsize (Or.inr q)).1] at hr
    cases hr
    exact q
  | cons x t =>
    obtain ⟨h', _, _, q', _, e⟩ := q.remove_head_prefix sp bufsize
    rw [e] at hr
    obtain ⟨sp1, _, hr1⟩ := bind_eq_ok hr
    obtain ⟨sp2, _, hr2⟩ := bind_eq_ok hr1
    cases hr2
    exact q'

theorem IsQueue.remove_head_ret {h : Heap} {head x : Nat} {t : List Nat}
    (q : IsQueue h head (x :: t)) (sp : Option (List Nat)) (bufsize : Nat)
    (r : Nat × Heap × Option (List Nat))
    (hr : Queue.q_remove_head h head sp bufsize = .ok r) :
    r.1 = x ∧ IsQueue r.2.1 head t ∧ r.2.1.value = h.value := by
  obtain ⟨h', _, _, q', v', e⟩ := q.remove_head_prefix sp bufsize
  rw [e] at hr
  obtain ⟨sp1, _, hr1⟩ := bind_eq_ok hr
  obtain ⟨sp2, _, hr2⟩ := bind_eq_ok hr1
  cases hr2
  exact ⟨rfl, q', v'⟩

theorem IsQueue.remove_tail_any {h : Heap} {head : Nat} {xs : List Nat} (q : IsQueue h head xs)
    (sp : Option (List Nat)) (bufsize : Nat) (r : Nat × Heap × Option (List Nat))
    (hr : Queue.q_remove_tail h head sp bufsize = .ok r) : IsQueue r.2.1 head xs.dropLast := by
  rcases List.eq_nil_or_concat xs with rfl | ⟨t, x, rfl⟩
  · rw [(q_remove_absent h head sp bufsize (Or.inr q)).2] at hr
    cases hr
    exact q
  · rw [List.concat_eq_append] at q ⊢
    obtain ⟨h', _, _, q', _, e⟩ := q.remove_tail_prefix sp bufsize
    rw [e] at hr
    obtain ⟨sp1, _, hr1⟩ := bind_eq_ok hr
    obtain ⟨sp2, _, hr2⟩ := bind_eq_ok hr1
    cases hr2
    simpa using q'

theorem IsQueue.remove_head_ok {h : Heap} {head : Nat} {xs : List Nat} (q : IsQueue h head xs)
    (buf : List Nat) {c : Nat} (hc : 1 ≤ c) (hcap : c ≤ buf.length) (hsz : c < SIZE_MOD) :
    ∃ r, Queue.q_remove_head h head (some buf) c = .ok r := by
  cases xs with
  | nil => exact ⟨_, (q_remove_absent h head (some buf) c (Or.inr q)).1⟩
  | cons x t =>
    obtain ⟨h', e, _⟩ := q.q_remove_head buf hc hcap hsz
    exact ⟨_, e⟩

theorem IsQueue.remove_tail_ok {h : Heap} {head : Nat} {xs : List Nat} (q : IsQueue h head xs)
    (buf : List Nat) {c : Nat} (hc : 1 ≤ c) (hcap : c ≤ buf.length) (hsz : c < SIZE_MOD) :
    ∃ r, Queue.q_remove_tail h head (some buf) c = .ok r := by
  rcases List.eq_nil_or_concat xs with rfl | ⟨t, x, rfl⟩
  · exact ⟨_, (q_remove_absent h head (some buf) c (Or.inr q)).2⟩
  · rw [List.concat_eq_append] at q
    obtain ⟨h', e, _⟩ := q.q_remove_tail buf hc hcap hsz
    exact ⟨_, e⟩

theorem IsQueue.insert_wellFormed {h : Heap} {head : Nat} {xs : List Nat} (q : IsQueue h head xs)
    (s : List Nat) (e str : Nat) (he : e ∉ head :: xs) :
    (∃ r, Queue.q_insert_head h head s e str = .ok r ∧ WellFormed r.2 head) ∧
      ∃ r, Queue.q_insert_tail h head s e str = .ok r ∧ WellFormed r.2 head := by
  by_cases hfail : e = NULL ∨ str = NULL
  · have := q_insert_fail h head s e str (Or.inr hfail)
    exact ⟨⟨_, this.1, q.wellFormed⟩, ⟨_, this.2, q.wellFormed⟩⟩
  · have he0 : e ≠ NULL := fun h1 => hfail (Or.inl h1)
    have hs0 : str ≠ NULL := fun h1 => hfail (Or.inr h1)
    obtain ⟨h1, e1, q1, _⟩ := q.q_insert_head s he he0 hs0
    obtain ⟨h2, e2, q2, _⟩ := q.q_insert_tail s he he0 hs0
    exact ⟨⟨_, e1, q1.wellFormed⟩, ⟨_, e2, q2.wellFormed⟩⟩

theorem IsQueue.q_delete_mid_any {h : Heap} {head : Nat} {xs : List Nat} (q : IsQueue h head xs)
    {fuel : Nat} (hf : xs.length < fuel) :
    ∃ r ys, Queue.q_delete_mid fuel h head = .ok r ∧ IsQueue r.2 head ys := by
  by_cases hne : xs = []
  · subst hne
    have h0 := q.head_ne
    refine ⟨(false, h), [], ?_, q⟩
    simp [Queue.q_delete_mid, h0, list_empty, rdNext_ok h h0, q.next_head]
  · obtain ⟨h', e, q', _⟩ := q.q_delete_mid hne hf
    exact ⟨_, _, e, q'⟩

/-! ## Adjacent duplicates, on any order -/

theorem dedupL_eq_dropRuns (key : Nat → List Nat) : ∀ (l : List Nat) (p : Option Nat) (f : Bool),
    (∀ x ∈ l.head?, (f = true ↔ ∃ q ∈ p, strcmp (key q) (key x) = 0)) →
    dedupL key f l = dropRuns key p l
  | [], _, _, _ => by simp [dedupL, dropRuns]
  | [x], p, f, hf => by
    have hfx := hf x (by simp)
    rw [dropRuns, dropRuns, List.append_nil]
    by_cases hb : f = true
    · obtain ⟨q, hq, he⟩ := hfx.1 hb
      rw [if_neg (fun hc => hc.1 q hq he)]
      simp only [dedupL, hb, if_true]
    · have hall : ∀ q ∈ p, strcmp (key q) (key x) ≠ 0 :=
        fun q hq he => hb (hfx.2 ⟨q, hq, he⟩)
      have hb2 : f = false := by simpa using hb
      rw [if_pos ⟨hall, by simp⟩]
      simp only [dedupL, hb2, Bool.false_eq_true, if_false]
  | x :: y :: t, p, f, hf => by
    have hfx := hf x (by simp)
    rw [dropRuns]
    by_cases hd : strcmp (key x) (key y) = 0
    · have ih := dedupL_eq_dropRuns key (y :: t) (some x) true (by
        intro z hz
        simp only [List.head?_cons, Option.mem_def, Option.some.injEq] at hz
        subst hz
        simp [hd])
      rw [if_neg (fun hc => hc.2 y (by simp) hd), List.nil_append]
      simp only [dedupL, hd, if_true, ih]
    · have ih := dedupL_eq_dropRuns key (y :: t) (some x) false (by
        intro z hz
        simp only [List.head?_cons, Option.mem_def, Option.some.injEq] at hz
        subst hz
        simp [hd])
      by_cases hb : f = true
      · obtain ⟨q, hq, he⟩ := hfx.1 hb
        rw [if_neg (fun hc => hc.1 q hq he), List.nil_append]
        simp only [dedupL, hd, if_false, hb, if_true, ih]
      · have hall : ∀ q ∈ p, strcmp (key q) (key x) ≠ 0 :=
          fun q hq he => hb (hfx.2 ⟨q, hq, he⟩)
        have hb2 : f = false := by simpa using hb
        have hy : ∀ z ∈ (y :: t).head?, strcmp (key x) (key z) ≠ 0 := by
          intro z hz
          simp only [List.head?_cons, Option.mem_def, Option.some.injEq] at hz
          subst hz
          exact hd
        rw [if_pos ⟨hall, hy⟩, List.singleton_append]
        simp only [dedupL, hd, if_false, hb2, Bool.false_eq_true, ih]

theorem dropRuns_sublist (key : Nat → List Nat) : ∀ (l : List Nat) (p : Option Nat),
    List.Sublist (dropRuns key p l) l
  | [], _ => by simp [dropRuns]
  | x :: t, p => by
    rw [dropRuns]
    split_ifs
    · exact List.Sublist.cons₂ x (dropRuns_sublist key t (some x))
    · exact List.Sublist.cons x (dropRuns_sublist key t (some x))


/-! ## More sample queues -/

theorem sampleQueue_two : IsQueue (sampleQueue [[97, 98, 99], [98]]) 1 [2, 3] :=
  ⟨by decide, by decide, by decide, by decide, by decide⟩

theorem sampleQueue_none : IsQueue (sampleQueue []) 1 [] :=
  ⟨by decide, by decide, by decide, by decide, by decide⟩

theorem sampleQueue_runs :
    IsQueue (sampleQueue [[1], [2], [1], [3], [3], [2], [3]]) 1 [2, 3, 4, 5, 6, 7, 8] :=
  ⟨by decide, by decide, by decide, by decide, by decide⟩

theorem size_small {c : Nat} (hc : c < 100) : c < SIZE_MOD := by
  have : (100 : Nat) < SIZE_MOD := by unfold SIZE_MOD; norm_num
  omega

theorem map_payload_congr {h h' : Heap} {l : List Nat} (hv : ∀ y ∈ l, h'.value y = h.value y) :
    l.map (payload h') = l.map (payload h) := by
  apply List.map_congr_left
  intro y hy
  simp [payload, hv y hy]

/-! ## `insert_tail` from a fresh queue -/

/-- C11: starting from the queue that `q_new` creates (allocation succeeding) and calling
`q_insert_tail` with `v1, ..., vn` in turn, every allocation succeeding and returning a
fresh block, every call returns true and the result is a well-formed queue whose payloads
in forward traversal order are the strings `v1, ..., vn` and whose `q_size` is `n`. -/
theorem q_insert_tail_sequence (h : Heap) (p : Nat) (calls : List (List Nat × Nat × Nat))
    (fuel : Nat) (hp : p ≠ NULL) (hv : h.value p = none)
    (hnd : (p :: calls.map (fun c => c.2.1)).Nodup)
    (hnn : ∀ c ∈ calls, c.2.1 ≠ NULL ∧ c.2.2 ≠ NULL) (hf : calls.length < fuel) :
    ∃ hq h', q_new h p = .ok (p, hq) ∧ q_insert_tail_all hq p calls = .ok (true, h') ∧
      IsQueue h' p (calls.map (fun c => c.2.1)) ∧
      q_payloads fuel h' p = calls.map (fun c => cstr c.1) ∧
      ((∀ c ∈ calls, 0 ∉ c.1) → q_payloads fuel h' p = calls.map (fun c => c.1)) ∧
      q_size fuel h' p = .ok calls.length := by
  obtain ⟨hq, e0, q0, _⟩ := q_new_ok h hp hv
  obtain ⟨h', e1, q1, p1, _⟩ := q_insert_tail_all_spec calls hq [] q0 (by simpa using hnd) hnn
  simp only [List.nil_append] at q1
  have hlen : (calls.map (fun c => c.2.1)).length < fuel := by simpa using hf
  have hpay : q_payloads fuel h' p = calls.map (fun c => cstr c.1) := by
    rw [q_payloads, q1.traverse_eq fuel hlen, p1]
  refine ⟨hq, h', e0, e1, q1, hpay, ?_, ?_⟩
  · intro hz
    rw [hpay]
    apply List.map_congr_left
    intro c hc
    exact cstr_eq_self (hz c hc)
  · have := q1.q_size hlen
    simpa using this

/-- Witness of C11: `q_new`, then `q_insert_tail` of `"a"`, `"b"`, `"c"`. -/
theorem q_insert_tail_sequence_witness :
    (1 : Nat) ≠ NULL ∧ blankHeap.value 1 = none ∧
    (1 :: [([97], 2, 50), ([98], 3, 51), ([99], 4, 52)].map (fun c => c.2.1)).Nodup ∧
    (∀ c ∈ [([97], 2, 50), ([98], 3, 51), ([99], 4, 52)], c.2.1 ≠ NULL ∧ c.2.2 ≠ NULL) ∧
    ∃ hq h', q_new blankHeap 1 = .ok (1, hq) ∧
      q_insert_tail_all hq 1 [([97], 2, 50), ([98], 3, 51), ([99], 4, 52)] = .ok (true, h') ∧
      IsQueue h' 1 [2, 3, 4] ∧
      q_payloads 4 h' 1 = [[97], [98], [99]] ∧
      ((∀ c ∈ [([97], 2, 50), ([98], 3, 51), ([99], 4, 52)], 0 ∉ c.1) →
        q_payloads 4 h' 1 = [[97], [98], [99]]) ∧
      q_size 4 h' 1 = .ok 3 :=
  ⟨by decide, rfl, by decide, by decide,
    q_insert_tail_sequence blankHeap 1 [([97], 2, 50), ([98], 3, 51), ([99], 4, 52)] 4
      (by decide) rfl (by decide) (by decide) (by decide)⟩

/-! ## `remove_head` then `insert_head` -/

/-- C12: on a non-empty queue, `q_remove_head` followed by a successful `q_insert_head` of
the removed element's string gives a well-formed queue of the same size whose payloads, in
traversal order, are equal to the original ones as strings (`strcmp` gives 0), and are the
very same byte lists when the removed payload holds no `0` byte.  This holds for every
call of `q_remove_head` that returns, whatever the buffer argument, and the call does
return for a supplied buffer of at least `bufsize ≥ 1` bytes. -/
theorem q_remove_head_insert_head (h : Heap) (head : Nat) (xs : List Nat) (e str fuel : Nat)
    (q : IsQueue h head xs) (hne : xs ≠ []) (he : e ∉ head :: xs) (he0 : e ≠ NULL)
    (hs0 : str ≠ NULL) (hf : xs.length < fuel) :
    (∀ buf c, 1 ≤ c → c ≤ buf.length → c < SIZE_MOD →
      ∃ r, q_remove_head h head (some buf) c = .ok r) ∧
    ∀ sp c x h1 out, q_remove_head h head sp c = .ok (x, h1, out) →
      ∃ h2 ys, q_insert_head h1 head (payload h1 x) e str = .ok (true, h2) ∧
        IsQueue h2 head ys ∧
        q_size fuel h head = .ok xs.length ∧ q_size fuel h2 head = .ok xs.length ∧
        List.Forall₂ (fun a b => strcmp a b = 0) (ys.map (payload h2)) (xs.map (payload h)) ∧
        (0 ∉ payload h x → ys.map (payload h2) = xs.map (payload h)) := by
  refine ⟨fun buf c hc hcap hsz => q.remove_head_ok buf hc hcap hsz, ?_⟩
  intro sp c x h1 out hr
  cases xs with
  | nil => exact absurd rfl hne
  | cons x0 t =>
    obtain ⟨hx, q1, v1⟩ := q.remove_head_ret sp c _ hr
    simp only at hx q1 v1
    subst hx
    have het : e ∉ head :: t := by
      simp only [List.mem_cons, not_or] at he ⊢
      exact ⟨he.1, he.2.2⟩
    obtain ⟨h2, e2, q2, v2⟩ := q1.q_insert_head (payload h1 x) het he0 hs0
    have hp1 : payload h1 x = payload h x := by simp [payload, v1]
    have hpe : payload h2 e = cstr (payload h x) := by
      rw [← hp1]
      simp [payload, v2]
    have hpt : t.map (payload h2) = t.map (payload h) := by
      apply map_payload_congr
      intro y hy
      have hye : y ≠ e := by
        rintro rfl
        exact het (List.mem_cons_of_mem _ hy)
      rw [v2, v1]
      simp [Function.update, hye]
    refine ⟨h2, e :: t, e2, q2, q.q_size hf, ?_, ?_, ?_⟩
    · have := q2.q_size (show (e :: t).length < fuel by simpa using hf)
      simpa using this
    · rw [List.map_cons, List.map_cons, hpt, hpe]
      refine List.Forall₂.cons (strcmp_cstr _) ?_
      exact List.forall₂_same.2 (fun a _ => strcmp_self a)
    · intro hz
      rw [List.map_cons, List.map_cons, hpt, hpe, cstr_eq_self hz]

/-- Witness of C12 on the queue `["abc","b"]` with a buffer of four bytes: the two calls
give back the payloads `"abc"`, `"b"` and the size 2. -/
theorem q_remove_head_insert_head_witness :
    IsQueue (sampleQueue [[97, 98, 99], [98]]) 1 [2, 3] ∧ [2, 3] ≠ [] ∧ 9 ∉ 1 :: [2, 3] ∧
    9 ≠ NULL ∧ 60 ≠ NULL ∧ [2, 3].length < 3 ∧
    (∃ r, q_remove_head (sampleQueue [[97, 98, 99], [98]]) 1 (some [7, 7, 7, 7]) 4 = .ok r) ∧
    (q_remove_head (sampleQueue [[97, 98, 99], [98]]) 1 (some [7, 7, 7, 7]) 4 >>= fun r =>
      q_insert_head r.2.1 1 (payload r.2.1 r.1) 9 60 >>= fun r2 =>
        q_size 3 r2.2 1 >>= fun n =>
          Result.ok (r.1, r.2.2, r2.1, q_payloads 3 r2.2 1, n)) =
      .ok (2, some [97, 98, 99, 0], true, [[97, 98, 99], [98]], 2) :=
  ⟨sampleQueue_two, by decide, by decide, by decide, by decide, by decide,
    (q_remove_head_insert_head _ 1 [2, 3] 9 60 3 sampleQueue_two (by decide) (by decide)
      (by decide) (by decide) (by decide)).1 [7, 7, 7, 7] 4 (by decide) (by decide)
      (size_small (by decide)),
    by decide⟩

/-! ## `remove_head`, `remove_tail` and the output buffer -/

/-- C13: on a non-empty queue and a supplied buffer of capacity `c ≥ 1`, `q_remove_head`
(resp. `q_remove_tail`) returns the first (resp. last) element, the remaining elements
stay a well-formed queue in their original order with their payloads, and the buffer
holds the first `min (strlen payload) (c - 1)` bytes of the payload followed by `0` in
every remaining position up to `c`; its last byte is `0`. -/
theorem q_remove_copies_payload (h : Heap) (head : Nat) (xs : List Nat) (buf : List Nat)
    (c : Nat) (q : IsQueue h head xs) (hne : xs ≠ []) (hcap : buf.length = c) (hc : 1 ≤ c)
    (hsz : c < SIZE_MOD) :
    (∃ x t h', xs = x :: t ∧
      q_remove_head h head (some buf) c = .ok (x, h', some (copied (payload h x) c)) ∧
      IsQueue h' head t ∧ h'.value = h.value) ∧
    (∃ t x h', xs = t ++ [x] ∧
      q_remove_tail h head (some buf) c = .ok (x, h', some (copied (payload h x) c)) ∧
      IsQueue h' head t ∧ h'.value = h.value) ∧
    ∀ v, (copied v c).length = c ∧ (copied v c)[c - 1]? = some 0 := by
  have hd : buf.drop c = [] := List.drop_eq_nil_of_le (by omega)
  refine ⟨?_, ?_, fun v => ⟨copied_length v c, copied_terminated v hc⟩⟩
  · cases xs with
    | nil => exact absurd rfl hne
    | cons x t =>
      obtain ⟨h', e, q', v'⟩ := q.q_remove_head buf hc (by omega) hsz
      rw [hd, List.append_nil] at e
      exact ⟨x, t, h', rfl, e, q', v'⟩
  · rcases List.eq_nil_or_concat xs with rfl | ⟨t, x, rfl⟩
    · exact absurd rfl hne
    · rw [List.concat_eq_append] at q ⊢
      obtain ⟨h', e, q', v'⟩ := q.q_remove_tail buf hc (by omega) hsz
      rw [hd, List.append_nil] at e
      exact ⟨t, x, h', rfl, e, q', v'⟩

/-- Witness of C13: removing from `["abc","b"]` into a buffer of three bytes leaves
`"ab\0"` for the head and `"b\0\0"` for the tail. -/
theorem q_remove_copies_payload_witness :
    IsQueue (sampleQueue [[97, 98, 99], [98]]) 1 [2, 3] ∧ [2, 3] ≠ [] ∧ [7, 7, 7].length = 3 ∧
    1 ≤ 3 ∧ 3 < SIZE_MOD ∧
    ((∃ x t h', [2, 3] = x :: t ∧
      q_remove_head (sampleQueue [[97, 98, 99], [98]]) 1 (some [7, 7, 7]) 3 =
        .ok (x, h', some (copied (payload (sampleQueue [[97, 98, 99], [98]]) x) 3)) ∧
      IsQueue h' 1 t ∧ h'.value = (sampleQueue [[97, 98, 99], [98]]).value) ∧
    (∃ t x h', [2, 3] = t ++ [x] ∧
      q_remove_tail (sampleQueue [[97, 98, 99], [98]]) 1 (some [7, 7, 7]) 3 =
        .ok (x, h', some (copied (payload (sampleQueue [[97, 98, 99], [98]]) x) 3)) ∧
      IsQueue h' 1 t ∧ h'.value = (sampleQueue [[97, 98, 99], [98]]).value) ∧
    ∀ v, (copied v 3).length = 3 ∧ (copied v 3)[3 - 1]? = some 0) ∧
    (q_remove_head (sampleQueue [[97, 98, 99], [98]]) 1 (some [7, 7, 7]) 3 >>= fun r =>
      Result.ok (r.1, r.2.2)) = .ok (2, some [97, 98, 0]) ∧
    (q_remove_tail (sampleQueue [[97, 98, 99], [98]]) 1 (some [7, 7, 7]) 3 >>= fun r =>
      Result.ok (r.1, r.2.2)) = .ok (3, some [98, 0, 0]) :=
  ⟨sampleQueue_two, by decide, rfl, by decide, size_small (by decide),
    q_remove_copies_payload _ 1 [2, 3] [7, 7, 7] 3 sampleQueue_two (by decide) rfl (by decide)
      (size_small (by decide)),
    by decide, by decide⟩

theorem IsQueue.remove_zero_faults {h : Heap} {head : Nat} {xs : List Nat}
    (q : IsQueue h head xs) (hne : xs ≠ []) (buf : List Nat) (hcap : buf.length < SIZE_MOD - 1) :
    Queue.q_remove_head h head (some buf) 0 = .fault ∧
      Queue.q_remove_tail h head (some buf) 0 = .fault := by
  constructor
  · cases xs with
    | nil => exact absurd rfl hne
    | cons x t =>
      obtain ⟨h', _, _, _, _, e⟩ := q.remove_head_prefix (some buf) 0
      rw [e, ← Result.bind_assoc_ok, remove_buffer_zero _ buf hcap]
      rfl
  · rcases List.eq_nil_or_concat xs with rfl | ⟨t, x, rfl⟩
    · exact absurd rfl hne
    · rw [List.concat_eq_append] at q
      obtain ⟨h', _, _, _, _, e⟩ := q.remove_tail_prefix (some buf) 0
      rw [e, ← Result.bind_assoc_ok, remove_buffer_zero _ buf hcap]
      rfl

theorem IsQueue.remove_null_faults {h : Heap} {head : Nat} {xs : List Nat}
    (q : IsQueue h head xs) (hne : xs ≠ []) (bufsize : Nat) :
    Queue.q_remove_head h head none bufsize = .fault ∧
      Queue.q_remove_tail h head none bufsize = .fault := by
  constructor
  · cases xs with
    | nil => exact absurd rfl hne
    | cons x t =>
      obtain ⟨h', _, _, _, _, e⟩ := q.remove_head_prefix none bufsize
      rw [e, ← Result.bind_assoc_ok, remove_buffer_null]
      rfl
  · rcases List.eq_nil_or_concat xs with rfl | ⟨t, x, rfl⟩
    · exact absurd rfl hne
    · rw [List.concat_eq_append] at q
      obtain ⟨h', _, _, _, _, e⟩ := q.remove_tail_prefix none bufsize
      rw [e, ← Result.bind_assoc_ok, remove_buffer_null]
      rfl

/-- C14 fails on the code: with capacity `c = 0` the copy length `c - 1` wraps to
`2^64 - 1` in `size_t`, and `strncpy` writes exactly that many bytes (`2^64 - 1` of them,
for every payload), so `q_remove_head` and `q_remove_tail` on the queue `["abc","b"]`
with an empty buffer write past its end: the run is a fault. -/
theorem q_remove_zero_capacity_overflows :
    q_remove_head (sampleQueue [[97, 98, 99], [98]]) 1 (some []) 0 = .fault ∧
    q_remove_tail (sampleQueue [[97, 98, 99], [98]]) 1 (some []) 0 = .fault ∧
    (SIZE_MOD - 1 + 0) % SIZE_MOD = 2 ^ 64 - 1 ∧
    ∀ v, (strncpy_bytes v ((SIZE_MOD - 1 + 0) % SIZE_MOD)).length = 2 ^ 64 - 1 := by
  have hz : (SIZE_MOD - 1 + 0) % SIZE_MOD = 2 ^ 64 - 1 := by
    rw [size_zero_sub_one]; rfl
  have hcap : ([] : List Nat).length < SIZE_MOD - 1 := by
    unfold SIZE_MOD; norm_num
  have := sampleQueue_two.remove_zero_faults (by decide) [] hcap
  exact ⟨this.1, this.2, hz, fun v => by rw [strncpy_bytes_length, hz]⟩

/-- C15 fails on the code: `q_remove_head` and `q_remove_tail` do not test `sp`, so on the
queue `["abc","b"]` a call without buffer (`sp == NULL`, `bufsize` 8) runs `memset` on
`NULL`: the run is a fault and no element is returned. -/
theorem q_remove_null_buffer_faults :
    q_remove_head (sampleQueue [[97, 98, 99], [98]]) 1 none 8 = .fault ∧
    q_remove_tail (sampleQueue [[97, 98, 99], [98]]) 1 none 8 = .fault :=
  sampleQueue_two.remove_null_faults (by decide) 8

/-- C16: on an absent (`NULL`) queue and on an empty queue `q_remove_head` and
`q_remove_tail` return `NULL` and leave the heap and the output buffer exactly as they
were, for every buffer (absent or not) and every `bufsize`. -/
theorem q_remove_absent_or_empty (h : Heap) (head : Nat) (sp : Option (List Nat))
    (bufsize : Nat) (hq : head = NULL ∨ IsQueue h head []) :
    q_remove_head h head sp bufsize = .ok (NULL, h, sp) ∧
      q_remove_tail h head sp bufsize = .ok (NULL, h, sp) :=
  q_remove_absent h head sp bufsize hq

/-- Witness of C16 on the empty queue with a buffer of two bytes. -/
theorem q_remove_absent_or_empty_witness :
    ((1 : Nat) = NULL ∨ IsQueue (sampleQueue []) 1 []) ∧
    q_remove_head (sampleQueue []) 1 (some [7, 7]) 2 = .ok (NULL, sampleQueue [], some [7, 7]) ∧
    q_remove_tail (sampleQueue []) 1 (some [7, 7]) 2 = .ok (NULL, sampleQueue [], some [7, 7]) :=
  ⟨Or.inr sampleQueue_none,
    q_remove_absent_or_empty (sampleQueue []) 1 (some [7, 7]) 2 (Or.inr sampleQueue_none)⟩

/-! ## `insert_head`, `insert_tail` -/

/-- C17: `q_insert_head` and `q_insert_tail` return false when the queue is `NULL` or when
the allocation of the element (`e`) or of its string (`str`) fails, and then the heap is
exactly as before; when the queue is well-formed and both allocations succeed (the new
block being fresh) they return true and the queue is the old one, every old payload
untouched, with the new element `e` first (resp. last), whose payload is the string `s`. -/
theorem q_insert_contract (h : Heap) (head : Nat) (xs : List Nat) (s : List Nat) (e str : Nat)
    (q : IsQueue h head xs) (he : e ∉ head :: xs) :
    (q_insert_head h NULL s e str = .ok (false, h) ∧
      q_insert_tail h NULL s e str = .ok (false, h)) ∧
    (e = NULL ∨ str = NULL →
      q_insert_head h head s e str = .ok (false, h) ∧
      q_insert_tail h head s e str = .ok (false, h)) ∧
    (e ≠ NULL ∧ str ≠ NULL →
      (∃ h', q_insert_head h head s e str = .ok (true, h') ∧ IsQueue h' head (e :: xs) ∧
        payload h' e = cstr s ∧ strcmp (payload h' e) s = 0 ∧ (0 ∉ s → payload h' e = s) ∧
        ∀ y ∈ xs, h'.value y = h.value y) ∧
      (∃ h', q_insert_tail h head s e str = .ok (true, h') ∧ IsQueue h' head (xs ++ [e]) ∧
        payload h' e = cstr s ∧ strcmp (payload h' e) s = 0 ∧ (0 ∉ s → payload h' e = s) ∧
        ∀ y ∈ xs, h'.value y = h.value y)) := by
  refine ⟨q_insert_fail h NULL s e str (Or.inl rfl),
    fun hfail => q_insert_fail h head s e str (Or.inr hfail), ?_⟩
  rintro ⟨he0, hs0⟩
  have hold : ∀ h' : Heap, h'.value = Function.update h.value e (some (cstr s)) →
      payload h' e = cstr s ∧ strcmp (payload h' e) s = 0 ∧ (0 ∉ s → payload h' e = s) ∧
        ∀ y ∈ xs, h'.value y = h.value y := by
    intro h' v
    have hp : payload h' e = cstr s := by simp [payload, v]
    refine ⟨hp, by rw [hp]; exact strcmp_cstr s, fun hz => by rw [hp, cstr_eq_self hz], ?_⟩
    intro y hy
    have hye : y ≠ e := by
      rintro rfl
      exact he (List.mem_cons_of_mem _ hy)
    rw [v]
    simp [Function.update, hye]
  obtain ⟨h1, e1, q1, v1⟩ := q.q_insert_head s he he0 hs0
  obtain ⟨h2, e2, q2, v2⟩ := q.q_insert_tail s he he0 hs0
  exact ⟨⟨h1, e1, q1, hold h1 v1⟩, ⟨h2, e2, q2, hold h2 v2⟩⟩

/-- Witness of C17: inserting `"de"` into the queue `["abc","b"]`. -/
theorem q_insert_contract_witness :
    IsQueue (sampleQueue [[97, 98, 99], [98]]) 1 [2, 3] ∧ 9 ∉ 1 :: [2, 3] ∧
    (q_insert_head (sampleQueue [[97, 98, 99], [98]]) 1 [100, 101] 9 60 >>= fun r =>
      Result.ok (r.1, q_payloads 4 r.2 1)) = .ok (true, [[100, 101], [97, 98, 99], [98]]) ∧
    (q_insert_tail (sampleQueue [[97, 98, 99], [98]]) 1 [100, 101] 9 60 >>= fun r =>
      Result.ok (r.1, q_payloads 4 r.2 1)) = .ok (true, [[97, 98, 99], [98], [100, 101]]) ∧
    (9 ≠ NULL ∧ 60 ≠ NULL →
      (∃ h', q_insert_head (sampleQueue [[97, 98, 99], [98]]) 1 [100, 101] 9 60 = .ok (true, h') ∧
        IsQueue h' 1 (9 :: [2, 3]) ∧
        payload h' 9 = cstr [100, 101] ∧ strcmp (payload h' 9) [100, 101] = 0 ∧
        (0 ∉ [100, 101] → payload h' 9 = [100, 101]) ∧
        ∀ y ∈ [2, 3], h'.value y = (sampleQueue [[97, 98, 99], [98]]).value y) ∧
      (∃ h', q_insert_tail (sampleQueue [[97, 98, 99], [98]]) 1 [100, 101] 9 60 = .ok (true, h') ∧
        IsQueue h' 1 ([2, 3] ++ [9]) ∧
        payload h' 9 = cstr [100, 101] ∧ strcmp (payload h' 9) [100, 101] = 0 ∧
        (0 ∉ [100, 101] → payload h' 9 = [100, 101]) ∧
        ∀ y ∈ [2, 3], h'.value y = (sampleQueue [[97, 98, 99], [98]]).value y)) :=
  ⟨sampleQueue_two, by decide, by decide, by decide,
    (q_insert_contract _ 1 [2, 3] [100, 101] 9 60 sampleQueue_two (by decide)).2.2⟩

/-! ## The invariants of the structure -/

theorem IsQueue.sentinel_read_faults {h : Heap} {head : Nat} {xs : List Nat}
    (q : IsQueue h head xs) : rdValue h head = .fault := by
  simp [rdValue, q.head_ne, q.sentinel]

/-- C18: well-formedness is an invariant of every mutating operation.  From a well-formed
queue, each of `q_insert_head`, `q_insert_tail` (whatever the allocator answers, a new
block being fresh), `q_remove_head`, `q_remove_tail` (with a supplied buffer of at least
`bufsize ≥ 1` bytes), `q_delete_mid`, `q_delete_dup`, `q_swap`, `q_reverse` and `q_sort`
(on at most `2^30` elements, the lengths for which its `int` variables do not overflow)
ends in a heap where the structure at the sentinel is again well-formed: consistent links
in both directions, every element visited once by `next`, and the `prev` traversal the
exact reverse of the `next` traversal.  For the two removals this also holds for every
other buffer argument whenever the call returns. -/
theorem wellformed_invariant (h : Heap) (head : Nat) (xs : List Nat) (fuel : Nat)
    (q : IsQueue h head xs) (hf : 4 * xs.length + 3 ≤ fuel) :
    WellFormed h head ∧
    (∀ s e str, e ∉ head :: xs →
      (∃ r, q_insert_head h head s e str = .ok r ∧ WellFormed r.2 head) ∧
      (∃ r, q_insert_tail h head s e str = .ok r ∧ WellFormed r.2 head)) ∧
    (∀ buf c, 1 ≤ c → c ≤ buf.length → c < SIZE_MOD →
      (∃ r, q_remove_head h head (some buf) c = .ok r ∧ WellFormed r.2.1 head) ∧
      (∃ r, q_remove_tail h head (some buf) c = .ok r ∧ WellFormed r.2.1 head)) ∧
    (∀ sp c r, q_remove_head h head sp c = .ok r ∨ q_remove_tail h head sp c = .ok r →
      WellFormed r.2.1 head) ∧
    (∃ r, q_delete_mid fuel h head = .ok r ∧ WellFormed r.2 head) ∧
    (∃ r, q_delete_dup fuel h head = .ok r ∧ WellFormed r.2 head) ∧
    (∃ h', q_swap fuel h head = .ok h' ∧ WellFormed h' head) ∧
    (∃ h', q_reverse fuel h head = .ok h' ∧ WellFormed h' head) ∧
    (xs.length ≤ 2 ^ 30 → ∃ h', q_sort fuel h head = .ok h' ∧ WellFormed h' head) := by
  have hlt : xs.length < fuel := by omega
  refine ⟨q.wellFormed, fun s e str he => q.insert_wellFormed s e str he, ?_, ?_, ?_, ?_, ?_,
    ?_, ?_⟩
  · intro buf c hc hcap hsz
    obtain ⟨r1, e1⟩ := q.remove_head_ok buf hc hcap hsz
    obtain ⟨r2, e2⟩ := q.remove_tail_ok buf hc hcap hsz
    exact ⟨⟨r1, e1, (q.remove_head_any _ _ r1 e1).wellFormed⟩,
      ⟨r2, e2, (q.remove_tail_any _ _ r2 e2).wellFormed⟩⟩
  · intro sp c r hr
    rcases hr with hr | hr
    · exact (q.remove_head_any sp c r hr).wellFormed
    · exact (q.remove_tail_any sp c r hr).wellFormed
  · obtain ⟨r, ys, e, q'⟩ := q.q_delete_mid_any hlt
    exact ⟨r, e, q'.wellFormed⟩
  · obtain ⟨h', e, q', _⟩ := q.q_delete_dup hlt
    exact ⟨_, e, q'.wellFormed⟩
  · obtain ⟨h', e, q', _⟩ := q.q_swap hlt
    exact ⟨h', e, q'.wellFormed⟩
  · exact ⟨_, q.q_reverse hlt, q.flipOn.wellFormed⟩
  · intro hb
    obtain ⟨h', zs, e, q', _⟩ := q.q_sort hf hb
    exact ⟨h', e, q'.wellFormed⟩

/-- Witness of C18 on the queue `["b","a","a"]`. -/
theorem wellformed_invariant_witness :
    IsQueue (sampleQueue [[98], [97], [97]]) 1 [2, 3, 4] ∧ 4 * [2, 3, 4].length + 3 ≤ 15 ∧
    [2, 3, 4].length ≤ 2 ^ 30 ∧
    (∃ h', q_sort 15 (sampleQueue [[98], [97], [97]]) 1 = .ok h' ∧ WellFormed h' 1) ∧
    (q_sort 15 (sampleQueue [[98], [97], [97]]) 1 >>= fun r =>
      Result.ok (traverse 4 r 1 (r.next 1), traverseBack 4 r 1 (r.prev 1))) =
        .ok ([3, 4, 2], [2, 4, 3]) :=
  ⟨sampleQueue_three, by decide, by decide,
    (wellformed_invariant _ 1 [2, 3, 4] 15 sampleQueue_three (by decide)).2.2.2.2.2.2.2.2
      (by decide),
    by decide⟩

/-- C19: no payload is read through the sentinel.  In the embedding a payload read
through a node that is no element is a fault, and the sentinel of a well-formed queue is
no element (`rdValue` on it faults).  On every well-formed queue `q_delete_mid`,
`q_delete_dup` and `q_sort` (with every `merge` of every pass, the last partial one
included; on at most `2^30` elements, the lengths for which the `int` variables of
`q_sort` do not overflow) run without fault, the node whose payload `q_remove_head` (resp. `q_remove_tail`)
reads is the first (resp. last) element, and both run without fault on a supplied buffer;
afterwards the sentinel is still no element. -/
theorem no_payload_read_through_sentinel (h : Heap) (head : Nat) (xs : List Nat) (fuel : Nat)
    (q : IsQueue h head xs) (hf : 4 * xs.length + 3 ≤ fuel) :
    rdValue h head = .fault ∧
    (∃ r, q_delete_mid fuel h head = .ok r ∧ rdValue r.2 head = .fault) ∧
    (∃ r, q_delete_dup fuel h head = .ok r ∧ rdValue r.2 head = .fault) ∧
    (xs.length ≤ 2 ^ 30 → ∃ h', q_sort fuel h head = .ok h' ∧ rdValue h' head = .fault) ∧
    (∀ x t, xs = x :: t →
      (rdNext h head >>= fun tgt => list_del h tgt >>= fun h1 => rdValue h1 tgt) =
        .ok (payload h x)) ∧
    (∀ t x, xs = t ++ [x] →
      (rdPrev h head >>= fun tgt => list_del h tgt >>= fun h1 => rdValue h1 tgt) =
        .ok (payload h x)) ∧
    (∀ buf c, 1 ≤ c → c ≤ buf.length → c < SIZE_MOD →
      (∃ r, q_remove_head h head (some buf) c = .ok r ∧ rdValue r.2.1 head = .fault) ∧
      (∃ r, q_remove_tail h head (some buf) c = .ok r ∧ rdValue r.2.1 head = .fault)) := by
  have hlt : xs.length < fuel := by omega
  have h0 := q.head_ne
  refine ⟨q.sentinel_read_faults, ?_, ?_, ?_, ?_, ?_, ?_⟩
  · obtain ⟨r, ys, e, q'⟩ := q.q_delete_mid_any hlt
    exact ⟨r, e, q'.sentinel_read_faults⟩
  · obtain ⟨h', e, q', _⟩ := q.q_delete_dup hlt
    exact ⟨_, e, q'.sentinel_read_faults⟩
  · intro hb
    obtain ⟨h', zs, e, q', _⟩ := q.q_sort hf hb
    exact ⟨h', e, q'.sentinel_read_faults⟩
  · rintro x t rfl
    obtain ⟨h', e, hr, _⟩ := q.remove_head_prefix none 0
    simp only [rdNext_ok h h0, Result.ok_bind, q.next_head, firstOr_cons, e, hr]
  · rintro t x rfl
    obtain ⟨h', e, hr, _⟩ := q.remove_tail_prefix none 0
    simp only [rdPrev_ok h h0, Result.ok_bind, q.prev_head, lastOr_snoc, e, hr]
  · intro buf c hc hcap hsz
    obtain ⟨r1, e1⟩ := q.remove_head_ok buf hc hcap hsz
    obtain ⟨r2, e2⟩ := q.remove_tail_ok buf hc hcap hsz
    exact ⟨⟨r1, e1, (q.remove_head_any _ _ r1 e1).sentinel_read_faults⟩,
      ⟨r2, e2, (q.remove_tail_any _ _ r2 e2).sentinel_read_faults⟩⟩

/-- Witness of C19 on the queue `["b","a","a"]`, where the last merge of the second pass
has a right run that ends at the sentinel. -/
theorem no_payload_read_through_sentinel_witness :
    IsQueue (sampleQueue [[98], [97], [97]]) 1 [2, 3, 4] ∧ 4 * [2, 3, 4].length + 3 ≤ 15 ∧
    [2, 3, 4].length ≤ 2 ^ 30 ∧
    rdValue (sampleQueue [[98], [97], [97]]) 1 = .fault ∧
    ∃ h', q_sort 15 (sampleQueue [[98], [97], [97]]) 1 = .ok h' ∧ rdValue h' 1 = .fault :=
  ⟨sampleQueue_three, by decide, by decide,
    (no_payload_read_through_sentinel _ 1 [2, 3, 4] 15 sampleQueue_three (by decide)).1,
    (no_payload_read_through_sentinel _ 1 [2, 3, 4] 15 sampleQueue_three (by decide)).2.2.2.1
      (by decide)⟩

/-! ## `delete_adjacent_duplicates` on any order -/

/-- C20: on every well-formed queue, sorted or not, `q_delete_dup` returns true and leaves
a well-formed queue of exactly the elements whose payload differs from the payload of both
traversal neighbours (the elements outside every run of two or more adjacent equal
payloads), in their original order and with their payloads. -/
theorem q_delete_dup_any_order (h : Heap) (head : Nat) (xs : List Nat) (fuel : Nat)
    (q : IsQueue h head xs) (hf : xs.length < fuel) :
    ∃ h', q_delete_dup fuel h head = .ok (true, h') ∧
      IsQueue h' head (dropRuns (payload h) none xs) ∧
      List.Sublist (dropRuns (payload h) none xs) xs ∧
      ∀ y ∈ dropRuns (payload h) none xs, h'.value y = h.value y := by
  obtain ⟨h', e, q', v⟩ := q.q_delete_dup hf
  have he : dedupL (payload h) false xs = dropRuns (payload h) none xs :=
    dedupL_eq_dropRuns (payload h) xs none false (by simp)
  rw [he] at q' v
  exact ⟨h', e, q', dropRuns_sublist _ _ _, v⟩

/-- Witness of C20: the unsorted queue of payloads `1, 2, 1, 3, 3, 2, 3` becomes
`1, 2, 1, 2, 3`: only the run `3, 3` goes, equal payloads that are not adjacent stay. -/
theorem q_delete_dup_any_order_witness :
    IsQueue (sampleQueue [[1], [2], [1], [3], [3], [2], [3]]) 1 [2, 3, 4, 5, 6, 7, 8] ∧
    (∃ h', q_delete_dup 8 (sampleQueue [[1], [2], [1], [3], [3], [2], [3]]) 1 = .ok (true, h') ∧
      IsQueue h' 1 [2, 3, 4, 7, 8] ∧
      List.Sublist [2, 3, 4, 7, 8] [2, 3, 4, 5, 6, 7, 8] ∧
      ∀ y ∈ [2, 3, 4, 7, 8],
        h'.value y = (sampleQueue [[1], [2], [1], [3], [3], [2], [3]]).value y) ∧
    (q_delete_dup 8 (sampleQueue [[1], [2], [1], [3], [3], [2], [3]]) 1 >>= fun r =>
      Result.ok (r.1, q_payloads 8 r.2 1)) = .ok (true, [[1], [2], [1], [2], [3]]) :=
  ⟨sampleQueue_runs,
    q_delete_dup_any_order _ 1 [2, 3, 4, 5, 6, 7, 8] 8 sampleQueue_runs (by decide),
    by decide⟩

end Queue
